import Mathlib

/-!
# BassBud: pitch detector, pitch stabiliser, note mapper and mode classifier

A shallow embedding of `PluginProcessor.cpp`, `PluginEditor.cpp` and
`YinPitchDetector.h`.

Conventions of the embedding:

* `float` values are exact rationals (`ℚ`); a float literal such as `0.7f` is the
  decimal it is written as, and `+`, `*`, `/`, comparisons are exact. In the detector
  (`difference` and every step after it) a computed float is a `CFloat`, which adds
  NaN, the two infinities, overflow and underflow.
* `int` values are `Int`; C++ `/` and `%` on `int` are `Int.tdiv` and `Int.tmod`
  (truncation towards zero). No value here comes near the 32-bit range: the only
  counter, `stableFrameCount`, grows by one per audio block.
* `std::log2` is a library function outside the repository: every definition that
  calls it takes it as the parameter `log2 : ℚ → ℚ`.
* `juce::String` is `String`; `substring (0, n)` keeps the first `n` characters.
* the member variables of `DefaultAudioProcessor` that the stabiliser reads and
  writes form the record `DefaultAudioProcessor`; a member function is a function
  from the record (and its arguments) to the updated record.
-/

namespace BassBud

/-! ## PluginProcessor.h / PluginProcessor.cpp -/

/-- Member variables of the processor (PluginProcessor.h:46-57). -/
structure DefaultAudioProcessor where
  currentPitch : ℚ
  currentString : Int
  currentFret : Int
  currentNote : String
  smoothedPitch : ℚ
  stableFrameCount : Int
  deriving DecidableEq

/-- The function `std::round`: nearest integer, halfway cases away from zero. -/
def stdRound (x : ℚ) : Int :=
  if 0 ≤ x then ⌊x + 1 / 2⌋ else ⌈x - 1 / 2⌉

/-- The value of `std::numeric_limits<float>::max()`: (2^24 - 1) * 2^104. -/
def FLT_MAX : ℚ := (2 ^ 24 - 1) * 2 ^ 104

/-- A concrete instance of the parameter `log2`: the base-2 logarithm truncated to
8 fractional bits, `⌊256 * log₂ x⌋ / 256` for `0 < x`, computed exactly as the integer
logarithm of `x ^ 256`. Theorems are stated for every `log2`; this instance is what
they are evaluated at on concrete inputs. -/
def log2Fixed (x : ℚ) : ℚ := (Int.log 2 (x ^ 256) : ℚ) / 256

namespace DefaultAudioProcessor

/-- Constant `requiredStableFrames` (PluginProcessor.h:58). -/
def requiredStableFrames : Int := 3

/-- State set up by the constructor (PluginProcessor.cpp:15-16); `prepareToPlay`
resets `smoothedPitch` and `stableFrameCount` to the same values. -/
def initialState : DefaultAudioProcessor :=
  { currentPitch := 0, currentString := -1, currentFret := -1, currentNote := "---",
    smoothedPitch := 0, stableFrameCount := 0 }

/-- Table `noteNames` of `frequencyToNoteName` (PluginProcessor.cpp:245). -/
def noteNames : List String :=
  ["C", "C#", "D", "D#", "E", "F"] ++ ["F#", "G", "G#", "A", "A#", "B"]

/-- Local `semitonesFromA4` of `frequencyToNoteName` (PluginProcessor.cpp:247-248). -/
def semitonesFromA4 (log2 : ℚ → ℚ) (frequency : ℚ) : Int :=
  let referenceFrequency : ℚ := 440.0
  stdRound (12.0 * log2 (frequency / referenceFrequency))

/-- Local `noteIndex` of `frequencyToNoteName` (PluginProcessor.cpp:250-251). -/
def noteIndex (semitonesFromA4 : Int) : Int :=
  let noteIndex := (semitonesFromA4 + 9).tmod 12
  if noteIndex < 0 then noteIndex + 12 else noteIndex

/-- Local `octave` of `frequencyToNoteName` (PluginProcessor.cpp:253). -/
def octave (semitonesFromA4 : Int) : Int :=
  4 + (semitonesFromA4 + 9).tdiv 12

/-- The returned string of `frequencyToNoteName`, as a function of the local
`semitonesFromA4` (PluginProcessor.cpp:250-255). -/
def noteNameOfSemitones (semitonesFromA4 : Int) : String :=
  noteNames.getD (noteIndex semitonesFromA4).toNat "" ++ toString (octave semitonesFromA4)

/-- Function `frequencyToNoteName` (PluginProcessor.cpp:243-256). -/
def frequencyToNoteName (log2 : ℚ → ℚ) (frequency : ℚ) : String :=
  noteNameOfSemitones (semitonesFromA4 log2 frequency)

/-- Table `openStringFrequencies` of `updateCurrentNote` (PluginProcessor.cpp:206). -/
def openStringFrequencies : List ℚ := [41.20, 55.00, 73.42, 98.00]

/-- Constant `numStrings` of `updateCurrentNote` (PluginProcessor.cpp:207). -/
def numStrings : Nat := 4

/-- One iteration of the closest-string loop (PluginProcessor.cpp:215-220); the
accumulator is `(minDifference, closestString)`. -/
def closestStringStep (log2 : ℚ → ℚ) (pitch : ℚ) (acc : ℚ × Int) (i : Nat) : ℚ × Int :=
  let difference := |log2 (pitch / openStringFrequencies.getD i 0)|
  if difference < acc.1 then (difference, (i : Int)) else acc

/-- The closest-string loop of `updateCurrentNote` (PluginProcessor.cpp:209-221),
returning `(minDifference, closestString)`. -/
def closestStringLoop (log2 : ℚ → ℚ) (pitch : ℚ) : ℚ × Int :=
  (List.range numStrings).foldl (closestStringStep log2 pitch) (FLT_MAX, -1)

/-- Function `updateCurrentNote` (PluginProcessor.cpp:204-238). -/
def updateCurrentNote (log2 : ℚ → ℚ) (self : DefaultAudioProcessor) (pitch : ℚ) :
    DefaultAudioProcessor :=
  let closestString := (closestStringLoop log2 pitch).2
  let self := { self with currentString := closestString }
  if self.currentString ≠ -1 then
    let semitones := 12 * log2 (pitch / openStringFrequencies.getD self.currentString.toNat 0)
    let self := { self with currentFret := stdRound semitones }
    let self := if self.currentFret < 0 then { self with currentFret := 0 } else self
    { self with currentNote := frequencyToNoteName log2 pitch }
  else
    { self with currentFret := -1, currentNote := "---" }

/-- The stabiliser update of `processBlock` (PluginProcessor.cpp:156-190), run once
per block on `detectedPitch`, the value `detectPitch` returned for the block
(PluginProcessor.cpp:153). -/
def processBlock (log2 : ℚ → ℚ) (self : DefaultAudioProcessor) (detectedPitch : ℚ) :
    DefaultAudioProcessor :=
  if 40.0 ≤ detectedPitch ∧ detectedPitch ≤ 400.0 then
    if |detectedPitch - self.smoothedPitch| < 3.0 ∨ self.smoothedPitch = 0.0 then
      let self := { self with smoothedPitch := 0.7 * self.smoothedPitch + 0.3 * detectedPitch }
      let self := { self with stableFrameCount := self.stableFrameCount + 1 }
      if self.stableFrameCount ≥ requiredStableFrames then
        let self := { self with currentPitch := self.smoothedPitch }
        updateCurrentNote log2 self self.currentPitch
      else
        self
    else
      let self := { self with stableFrameCount := 0 }
      { self with smoothedPitch := detectedPitch }
  else
    let self := { self with stableFrameCount := 0 }
    if self.smoothedPitch > 0.0 then
      let self := { self with smoothedPitch := self.smoothedPitch * 0.9 }
      if self.smoothedPitch < 30.0 then
        { self with smoothedPitch := 0.0, currentPitch := 0.0, currentString := -1,
                    currentFret := -1, currentNote := "---" }
      else
        self
    else
      self

end DefaultAudioProcessor

/-! ## PluginEditor.cpp -/

/-- The function `juce::String::substring (start, end)`: the characters from index
`start` (clamped to 0) up to, not including, index `end`; empty when `end ≤ start`. -/
def substring (s : String) (startIndex endIndex : Int) : String :=
  String.mk ((s.data.drop startIndex.toNat).take (endIndex.toNat - startIndex.toNat))

namespace DefaultAudioProcessorEditor

/-- Function `isNoteMatch` (PluginEditor.cpp:258-264). -/
def isNoteMatch (currentNote compareNote : String) : Bool :=
  let currentNoteName := substring currentNote 0 ((currentNote.length : Int) - 1)
  let compareNoteName := substring compareNote 0 ((compareNote.length : Int) - 1)
  currentNoteName == compareNoteName

/-- Table `modeIntervals` of `isNoteInMode` (PluginEditor.cpp:271-279). -/
def modeIntervals : List (List Int) :=
  [ [0, 2, 4, 5, 7, 9, 11],
    [0, 2, 3, 5, 7, 9, 10],
    [0, 1, 3, 5, 7, 8, 10],
    [0, 2, 4, 6, 7, 9, 11],
    [0, 2, 4, 5, 7, 9, 10],
    [0, 2, 3, 5, 7, 8, 10],
    [0, 1, 3, 5, 6, 8, 10] ]

/-- Table `noteNames` of `isNoteInMode` (PluginEditor.cpp:284). -/
def noteNames : List String :=
  ["C", "C#", "D", "D#", "E", "F"] ++ ["F#", "G", "G#", "A", "A#", "B"]

/-- One iteration of the index search of `isNoteInMode` (PluginEditor.cpp:290-291);
the accumulator is `(rootIndex, noteIndex)`. -/
def findIndicesStep (rootNoteName noteToCheck : String) (acc : Int × Int) (i : Nat) :
    Int × Int :=
  let acc := if noteNames.getD i "" = rootNoteName then ((i : Int), acc.2) else acc
  if noteNames.getD i "" = noteToCheck then (acc.1, (i : Int)) else acc

/-- The index search of `isNoteInMode` (PluginEditor.cpp:285-292), returning
`(rootIndex, noteIndex)`. -/
def findIndices (rootNoteName noteToCheck : String) : Int × Int :=
  (List.range 12).foldl (findIndicesStep rootNoteName noteToCheck) (-1, -1)

/-- Function `isNoteInMode` (PluginEditor.cpp:269-304). An entry outside the table
(a `modeIndex` outside 0..6, undefined in C++) reads as `-1`, which no interval
equals. -/
def isNoteInMode (note root : String) (modeIndex : Int) : Bool :=
  let rootNoteName := substring root 0 ((root.length : Int) - 1)
  let noteToCheck := substring note 0 ((note.length : Int) - 1)
  let (rootIndex, noteIndex) := findIndices rootNoteName noteToCheck
  if rootIndex = -1 ∨ noteIndex = -1 then false
  else
    let interval := (noteIndex - rootIndex + 12).tmod 12
    (List.range 7).any fun i =>
      ((modeIntervals.getD modeIndex.toNat []).getD i (-1)) == interval

/-- Function `getOpenStringNote` (PluginEditor.cpp:312-316). -/
def getOpenStringNote (stringIndex : Int) : String :=
  let openStringNotes : List String := ["G3", "D3", "A2", "E2"]
  openStringNotes.getD stringIndex.toNat ""

/-- The search loop of `getNoteAtPosition` (PluginEditor.cpp:326-334): the first
index of `target` in `notes`, or 0. -/
def firstIndexOf (notes : List String) (target : String) : Int :=
  match (List.range 12).find? (fun i => notes.getD i "" == target) with
  | some i => (i : Int)
  | none => 0

/-- Function `getNoteAtPosition` (PluginEditor.cpp:321-341). -/
def getNoteAtPosition (stringIndex fretIndex : Int) : String :=
  let notes : List String :=
    ["C", "C#", "D", "D#", "E", "F"] ++ ["F#", "G", "G#", "A", "A#", "B"]
  let openStringNotes : List String := ["G", "D", "A", "E"]
  let noteIndex := firstIndexOf notes (openStringNotes.getD stringIndex.toNat "")
  let noteIndex := (noteIndex + fretIndex).tmod 12
  let octave := 2 + (if stringIndex ≥ 2 then 1 else 0) + (noteIndex + fretIndex).tdiv 12
  notes.getD noteIndex.toNat "" ++ toString octave

end DefaultAudioProcessorEditor

/-- The major scale of the specification: the semitone offsets `{0,2,4,5,7,9,11}`. -/
def majorScale : List Int := [0, 2, 4, 5, 7, 9, 11]

/-- The specification's mode `k`: the major scale rotated to start on its `k`-th
degree, `(major[(k+i) mod 7] - major[k]) mod 12` for `i = 0..6`. -/
def rotatedMajor (k : Nat) : List Int :=
  (List.range 7).map fun i => (majorScale.getD ((k + i) % 7) 0 - majorScale.getD k 0) % 12

namespace DefaultAudioProcessor

/-- The condition under which `processBlock` reaches the commit of
PluginProcessor.cpp:165-166: the conditions of the three nested `if`s on lines 156,
159 and 163, the last one read after the increment of line 162. -/
def commitsLockedPitch (self : DefaultAudioProcessor) (detectedPitch : ℚ) : Prop :=
  (40.0 ≤ detectedPitch ∧ detectedPitch ≤ 400.0) ∧
  (|detectedPitch - self.smoothedPitch| < 3.0 ∨ self.smoothedPitch = 0.0) ∧
  self.stableFrameCount + 1 ≥ requiredStableFrames

end DefaultAudioProcessor


/-! ## YinPitchDetector.h

A computed `float` of this header is a `CFloat`: a rational number or one of the IEEE
special values NaN, +infinity, -infinity, with the IEEE rules for them (zero is unsigned
and read as +0). The result of `+`, `-`, `*`, `/` on two numbers is the exact result
passed through `CFloat.ofRat`: from magnitude 2^128 - 2^103 on it overflows to an
infinity, up to magnitude 2^-150 it underflows to 0, and in between it is kept exact
(rounding to 24 significant bits is not modelled). The flush-to-zero mode that
`juce::ScopedNoDenormals` (PluginProcessor.cpp:141) may switch on is not modelled
either: in it underflow starts below FLT_MIN; the range conditions `inFloatRange` of
the theorems ask for magnitudes of at least FLT_MIN and so exclude underflow in either
mode. The samples handed to the detector are finite floats
(`ℚ`); the low-pass filter, a weighted mean that cannot overflow on them, stays within
`ℚ`, and `difference` reads each filtered sample through `CFloat.ofRat`. A read of the
sample pointer beyond the supplied block is undefined behaviour in C++; the model
returns `none`. -/

/-- The value of `std::numeric_limits<float>::min()`, the smallest positive normal
float: 2^-126. -/
def FLT_MIN : ℚ := 1 / 2 ^ 126

/-- The least magnitude that rounds to an infinity in binary32: FLT_MAX plus half a
unit in the last place, 2^128 - 2^103. -/
def overflowBound : ℚ := 2 ^ 128 - 2 ^ 103

/-- The greatest magnitude that rounds to zero in binary32: half the smallest
denormal, 2^-150. -/
def underflowBound : ℚ := 1 / 2 ^ 150

/-- A computed `float`: a rational number, +infinity, -infinity or NaN. -/
inductive CFloat where
  | num (q : ℚ)
  | posInf
  | negInf
  | nan
  deriving DecidableEq

namespace CFloat

/-- The float delivered by an operation whose exact result is `q`: an infinity on
overflow, 0 on underflow, and `q` itself otherwise. -/
def ofRat (q : ℚ) : CFloat :=
  if overflowBound ≤ q then posInf
  else if q ≤ -overflowBound then negInf
  else if |q| ≤ underflowBound then num 0
  else num q

/-- Unary minus. -/
def neg : CFloat → CFloat
  | num q => num (-q)
  | posInf => negInf
  | negInf => posInf
  | nan => nan

/-- Addition: NaN propagates, (+inf) + (-inf) is NaN, and the sum of two numbers can
overflow or underflow. -/
def add : CFloat → CFloat → CFloat
  | nan, _ => nan
  | _, nan => nan
  | posInf, negInf => nan
  | negInf, posInf => nan
  | posInf, _ => posInf
  | _, posInf => posInf
  | negInf, _ => negInf
  | _, negInf => negInf
  | num a, num b => ofRat (a + b)

/-- Subtraction. -/
def sub (a b : CFloat) : CFloat := add a (neg b)

/-- An infinity with the sign of `q`, NaN for `q = 0` (the product inf * q). -/
def infTimes (positive : Bool) (q : ℚ) : CFloat :=
  if q = 0 then nan else if (0 < q) = positive then posInf else negInf

/-- Multiplication: NaN propagates, inf * 0 is NaN, and the product of two numbers can
overflow or underflow. -/
def mul : CFloat → CFloat → CFloat
  | nan, _ => nan
  | _, nan => nan
  | num a, num b => ofRat (a * b)
  | posInf, num q => infTimes true q
  | negInf, num q => infTimes false q
  | num q, posInf => infTimes true q
  | num q, negInf => infTimes false q
  | posInf, posInf => posInf
  | negInf, negInf => posInf
  | posInf, negInf => negInf
  | negInf, posInf => negInf

/-- Division: NaN propagates, x / 0 is an infinity with the sign of x for x other
than 0, 0 / 0 and inf / inf are NaN, x / inf is 0, and the quotient of two numbers can
overflow or underflow. -/
def div : CFloat → CFloat → CFloat
  | nan, _ => nan
  | _, nan => nan
  | num a, num b =>
    if b = 0 then (if a = 0 then nan else if 0 < a then posInf else negInf) else ofRat (a / b)
  | num _, posInf => num 0
  | num _, negInf => num 0
  | posInf, num b => if 0 ≤ b then posInf else negInf
  | negInf, num b => if 0 ≤ b then negInf else posInf
  | posInf, posInf => nan
  | posInf, negInf => nan
  | negInf, posInf => nan
  | negInf, negInf => nan

/-- Comparison `<`: false as soon as one side is NaN. -/
def lt : CFloat → CFloat → Bool
  | nan, _ => false
  | _, nan => false
  | num a, num b => decide (a < b)
  | negInf, num _ => true
  | negInf, posInf => true
  | num _, posInf => true
  | _, _ => false

/-- Comparison `<=`: false as soon as one side is NaN. -/
def le : CFloat → CFloat → Bool
  | nan, _ => false
  | _, nan => false
  | num a, num b => decide (a ≤ b)
  | negInf, _ => true
  | _, posInf => true
  | _, _ => false

/-- Conversion of an `int` to `float` (exact for the lags and the constant 2 that the
detector converts). -/
def ofInt (n : Int) : CFloat := num (n : ℚ)

/-- A float that is not negative: NaN, +infinity, or a number that is 0 or lies between
the underflow and the overflow bound. Every entry that `difference` and
`cumulativeMeanNormalizedDifference` store is of this kind. -/
def nonneg : CFloat → Prop
  | num q => (q = 0 ∨ underflowBound < q) ∧ q < overflowBound
  | posInf => True
  | negInf => False
  | nan => True

instance (x : CFloat) : Decidable x.nonneg := by
  cases x <;> unfold nonneg <;> infer_instance

end CFloat

/-- Member variables of `YinPitchDetector` (YinPitchDetector.h:55-58); `bufferSize`
is never negative. -/
structure YinPitchDetector where
  sampleRate : ℚ
  bufferSize : Nat
  yinBuffer : List CFloat
  prevSample : ℚ

namespace YinPitchDetector

/-- The constructor (YinPitchDetector.h:9-15): `yinBuffer` is resized to `bufferSize`
zero entries. -/
def create (sampleRate : ℚ) (bufferSize : Nat) : YinPitchDetector :=
  { sampleRate := sampleRate, bufferSize := bufferSize,
    yinBuffer := List.replicate bufferSize (CFloat.num 0), prevSample := 0.0 }

/-- The low-pass loop of `detectPitch` (YinPitchDetector.h:21-26) over the indices
`is`, from filter state `prevSample`: the filtered samples and the final filter state,
or `none` when an index lies outside `buffer`. -/
def lowPassFrom (buffer : List ℚ) (prevSample : ℚ) : List Nat → Option (List ℚ × ℚ)
  | [] => some ([], prevSample)
  | i :: is =>
    match buffer[i]? with
    | none => none
    | some x =>
      let filtered := 0.95 * prevSample + 0.05 * x
      match lowPassFrom buffer filtered is with
      | none => none
      | some (rest, last) => some (filtered :: rest, last)

/-- The low-pass loop of `detectPitch` for `i = 0 .. bufferSize - 1`
(YinPitchDetector.h:20-26): `(filteredBuffer, prevSample)`. -/
def lowPass (self : YinPitchDetector) (buffer : List ℚ) : Option (List ℚ × ℚ) :=
  lowPassFrom buffer self.prevSample (List.range self.bufferSize)

/-- The inner loop of `difference` for one lag (YinPitchDetector.h:73-76): `delta`,
`delta * delta` and the accumulation are float operations. -/
def differenceAt (bufferSize : Nat) (buffer : List ℚ) (tau : Nat) : CFloat :=
  (List.range (bufferSize - tau)).foldl
    (fun acc i =>
      let delta :=
        (CFloat.ofRat (buffer.getD i 0)).sub (CFloat.ofRat (buffer.getD (i + tau) 0))
      acc.add (delta.mul delta)) (CFloat.num 0)

/-- Function `difference` (YinPitchDetector.h:64-78): entry 0 stays 0, entry `tau`
is the accumulated squared difference for `tau = 1 .. bufferSize - 1`. -/
def difference (self : YinPitchDetector) (buffer : List ℚ) : YinPitchDetector :=
  { self with yinBuffer := (List.range self.bufferSize).map fun tau =>
      if tau = 0 then CFloat.num 0 else differenceAt self.bufferSize buffer tau }

/-- The loop of `cumulativeMeanNormalizedDifference` (YinPitchDetector.h:90-93) from
lag `tau` on, over the remaining entries of `yinBuffer`. -/
def cmndFrom (tau : Nat) (runningSum : CFloat) : List CFloat → List CFloat
  | [] => []
  | y :: ys =>
    let runningSum := runningSum.add y
    y.mul ((CFloat.ofInt tau).div runningSum) :: cmndFrom (tau + 1) runningSum ys

/-- Function `cumulativeMeanNormalizedDifference` (YinPitchDetector.h:84-94);
`yinBuffer` has `bufferSize` entries. -/
def cumulativeMeanNormalizedDifference (self : YinPitchDetector) : YinPitchDetector :=
  { self with yinBuffer :=
      match self.yinBuffer with
      | [] => []
      | _ :: ys => CFloat.num 1 :: cmndFrom 1 (CFloat.num 0) ys }

/-- The `while` loop of `absoluteThreshold` (YinPitchDetector.h:108-110). -/
def descend (self : YinPitchDetector) (tau : Nat) : Nat :=
  if tau + 1 < self.bufferSize ∧
      (self.yinBuffer.getD (tau + 1) CFloat.nan).lt (self.yinBuffer.getD tau CFloat.nan) then
    descend self (tau + 1)
  else tau
termination_by self.bufferSize - tau

/-- The `for` loop of `absoluteThreshold` from lag `tau` on (YinPitchDetector.h:105-114). -/
def absoluteThresholdFrom (self : YinPitchDetector) (tau : Nat) : Int :=
  let threshold : CFloat := CFloat.num 0.03
  if tau < self.bufferSize then
    if (self.yinBuffer.getD tau CFloat.nan).lt threshold then
      (descend self tau : Int)
    else absoluteThresholdFrom self (tau + 1)
  else -1
termination_by self.bufferSize - tau

/-- Function `absoluteThreshold` (YinPitchDetector.h:100-115). -/
def absoluteThreshold (self : YinPitchDetector) : Int :=
  absoluteThresholdFrom self 2

/-- Function `parabolicInterpolation` (YinPitchDetector.h:121-138). -/
def parabolicInterpolation (self : YinPitchDetector) (tauEstimate : Int) : CFloat :=
  let x0 : Int := if tauEstimate < 1 then tauEstimate else tauEstimate - 1
  let x2 : Int := if tauEstimate + 1 < (self.bufferSize : Int) then tauEstimate + 1
    else tauEstimate
  if x0 = tauEstimate then
    if (self.yinBuffer.getD tauEstimate.toNat CFloat.nan).le
        (self.yinBuffer.getD x2.toNat CFloat.nan) then
      CFloat.ofInt tauEstimate
    else CFloat.ofInt x2
  else
    let s0 := self.yinBuffer.getD x0.toNat CFloat.nan
    let s1 := self.yinBuffer.getD tauEstimate.toNat CFloat.nan
    let s2 := self.yinBuffer.getD x2.toNat CFloat.nan
    (CFloat.ofInt tauEstimate).add
      ((s2.sub s0).div ((CFloat.ofInt 2).mul ((((CFloat.ofInt 2).mul s1).sub s2).sub s0)))

/-- The part of `detectPitch` after the low-pass loop (YinPitchDetector.h:28-51),
on the filtered block. -/
def estimatePitch (self : YinPitchDetector) (filteredBuffer : List ℚ) :
    CFloat × YinPitchDetector :=
  let self := difference self filteredBuffer
  let self := cumulativeMeanNormalizedDifference self
  let tauEstimate := absoluteThreshold self
  let pitchInHz : CFloat :=
    if tauEstimate ≠ -1 then
      let betterTau := parabolicInterpolation self tauEstimate
      (CFloat.num self.sampleRate).div betterTau
    else CFloat.num 0.0
  let pitchInHz : CFloat :=
    if pitchInHz.lt (CFloat.num 40.0) || (CFloat.num 400.0).lt pitchInHz then CFloat.num 0.0
    else pitchInHz
  (pitchInHz, self)

/-- Function `detectPitch` (YinPitchDetector.h:17-52): the returned pitch and the
updated detector, or `none` when the low-pass loop reads beyond `buffer`. -/
def detectPitch (self : YinPitchDetector) (buffer : List ℚ) :
    Option (CFloat × YinPitchDetector) :=
  match lowPass self buffer with
  | none => none
  | some (filteredBuffer, prevSample) =>
    estimatePitch { self with prevSample := prevSample } filteredBuffer

end YinPitchDetector

/-- The detector that `prepareToPlay` creates (PluginProcessor.cpp:102-103). -/
def DefaultAudioProcessor.prepareToPlay (sampleRate : ℚ) (samplesPerBlock : Int) :
    YinPitchDetector :=
  let pitchDetectorBufferSize : Int := max 1024 samplesPerBlock
  YinPitchDetector.create sampleRate pitchDetectorBufferSize.toNat

/-- The specification's low-pass recurrence y[i] = 0.95 * y[i-1] + 0.05 * x[i], run
over a whole sample sequence from the state `s`. -/
def lowPassRecurrence (s : ℚ) : List ℚ → List ℚ
  | [] => []
  | x :: xs => (0.95 * s + 0.05 * x) :: lowPassRecurrence (0.95 * s + 0.05 * x) xs

/-- The filter state after the specification's recurrence has run over `xs` from `s`. -/
def lowPassState (s : ℚ) (xs : List ℚ) : ℚ :=
  xs.foldl (fun p x => 0.95 * p + 0.05 * x) s

/-- The specification's difference function d(tau): the sum over i = 0 .. N-tau-1 of
(x[i] - x[i+tau])^2. -/
def dSpec (N : Nat) (x : List ℚ) (tau : Nat) : ℚ :=
  ∑ i in Finset.range (N - tau), (x.getD i 0 - x.getD (i + tau) 0) ^ 2

/-- The specification's running sum d(1) + ... + d(tau). -/
def runningSumSpec (N : Nat) (x : List ℚ) (tau : Nat) : ℚ :=
  ∑ j in Finset.Icc 1 tau, dSpec N x j


/-- A value that a float operation delivers without overflow or underflow: `q` is 0 or
its magnitude lies in the range [FLT_MIN, FLT_MAX] of the normal floats. -/
def inFloatRange (q : ℚ) : Prop := q = 0 ∨ (FLT_MIN ≤ |q| ∧ |q| ≤ FLT_MAX)

instance (q : ℚ) : Decidable (inFloatRange q) := by
  unfold inFloatRange
  infer_instance

/-- No operation of the inner loop of `difference` for the lag `tau`
(YinPitchDetector.h:73-76) overflows or underflows: the two samples read, their
difference and its square are in the float range for every index, and so is the
accumulated sum d(tau). -/
def differenceInRange (N : Nat) (x : List ℚ) (tau : Nat) : Prop :=
  (∀ i : Nat, i < N - tau →
    inFloatRange (x.getD i 0) ∧ inFloatRange (x.getD (i + tau) 0) ∧
    inFloatRange (x.getD i 0 - x.getD (i + tau) 0) ∧
    inFloatRange ((x.getD i 0 - x.getD (i + tau) 0) ^ 2)) ∧
  dSpec N x tau ≤ FLT_MAX

instance (N : Nat) (x : List ℚ) (tau : Nat) : Decidable (differenceInRange N x tau) := by
  unfold differenceInRange
  infer_instance

/-- No operation of the interpolation formula of `parabolicInterpolation`
(YinPitchDetector.h:136) on the numbers s0, s1, s2 at lag `tau` overflows or
underflows: each intermediate result is in the float range. -/
def interpolationInRange (tau s0 s1 s2 : ℚ) : Prop :=
  inFloatRange (s2 - s0) ∧ inFloatRange (2 * s1) ∧ inFloatRange (2 * s1 - s2) ∧
  inFloatRange (2 * s1 - s2 - s0) ∧ inFloatRange (2 * (2 * s1 - s2 - s0)) ∧
  inFloatRange ((s2 - s0) / (2 * (2 * s1 - s2 - s0))) ∧
  inFloatRange (tau + (s2 - s0) / (2 * (2 * s1 - s2 - s0)))

instance (tau s0 s1 s2 : ℚ) : Decidable (interpolationInRange tau s0 s1 s2) := by
  unfold interpolationInRange
  infer_instance


/-! ## Theorems -/

open DefaultAudioProcessor

theorem updateCurrentNote_currentPitch (log2 : ℚ → ℚ) (self : DefaultAudioProcessor) (pitch : ℚ) :
    (updateCurrentNote log2 self pitch).currentPitch = self.currentPitch := by
  unfold updateCurrentNote
  simp only
  split_ifs <;> rfl

theorem updateCurrentNote_smoothedPitch (log2 : ℚ → ℚ) (self : DefaultAudioProcessor) (pitch : ℚ) :
    (updateCurrentNote log2 self pitch).smoothedPitch = self.smoothedPitch := by
  unfold updateCurrentNote
  simp only
  split_ifs <;> rfl

theorem updateCurrentNote_stableFrameCount (log2 : ℚ → ℚ) (self : DefaultAudioProcessor)
    (pitch : ℚ) :
    (updateCurrentNote log2 self pitch).stableFrameCount = self.stableFrameCount := by
  unfold updateCurrentNote
  simp only
  split_ifs <;> rfl

/-- The smoothing branch without a commit. -/
theorem processBlock_smooth_nocommit (log2 : ℚ → ℚ) (self : DefaultAudioProcessor) (p : ℚ)
    (hp : 40 ≤ p ∧ p ≤ 400) (hc : |p - self.smoothedPitch| < 3 ∨ self.smoothedPitch = 0)
    (hn : self.stableFrameCount + 1 < 3) :
    processBlock log2 self p =
      { self with smoothedPitch := 0.7 * self.smoothedPitch + 0.3 * p,
                  stableFrameCount := self.stableFrameCount + 1 } := by
  have hp' : (40.0 : ℚ) ≤ p ∧ p ≤ 400.0 := by norm_num; exact hp
  have hc' : |p - self.smoothedPitch| < 3.0 ∨ self.smoothedPitch = 0.0 := by norm_num; exact hc
  unfold processBlock
  rw [if_pos hp', if_pos hc']
  simp only [requiredStableFrames, ge_iff_le]
  rw [if_neg (by omega)]

/-- The smoothing branch with a commit. -/
theorem processBlock_smooth_commit (log2 : ℚ → ℚ) (self : DefaultAudioProcessor) (p : ℚ)
    (hp : 40 ≤ p ∧ p ≤ 400) (hc : |p - self.smoothedPitch| < 3 ∨ self.smoothedPitch = 0)
    (hn : 3 ≤ self.stableFrameCount + 1) :
    processBlock log2 self p =
      updateCurrentNote log2
        { self with smoothedPitch := 0.7 * self.smoothedPitch + 0.3 * p,
                    stableFrameCount := self.stableFrameCount + 1,
                    currentPitch := 0.7 * self.smoothedPitch + 0.3 * p }
        (0.7 * self.smoothedPitch + 0.3 * p) := by
  have hp' : (40.0 : ℚ) ≤ p ∧ p ≤ 400.0 := by norm_num; exact hp
  have hc' : |p - self.smoothedPitch| < 3.0 ∨ self.smoothedPitch = 0.0 := by norm_num; exact hc
  unfold processBlock
  rw [if_pos hp', if_pos hc']
  simp only [requiredStableFrames, ge_iff_le]
  rw [if_pos hn]

/-- The jump branch. -/
theorem processBlock_jump (log2 : ℚ → ℚ) (self : DefaultAudioProcessor) (p : ℚ)
    (hp : 40 ≤ p ∧ p ≤ 400) (hj : 3 ≤ |p - self.smoothedPitch|) (hs : self.smoothedPitch ≠ 0) :
    processBlock log2 self p = { self with stableFrameCount := 0, smoothedPitch := p } := by
  have hp' : (40.0 : ℚ) ≤ p ∧ p ≤ 400.0 := by norm_num; exact hp
  have hc' : ¬ (|p - self.smoothedPitch| < 3.0 ∨ self.smoothedPitch = 0.0) := by
    norm_num; exact ⟨hj, hs⟩
  unfold processBlock
  rw [if_pos hp', if_neg hc']

/-- The invalid-block branch. -/
theorem processBlock_invalid (log2 : ℚ → ℚ) (self : DefaultAudioProcessor) (d : ℚ)
    (hd : ¬ (40 ≤ d ∧ d ≤ 400)) :
    processBlock log2 self d =
      if 0 < self.smoothedPitch then
        if self.smoothedPitch * 0.9 < 30 then
          { self with stableFrameCount := 0, smoothedPitch := 0, currentPitch := 0,
                      currentString := -1, currentFret := -1, currentNote := "---" }
        else { self with stableFrameCount := 0, smoothedPitch := self.smoothedPitch * 0.9 }
      else { self with stableFrameCount := 0 } := by
  have hd' : ¬ ((40.0 : ℚ) ≤ d ∧ d ≤ 400.0) := by norm_num; norm_num at hd; exact hd
  unfold processBlock
  rw [if_neg hd']
  norm_num

/-- Claim C1 as amended: from a state with smoothedPitch = 0, a valid raw pitch p in
[40,400] takes the smoothing branch: smoothedPitch becomes 0.3 * p (not p) and
stableFrameCount is incremented (not reset); when stableFrameCount was below 2, as it
is in the reset state, nothing is committed: currentPitch, currentNote, currentString
and currentFret are unchanged. -/
theorem processBlock_unlocked_valid (log2 : ℚ → ℚ) (self : DefaultAudioProcessor) (p : ℚ)
    (hs : self.smoothedPitch = 0) (hp : 40 ≤ p ∧ p ≤ 400) :
    (processBlock log2 self p).smoothedPitch = 0.3 * p ∧
    (processBlock log2 self p).stableFrameCount = self.stableFrameCount + 1 ∧
    (self.stableFrameCount < 2 →
      (processBlock log2 self p).currentPitch = self.currentPitch ∧
      (processBlock log2 self p).currentNote = self.currentNote ∧
      (processBlock log2 self p).currentString = self.currentString ∧
      (processBlock log2 self p).currentFret = self.currentFret) := by
  by_cases hn : self.stableFrameCount + 1 < 3
  · rw [processBlock_smooth_nocommit log2 self p hp (Or.inr hs) hn]
    simp [hs]
  · rw [processBlock_smooth_commit log2 self p hp (Or.inr hs) (by omega)]
    rw [updateCurrentNote_smoothedPitch, updateCurrentNote_stableFrameCount]
    refine ⟨by simp [hs], rfl, fun h => absurd h (by omega)⟩

/-- Witness of `processBlock_unlocked_valid`: the reset state, raw pitch 100 Hz. -/
theorem processBlock_unlocked_valid_witness :
    (processBlock log2Fixed initialState 100).smoothedPitch = 0.3 * 100 ∧
    (processBlock log2Fixed initialState 100).stableFrameCount =
      initialState.stableFrameCount + 1 ∧
    (initialState.stableFrameCount < 2 →
      (processBlock log2Fixed initialState 100).currentPitch = initialState.currentPitch ∧
      (processBlock log2Fixed initialState 100).currentNote = initialState.currentNote ∧
      (processBlock log2Fixed initialState 100).currentString = initialState.currentString ∧
      (processBlock log2Fixed initialState 100).currentFret = initialState.currentFret) :=
  processBlock_unlocked_valid log2Fixed initialState 100 rfl (by norm_num)

/-- Claim C1 as stated fails: from the reset state (smoothedPitch = 0), the valid raw
pitch 100 Hz leaves smoothedPitch = 30 and stableFrameCount = 1, not 100 and 0. -/
theorem processBlock_unlocked_valid_counterexample :
    initialState.smoothedPitch = 0 ∧ ((40 : ℚ) ≤ 100 ∧ (100 : ℚ) ≤ 400) ∧
    (processBlock log2Fixed initialState 100).smoothedPitch = 30 ∧
    (processBlock log2Fixed initialState 100).stableFrameCount = 1 ∧
    ¬ ((processBlock log2Fixed initialState 100).smoothedPitch = 100 ∧
       (processBlock log2Fixed initialState 100).stableFrameCount = 0) := by
  have h := processBlock_smooth_nocommit log2Fixed initialState 100 (by norm_num)
    (Or.inr rfl) (by decide)
  rw [h]
  simp only [initialState]
  norm_num

/-- Claim C2: from a tracking state (smoothedPitch > 0, stableFrameCount = 0) within
3 Hz of a valid raw pitch p, three consecutive blocks at p leave currentPitch unchanged
after the first and after the second block, and the third block commits: currentPitch
becomes the new smoothedPitch, which is within 3 Hz of p, and is exactly p when
smoothedPitch started at p. -/
theorem processBlock_three_stable_frames (log2 : ℚ → ℚ) (self : DefaultAudioProcessor)
    (p : ℚ) (hp : 40 ≤ p ∧ p ≤ 400) (_hs : 0 < self.smoothedPitch)
    (hd : |p - self.smoothedPitch| < 3) (hc : self.stableFrameCount = 0) :
    (processBlock log2 self p).currentPitch = self.currentPitch ∧
    (processBlock log2 (processBlock log2 self p) p).currentPitch = self.currentPitch ∧
    (processBlock log2 (processBlock log2 (processBlock log2 self p) p) p).currentPitch =
      (processBlock log2 (processBlock log2 (processBlock log2 self p) p) p).smoothedPitch ∧
    (processBlock log2 (processBlock log2 (processBlock log2 self p) p) p).smoothedPitch =
      0.7 * (processBlock log2 (processBlock log2 self p) p).smoothedPitch + 0.3 * p ∧
    |(processBlock log2 (processBlock log2 (processBlock log2 self p) p) p).currentPitch - p|
      < 3 ∧
    (self.smoothedPitch = p →
      (processBlock log2 (processBlock log2 (processBlock log2 self p) p) p).currentPitch
        = p) := by
  have h1 := processBlock_smooth_nocommit log2 self p hp (Or.inl hd) (by omega)
  have hd1 : |p - (processBlock log2 self p).smoothedPitch| < 3 := by
    rw [h1]
    simp only
    rw [abs_lt] at hd ⊢
    constructor <;> norm_num <;> linarith [hd.1, hd.2]
  have hc1 : (processBlock log2 self p).stableFrameCount = 1 := by rw [h1]; simp [hc]
  have h2 := processBlock_smooth_nocommit log2 (processBlock log2 self p) p hp (Or.inl hd1)
    (by omega)
  have hd2 : |p - (processBlock log2 (processBlock log2 self p) p).smoothedPitch| < 3 := by
    rw [h2]
    simp only
    rw [abs_lt] at hd1 ⊢
    constructor <;> norm_num <;> linarith [hd1.1, hd1.2]
  have hc2 : (processBlock log2 (processBlock log2 self p) p).stableFrameCount = 2 := by
    rw [h2]; simp [hc1]
  have h3 := processBlock_smooth_commit log2 (processBlock log2 (processBlock log2 self p) p)
    p hp (Or.inl hd2) (by omega)
  have e3s : (processBlock log2 (processBlock log2 (processBlock log2 self p) p) p).smoothedPitch
      = 0.7 * (processBlock log2 (processBlock log2 self p) p).smoothedPitch + 0.3 * p := by
    rw [h3, updateCurrentNote_smoothedPitch]
  have e3c : (processBlock log2 (processBlock log2 (processBlock log2 self p) p) p).currentPitch
      = 0.7 * (processBlock log2 (processBlock log2 self p) p).smoothedPitch + 0.3 * p := by
    rw [h3, updateCurrentNote_currentPitch]
  have e2s : (processBlock log2 (processBlock log2 self p) p).smoothedPitch
      = 0.7 * (processBlock log2 self p).smoothedPitch + 0.3 * p := by rw [h2]
  have e1s : (processBlock log2 self p).smoothedPitch = 0.7 * self.smoothedPitch + 0.3 * p := by
    rw [h1]
  refine ⟨by rw [h1], by rw [h2, h1], by rw [e3c, e3s], e3s, ?_, ?_⟩
  · rw [e3c, abs_lt]
    rw [abs_lt] at hd2
    constructor <;> norm_num <;> linarith [hd2.1, hd2.2]
  · intro hsp
    rw [e3c, e2s, e1s, hsp]
    norm_num
    ring

/-- Witness of `processBlock_three_stable_frames`: tracking at 110 Hz, three blocks at
110 Hz. -/
theorem processBlock_three_stable_frames_witness :
    (processBlock log2Fixed (processBlock log2Fixed (processBlock log2Fixed
      { initialState with smoothedPitch := 110 } 110) 110) 110).currentPitch = 110 :=
  (processBlock_three_stable_frames log2Fixed { initialState with smoothedPitch := 110 } 110
    (by norm_num) (by norm_num) (by norm_num) rfl).2.2.2.2.2 rfl

/-- Claim C3: from a state with smoothedPitch = s > 0, a valid raw pitch p with
|p - s| at least 3 sets smoothedPitch = p and stableFrameCount = 0 and leaves
currentPitch, currentNote, currentString and currentFret unchanged. -/
theorem processBlock_jump_rejected (log2 : ℚ → ℚ) (self : DefaultAudioProcessor) (p : ℚ)
    (hs : 0 < self.smoothedPitch) (hp : 40 ≤ p ∧ p ≤ 400)
    (hj : 3 ≤ |p - self.smoothedPitch|) :
    (processBlock log2 self p).smoothedPitch = p ∧
    (processBlock log2 self p).stableFrameCount = 0 ∧
    (processBlock log2 self p).currentPitch = self.currentPitch ∧
    (processBlock log2 self p).currentNote = self.currentNote ∧
    (processBlock log2 self p).currentString = self.currentString ∧
    (processBlock log2 self p).currentFret = self.currentFret := by
  rw [processBlock_jump log2 self p hp hj (ne_of_gt hs)]
  exact ⟨rfl, rfl, rfl, rfl, rfl, rfl⟩

/-- Witness of `processBlock_jump_rejected`: locked at 100 Hz, one frame at 200 Hz. -/
theorem processBlock_jump_rejected_witness :
    (processBlock log2Fixed
      { currentPitch := 100, currentString := 3, currentFret := 0, currentNote := "G3",
        smoothedPitch := 100, stableFrameCount := 3 } 200).smoothedPitch = 200 ∧
    (processBlock log2Fixed
      { currentPitch := 100, currentString := 3, currentFret := 0, currentNote := "G3",
        smoothedPitch := 100, stableFrameCount := 3 } 200).stableFrameCount = 0 ∧
    (processBlock log2Fixed
      { currentPitch := 100, currentString := 3, currentFret := 0, currentNote := "G3",
        smoothedPitch := 100, stableFrameCount := 3 } 200).currentPitch = 100 :=
  have h := processBlock_jump_rejected log2Fixed
    { currentPitch := 100, currentString := 3, currentFret := 0, currentNote := "G3",
      smoothedPitch := 100, stableFrameCount := 3 } 200
    (by norm_num) (by norm_num) (by norm_num [abs_of_pos])
  ⟨h.1, h.2.1, h.2.2.1⟩

/-- Claim C4: from a state with smoothedPitch = s > 0, an invalid block (raw pitch
outside [40,400], in particular 0) sets stableFrameCount = 0; when 0.9 * s is at least
30 it sets smoothedPitch = 0.9 * s and leaves currentPitch, currentNote, currentString
and currentFret unchanged; when 0.9 * s is below 30 it sets smoothedPitch = 0,
currentPitch = 0, currentNote = "---", currentString = -1 and currentFret = -1. -/
theorem processBlock_decay_clear (log2 : ℚ → ℚ) (self : DefaultAudioProcessor) (d : ℚ)
    (hs : 0 < self.smoothedPitch) (hd : ¬ (40 ≤ d ∧ d ≤ 400)) :
    (processBlock log2 self d).stableFrameCount = 0 ∧
    (30 ≤ 0.9 * self.smoothedPitch →
      (processBlock log2 self d).smoothedPitch = 0.9 * self.smoothedPitch ∧
      (processBlock log2 self d).currentPitch = self.currentPitch ∧
      (processBlock log2 self d).currentNote = self.currentNote ∧
      (processBlock log2 self d).currentString = self.currentString ∧
      (processBlock log2 self d).currentFret = self.currentFret) ∧
    (0.9 * self.smoothedPitch < 30 →
      (processBlock log2 self d).smoothedPitch = 0 ∧
      (processBlock log2 self d).currentPitch = 0 ∧
      (processBlock log2 self d).currentNote = "---" ∧
      (processBlock log2 self d).currentString = -1 ∧
      (processBlock log2 self d).currentFret = -1) := by
  rw [processBlock_invalid log2 self d hd, if_pos hs]
  by_cases hlt : self.smoothedPitch * 0.9 < 30
  · rw [if_pos hlt]
    refine ⟨rfl, fun h => ?_, fun _ => ⟨rfl, rfl, rfl, rfl, rfl⟩⟩
    rw [mul_comm] at hlt
    exact absurd hlt (not_lt.mpr h)
  · rw [if_neg hlt]
    refine ⟨rfl, fun _ => ⟨mul_comm _ _, rfl, rfl, rfl, rfl⟩, fun h => ?_⟩
    rw [mul_comm] at h
    exact absurd h hlt

/-- Witness of `processBlock_decay_clear`: with smoothedPitch = 35 an invalid block
gives 31.5 and keeps the locked note; with smoothedPitch = 32 it gives 28.8 < 30 and
the state clears. -/
theorem processBlock_decay_clear_witness :
    ((processBlock log2Fixed
      { currentPitch := 41, currentString := 0, currentFret := 0, currentNote := "E2",
        smoothedPitch := 35, stableFrameCount := 4 } 0).smoothedPitch = 31.5 ∧
     (processBlock log2Fixed
      { currentPitch := 41, currentString := 0, currentFret := 0, currentNote := "E2",
        smoothedPitch := 35, stableFrameCount := 4 } 0).currentPitch = 41) ∧
    ((0.9 : ℚ) * 32 = 28.8 ∧
     (processBlock log2Fixed
      { currentPitch := 41, currentString := 0, currentFret := 0, currentNote := "E2",
        smoothedPitch := 32, stableFrameCount := 4 } 0).smoothedPitch = 0 ∧
     (processBlock log2Fixed
      { currentPitch := 41, currentString := 0, currentFret := 0, currentNote := "E2",
        smoothedPitch := 32, stableFrameCount := 4 } 0).currentNote = "---") :=
  have h35 := (processBlock_decay_clear log2Fixed
    { currentPitch := 41, currentString := 0, currentFret := 0, currentNote := "E2",
      smoothedPitch := 35, stableFrameCount := 4 } 0 (by norm_num) (by norm_num)).2.1
      (by norm_num)
  have h32 := (processBlock_decay_clear log2Fixed
    { currentPitch := 41, currentString := 0, currentFret := 0, currentNote := "E2",
      smoothedPitch := 32, stableFrameCount := 4 } 0 (by norm_num) (by norm_num)).2.2
      (by norm_num)
  ⟨⟨by rw [h35.1]; norm_num, h35.2.1⟩, by norm_num, h32.1, h32.2.2.1⟩

theorem stdRound_of_bounds {x : ℚ} {n : Int} (h1 : (n : ℚ) - 1 / 2 < x)
    (h2 : x < (n : ℚ) + 1 / 2) : stdRound x = n := by
  unfold stdRound
  split_ifs with h
  · rw [Int.floor_eq_iff]
    constructor <;> linarith
  · rw [Int.ceil_eq_iff]
    constructor <;> linarith

theorem stdRound_zero : stdRound 0 = 0 := by
  have := @stdRound_of_bounds 0 0 (by norm_num) (by norm_num)
  simpa using this

/-- C++ `a / 12` on `int` in terms of floor division. -/
theorem tdiv_twelve (a : Int) :
    a.tdiv 12 = if 0 ≤ a then a / 12 else -((-a) / 12) := by
  split_ifs with h
  · exact Int.tdiv_eq_ediv h (by decide)
  · have h' : 0 ≤ -a := by omega
    have := Int.tdiv_eq_ediv h' (show (0 : Int) ≤ 12 by decide)
    rw [Int.neg_tdiv] at this
    omega

/-- C++ `a % 12` on `int` in terms of the non-negative remainder. -/
theorem tmod_twelve (a : Int) :
    a.tmod 12 = if 0 ≤ a then a % 12 else -((-a) % 12) := by
  rw [Int.tmod_def, tdiv_twelve]
  split_ifs <;> omega

/-- The code's octave is the floor-division octave exactly when `n + 9` is
non-negative or a multiple of 12; otherwise it is one higher. -/
theorem octave_eq_floor_iff (n : Int) :
    octave n = 4 + (n + 9) / 12 ↔ (0 ≤ n + 9 ∨ (12 : Int) ∣ n + 9) := by
  unfold octave
  rw [tdiv_twelve]
  split_ifs <;> omega

theorem log2Fixed_one : log2Fixed 1 = 0 := by simp [log2Fixed]

theorem log2Fixed_of_bounds {x : ℚ} {k : Int} (hx : 0 < x)
    (h1 : (2 : ℚ) ^ k ≤ x ^ 256) (h2 : x ^ 256 < (2 : ℚ) ^ (k + 1)) :
    log2Fixed x = (k : ℚ) / 256 := by
  unfold log2Fixed
  have hpos : (0 : ℚ) < x ^ 256 := pow_pos hx 256
  have hle : k ≤ Int.log 2 (x ^ 256) := by
    rw [← Int.zpow_le_iff_le_log (by norm_num) hpos]
    exact_mod_cast h1
  have hlt : Int.log 2 (x ^ 256) < k + 1 := by
    rw [← Int.lt_zpow_iff_log_lt (by norm_num) hpos]
    exact_mod_cast h2
  have : Int.log 2 (x ^ 256) = k := by omega
  rw [this]

theorem log2Fixed_E1 : log2Fixed (41.20 / 440.0) = -875 / 256 := by
  have := @log2Fixed_of_bounds (41.20 / 440.0) (-875) (by norm_num) (by norm_num) (by norm_num)
  simpa using this

theorem semitonesFromA4_of_bounds (log2 : ℚ → ℚ) (frequency : ℚ) (n : Int)
    (h1 : ((n : ℚ) - 1 / 2) / 12 < log2 (frequency / 440))
    (h2 : log2 (frequency / 440) < ((n : ℚ) + 1 / 2) / 12) :
    semitonesFromA4 log2 frequency = n := by
  unfold semitonesFromA4
  have e : (440.0 : ℚ) = 440 := by norm_num
  simp only [e]
  apply stdRound_of_bounds
  · rw [div_lt_iff₀ (by norm_num)] at h1; norm_num; linarith
  · rw [lt_div_iff₀ (by norm_num)] at h2; norm_num; linarith

/-- Claim C5, the code at the failing input: 41.20 Hz lies 41 semitones below A4, the
code's octave for -41 is 4 + trunc(-32 / 12) = 2 where floor division gives
4 + floor(-32 / 12) = 1, and `frequencyToNoteName` returns "E2", not "E1"; this holds
for every `log2` whose value at 41.20 / 440 rounds to -41 semitones. -/
theorem frequencyToNoteName_octave_truncates :
    semitonesFromA4 log2Fixed 41.20 = -41 ∧
    octave (-41) = 2 ∧ (4 + (-41 + 9) / 12 : Int) = 1 ∧
    frequencyToNoteName log2Fixed 41.20 = "E2" ∧
    (∀ log2 : ℚ → ℚ, -83 / 24 < log2 (41.20 / 440) → log2 (41.20 / 440) < -27 / 8 →
      frequencyToNoteName log2 41.20 = "E2") := by
  have hgen : ∀ log2 : ℚ → ℚ, -83 / 24 < log2 (41.20 / 440) → log2 (41.20 / 440) < -27 / 8 →
      semitonesFromA4 log2 41.20 = -41 := by
    intro log2 h1 h2
    apply semitonesFromA4_of_bounds
    · norm_num; linarith
    · norm_num; linarith
  have hE : log2Fixed (41.20 / 440) = -875 / 256 := by
    have := log2Fixed_E1
    norm_num at this ⊢
    exact this
  have hfix : semitonesFromA4 log2Fixed 41.20 = -41 :=
    hgen log2Fixed (by rw [hE]; norm_num) (by rw [hE]; norm_num)
  refine ⟨hfix, by decide, by decide, ?_, ?_⟩
  · unfold frequencyToNoteName
    rw [hfix]
    decide
  · intro log2 h1 h2
    unfold frequencyToNoteName
    rw [hgen log2 h1 h2]
    decide

/-- Claim C6: for every integer n = semitonesFromA4 the note index computed by
`frequencyToNoteName` lies in [0,11], is in bounds for the 12-name table, and is the
non-negative remainder of n + 9 modulo 12; n = 0 (440.0 Hz) gives index 9, name "A",
and n = -41 gives index 4, name "E". -/
theorem noteIndex_in_bounds (n : Int) :
    (0 ≤ noteIndex n ∧ noteIndex n ≤ 11) ∧
    (noteIndex n).toNat < DefaultAudioProcessor.noteNames.length ∧
    noteIndex n = (n + 9) % 12 ∧
    (semitonesFromA4 log2Fixed 440.0 = 0 ∧ noteIndex 0 = 9 ∧
      DefaultAudioProcessor.noteNames.getD (noteIndex 0).toNat "" = "A") ∧
    (noteIndex (-41) = 4 ∧
      DefaultAudioProcessor.noteNames.getD (noteIndex (-41)).toNat "" = "E") := by
  have h : noteIndex n = (n + 9) % 12 := by
    unfold noteIndex
    simp only
    rw [tmod_twelve]
    split_ifs <;> omega
  have hlen : DefaultAudioProcessor.noteNames.length = 12 := rfl
  refine ⟨by omega, by omega, h, ⟨?_, by decide, by decide⟩, by decide, by decide⟩
  norm_num [semitonesFromA4, log2Fixed, stdRound_zero]

/-- The closest-string loop runs its body for i = 0, 1, 2, 3. -/
theorem closestStringLoop_unfold (log2 : ℚ → ℚ) (pitch : ℚ) :
    closestStringLoop log2 pitch =
      closestStringStep log2 pitch (closestStringStep log2 pitch (closestStringStep log2 pitch
        (closestStringStep log2 pitch (FLT_MAX, -1) 0) 1) 2) 3 := by
  have : List.range numStrings = [0, 1, 2, 3] := by decide
  unfold closestStringLoop
  rw [this]
  rfl

theorem closestStringLoop_argmin (log2 : ℚ → ℚ) (pitch : ℚ)
    (hfin : ∀ i : Nat, i < 4 → |log2 (pitch / openStringFrequencies.getD i 0)| < FLT_MAX) :
    ∃ i : Nat, i < 4 ∧
      closestStringLoop log2 pitch =
        (|log2 (pitch / openStringFrequencies.getD i 0)|, (i : Int)) ∧
      (∀ j : Nat, j < 4 → |log2 (pitch / openStringFrequencies.getD i 0)| ≤
        |log2 (pitch / openStringFrequencies.getD j 0)|) ∧
      (∀ j : Nat, j < i → |log2 (pitch / openStringFrequencies.getD i 0)| <
        |log2 (pitch / openStringFrequencies.getD j 0)|) := by
  rw [closestStringLoop_unfold]
  have h0 := hfin 0 (by decide)
  simp only [closestStringStep]
  rw [if_pos h0]
  by_cases c1 : |log2 (pitch / openStringFrequencies.getD 1 0)| <
      |log2 (pitch / openStringFrequencies.getD 0 0)|
  · rw [if_pos c1]
    by_cases c2 : |log2 (pitch / openStringFrequencies.getD 2 0)| <
        |log2 (pitch / openStringFrequencies.getD 1 0)|
    · rw [if_pos c2]
      by_cases c3 : |log2 (pitch / openStringFrequencies.getD 3 0)| <
          |log2 (pitch / openStringFrequencies.getD 2 0)|
      · rw [if_pos c3]
        refine ⟨3, by decide, rfl, fun j hj => ?_, fun j hj => ?_⟩ <;>
          interval_cases j <;> linarith
      · rw [if_neg c3]
        refine ⟨2, by decide, rfl, fun j hj => ?_, fun j hj => ?_⟩ <;>
          interval_cases j <;> linarith
    · rw [if_neg c2]
      by_cases c3 : |log2 (pitch / openStringFrequencies.getD 3 0)| <
          |log2 (pitch / openStringFrequencies.getD 1 0)|
      · rw [if_pos c3]
        refine ⟨3, by decide, rfl, fun j hj => ?_, fun j hj => ?_⟩ <;>
          interval_cases j <;> linarith
      · rw [if_neg c3]
        refine ⟨1, by decide, rfl, fun j hj => ?_, fun j hj => ?_⟩ <;>
          interval_cases j <;> linarith
  · rw [if_neg c1]
    by_cases c2 : |log2 (pitch / openStringFrequencies.getD 2 0)| <
        |log2 (pitch / openStringFrequencies.getD 0 0)|
    · rw [if_pos c2]
      by_cases c3 : |log2 (pitch / openStringFrequencies.getD 3 0)| <
          |log2 (pitch / openStringFrequencies.getD 2 0)|
      · rw [if_pos c3]
        refine ⟨3, by decide, rfl, fun j hj => ?_, fun j hj => ?_⟩ <;>
          interval_cases j <;> linarith
      · rw [if_neg c3]
        refine ⟨2, by decide, rfl, fun j hj => ?_, fun j hj => ?_⟩ <;>
          interval_cases j <;> linarith
    · rw [if_neg c2]
      by_cases c3 : |log2 (pitch / openStringFrequencies.getD 3 0)| <
          |log2 (pitch / openStringFrequencies.getD 0 0)|
      · rw [if_pos c3]
        refine ⟨3, by decide, rfl, fun j hj => ?_, fun j hj => ?_⟩ <;>
          interval_cases j <;> linarith
      · rw [if_neg c3]
        refine ⟨0, by decide, rfl, fun j hj => ?_, fun j hj => ?_⟩ <;>
          first
          | exact absurd hj (by omega)
          | (interval_cases j <;> linarith)

theorem updateCurrentNote_currentString (log2 : ℚ → ℚ) (self : DefaultAudioProcessor)
    (pitch : ℚ) :
    (updateCurrentNote log2 self pitch).currentString = (closestStringLoop log2 pitch).2 := by
  unfold updateCurrentNote
  simp only
  split_ifs <;> rfl

/-- At the open low-E frequency the loop stops at index 0 with distance 0. -/
theorem closestStringLoop_lowE (log2 : ℚ → ℚ) (h1 : log2 1 = 0) :
    closestStringLoop log2 41.20 = (0, 0) := by
  rw [closestStringLoop_unfold]
  simp only [closestStringStep]
  have e0 : (41.20 : ℚ) / openStringFrequencies.getD 0 0 = 1 := by
    norm_num [openStringFrequencies]
  rw [e0, h1, abs_zero]
  have hmax : (0 : ℚ) < FLT_MAX := by norm_num [FLT_MAX]
  rw [if_pos hmax]
  have n1 : ¬ |log2 (41.20 / openStringFrequencies.getD 1 0)| < 0 := not_lt.mpr (abs_nonneg _)
  have n2 : ¬ |log2 (41.20 / openStringFrequencies.getD 2 0)| < 0 := not_lt.mpr (abs_nonneg _)
  have n3 : ¬ |log2 (41.20 / openStringFrequencies.getD 3 0)| < 0 := not_lt.mpr (abs_nonneg _)
  rw [if_neg n1, if_neg n2, if_neg n3]
  rfl

theorem updateCurrentNote_lowE (log2 : ℚ → ℚ) (self : DefaultAudioProcessor)
    (h1 : log2 1 = 0) :
    (updateCurrentNote log2 self 41.20).currentString = 0 ∧
    (updateCurrentNote log2 self 41.20).currentFret = 0 := by
  unfold updateCurrentNote
  simp only [closestStringLoop_lowE log2 h1]
  have e0 : (41.20 : ℚ) / openStringFrequencies.getD (0 : Int).toNat 0 = 1 := by
    norm_num [openStringFrequencies]
  rw [if_pos (by decide), e0, h1]
  norm_num [stdRound_zero]

/-- Claim C7 as amended: the open strings are indexed 0 = E (41.20 Hz), 1 = A
(55.00 Hz), 2 = D (73.42 Hz), 3 = G (98.00 Hz), and whenever the four log-distances
|log2(pitch / f_i)| are below FLT_MAX (as they are for every positive float pitch),
`updateCurrentNote` sets currentString to an index in 0..3 that minimises
|log2(pitch / f_i)| (the first such index); a pitch of 41.20 Hz gives
currentString = 0 and currentFret = 0. -/
theorem updateCurrentNote_closest_string (log2 : ℚ → ℚ) (self : DefaultAudioProcessor)
    (pitch : ℚ)
    (hfin : ∀ i : Nat, i < 4 → |log2 (pitch / openStringFrequencies.getD i 0)| < FLT_MAX) :
    openStringFrequencies = [41.20, 55.00, 73.42, 98.00] ∧
    (∃ i : Nat, i < 4 ∧ (updateCurrentNote log2 self pitch).currentString = (i : Int) ∧
      (∀ j : Nat, j < 4 → |log2 (pitch / openStringFrequencies.getD i 0)| ≤
        |log2 (pitch / openStringFrequencies.getD j 0)|) ∧
      (∀ j : Nat, j < i → |log2 (pitch / openStringFrequencies.getD i 0)| <
        |log2 (pitch / openStringFrequencies.getD j 0)|)) ∧
    (log2 1 = 0 →
      (updateCurrentNote log2 self 41.20).currentString = 0 ∧
      (updateCurrentNote log2 self 41.20).currentFret = 0) := by
  refine ⟨rfl, ?_, updateCurrentNote_lowE log2 self⟩
  obtain ⟨i, hi, heq, hmin, hfirst⟩ := closestStringLoop_argmin log2 pitch hfin
  refine ⟨i, hi, ?_, hmin, hfirst⟩
  rw [updateCurrentNote_currentString, heq]

theorem log2Fixed_lowE_A : log2Fixed (41.20 / 55.00) = -107 / 256 := by
  have := @log2Fixed_of_bounds (41.20 / 55.00) (-107) (by norm_num) (by norm_num) (by norm_num)
  simpa using this

theorem log2Fixed_lowE_D : log2Fixed (41.20 / 73.42) = -214 / 256 := by
  have := @log2Fixed_of_bounds (41.20 / 73.42) (-214) (by norm_num) (by norm_num) (by norm_num)
  simpa using this

theorem log2Fixed_lowE_G : log2Fixed (41.20 / 98.00) = -321 / 256 := by
  have := @log2Fixed_of_bounds (41.20 / 98.00) (-321) (by norm_num) (by norm_num) (by norm_num)
  simpa using this

theorem log2Fixed_lowE_finite (i : Nat) (hi : i < 4) :
    |log2Fixed (41.20 / openStringFrequencies.getD i 0)| < FLT_MAX := by
  have hA := log2Fixed_lowE_A
  have hD := log2Fixed_lowE_D
  have hG := log2Fixed_lowE_G
  have h1 := log2Fixed_one
  interval_cases i
  · have e : (41.20 : ℚ) / openStringFrequencies.getD 0 0 = 1 := by
      norm_num [openStringFrequencies]
    rw [e, h1]; norm_num [FLT_MAX]
  · have e : (41.20 : ℚ) / openStringFrequencies.getD 1 0 = 41.20 / 55.00 := by
      norm_num [openStringFrequencies]
    rw [e, hA]; norm_num [FLT_MAX, abs_lt]
  · have e : (41.20 : ℚ) / openStringFrequencies.getD 2 0 = 41.20 / 73.42 := by
      norm_num [openStringFrequencies]
    rw [e, hD]; norm_num [FLT_MAX, abs_lt]
  · have e : (41.20 : ℚ) / openStringFrequencies.getD 3 0 = 41.20 / 98.00 := by
      norm_num [openStringFrequencies]
    rw [e, hG]; norm_num [FLT_MAX, abs_lt]

/-- Witness of `updateCurrentNote_closest_string`: 41.20 Hz with `log2Fixed`. -/
theorem updateCurrentNote_closest_string_witness :
    (updateCurrentNote log2Fixed initialState 41.20).currentString = 0 ∧
    (updateCurrentNote log2Fixed initialState 41.20).currentFret = 0 :=
  (updateCurrentNote_closest_string log2Fixed initialState 41.20 log2Fixed_lowE_finite).2.2
    log2Fixed_one

/-- Claim C7 as stated fails: the code's string order is 0 = E (41.20 Hz) ... 3 = G
(98.00 Hz), and a pitch of 41.20 Hz gives currentString = 0, not 3. -/
theorem updateCurrentNote_string_order_counterexample :
    openStringFrequencies.getD 0 0 = 41.20 ∧ openStringFrequencies.getD 3 0 = 98.00 ∧
    (updateCurrentNote log2Fixed initialState 41.20).currentString = 0 ∧
    (updateCurrentNote log2Fixed initialState 41.20).currentString ≠ 3 := by
  have h := (updateCurrentNote_lowE log2Fixed initialState log2Fixed_one).1
  refine ⟨rfl, rfl, h, ?_⟩
  rw [h]
  decide

/-- Stripping the last character of `s ++ o` gives back `s`. -/
theorem substring_strip_last (s : String) (o : Char) :
    substring (s ++ String.singleton o) 0 (((s ++ String.singleton o).length : Int) - 1) = s := by
  unfold substring
  have hdata : (s ++ String.singleton o).data = s.data ++ [o] := by
    rw [String.data_append]; rfl
  have hlen : (s ++ String.singleton o).length = s.length + 1 := by
    rw [String.length, hdata, List.length_append]; rfl
  rw [hlen, hdata]
  have hl : s.length = s.data.length := rfl
  have : ((((s.length + 1 : Nat) : Int) - 1).toNat - (0 : Int).toNat) = s.data.length := by
    rw [hl]; omega
  rw [this]
  simp

/-- The index search finds each chromatic name at its own index. -/
theorem findIndices_names (r c : Fin 12) :
    DefaultAudioProcessorEditor.findIndices
      (DefaultAudioProcessorEditor.noteNames.getD r.val "")
      (DefaultAudioProcessorEditor.noteNames.getD c.val "") = ((r.val : Int), (c.val : Int)) := by
  revert r c
  decide

/-- A step of the index search keeps `rootIndex` when the root name is not a
chromatic name. -/
theorem findIndicesStep_fst (rootNoteName noteToCheck : String) (acc : Int × Int) (i : Nat)
    (h : DefaultAudioProcessorEditor.noteNames.getD i "" ≠ rootNoteName) :
    (DefaultAudioProcessorEditor.findIndicesStep rootNoteName noteToCheck acc i).1 = acc.1 := by
  unfold DefaultAudioProcessorEditor.findIndicesStep
  simp only [if_neg h]
  split_ifs <;> rfl

/-- A step of the index search keeps `noteIndex` when the candidate name is not a
chromatic name. -/
theorem findIndicesStep_snd (rootNoteName noteToCheck : String) (acc : Int × Int) (i : Nat)
    (h : DefaultAudioProcessorEditor.noteNames.getD i "" ≠ noteToCheck) :
    (DefaultAudioProcessorEditor.findIndicesStep rootNoteName noteToCheck acc i).2 = acc.2 := by
  unfold DefaultAudioProcessorEditor.findIndicesStep
  simp only [if_neg h]
  split_ifs <;> rfl

theorem getD_ne_of_not_mem (name : String)
    (h : name ∉ DefaultAudioProcessorEditor.noteNames) (i : Nat) (hi : i < 12) :
    DefaultAudioProcessorEditor.noteNames.getD i "" ≠ name := by
  intro e
  apply h
  rw [← e]
  interval_cases i <;> decide

theorem foldl_findIndicesStep_fst (rootNoteName noteToCheck : String)
    (h : rootNoteName ∉ DefaultAudioProcessorEditor.noteNames) (l : List Nat)
    (hl : ∀ i ∈ l, i < 12) (acc : Int × Int) :
    (l.foldl (DefaultAudioProcessorEditor.findIndicesStep rootNoteName noteToCheck) acc).1
      = acc.1 := by
  induction l generalizing acc with
  | nil => rfl
  | cons i l ih =>
    rw [List.foldl_cons, ih (fun j hj => hl j (List.mem_cons_of_mem _ hj))]
    exact findIndicesStep_fst _ _ _ _
      (getD_ne_of_not_mem _ h i (hl i (List.mem_cons_self _ _)))

theorem foldl_findIndicesStep_snd (rootNoteName noteToCheck : String)
    (h : noteToCheck ∉ DefaultAudioProcessorEditor.noteNames) (l : List Nat)
    (hl : ∀ i ∈ l, i < 12) (acc : Int × Int) :
    (l.foldl (DefaultAudioProcessorEditor.findIndicesStep rootNoteName noteToCheck) acc).2
      = acc.2 := by
  induction l generalizing acc with
  | nil => rfl
  | cons i l ih =>
    rw [List.foldl_cons, ih (fun j hj => hl j (List.mem_cons_of_mem _ hj))]
    exact findIndicesStep_snd _ _ _ _
      (getD_ne_of_not_mem _ h i (hl i (List.mem_cons_self _ _)))

/-- A name outside the chromatic table leaves its index at -1. -/
theorem findIndices_not_found (rootNoteName noteToCheck : String) :
    (rootNoteName ∉ DefaultAudioProcessorEditor.noteNames →
      (DefaultAudioProcessorEditor.findIndices rootNoteName noteToCheck).1 = -1) ∧
    (noteToCheck ∉ DefaultAudioProcessorEditor.noteNames →
      (DefaultAudioProcessorEditor.findIndices rootNoteName noteToCheck).2 = -1) := by
  unfold DefaultAudioProcessorEditor.findIndices
  constructor
  · intro h
    rw [foldl_findIndicesStep_fst _ _ h _ (fun i hi => List.mem_range.mp hi)]
  · intro h
    rw [foldl_findIndicesStep_snd _ _ h _ (fun i hi => List.mem_range.mp hi)]

/-- With both names in the table the answer of `isNoteInMode` is membership of the
interval in the mode's row. -/
theorem isNoteInMode_names (r c : Fin 12) (m : Fin 7) (o1 o2 : Char) :
    DefaultAudioProcessorEditor.isNoteInMode
      (DefaultAudioProcessorEditor.noteNames.getD c.val "" ++ String.singleton o2)
      (DefaultAudioProcessorEditor.noteNames.getD r.val "" ++ String.singleton o1)
      (m.val : Int) =
    decide ((((c.val : Int) - (r.val : Int) + 12) % 12) ∈
      DefaultAudioProcessorEditor.modeIntervals.getD m.val []) := by
  unfold DefaultAudioProcessorEditor.isNoteInMode
  simp only [substring_strip_last, findIndices_names]
  revert r c m
  decide

/-- Claim C8: for every mode index m in [0,6] and every root and candidate written as
a chromatic name followed by one more character (the octave digit),
`isNoteInMode candidate root m` is true iff (candidateIndex - rootIndex + 12) mod 12 is
one of mode m's seven intervals, whatever the two final characters are; it is false
whenever either stripped name is not in the 12-name chromatic table; and for a root of
pitch class C and mode 0 the members are exactly C, D, E, F, G, A, B, with C# not a
member. -/
theorem isNoteInMode_iff_interval (m r c : Nat) (hm : m < 7) (hr : r < 12) (hc : c < 12)
    (o1 o2 : Char) :
    (DefaultAudioProcessorEditor.isNoteInMode
        (DefaultAudioProcessorEditor.noteNames.getD c "" ++ String.singleton o2)
        (DefaultAudioProcessorEditor.noteNames.getD r "" ++ String.singleton o1)
        (m : Int) = true ↔
      (((c : Int) - (r : Int) + 12) % 12) ∈
        DefaultAudioProcessorEditor.modeIntervals.getD m []) ∧
    (∀ note root : String,
      (substring root 0 ((root.length : Int) - 1) ∉ DefaultAudioProcessorEditor.noteNames ∨
       substring note 0 ((note.length : Int) - 1) ∉ DefaultAudioProcessorEditor.noteNames) →
      DefaultAudioProcessorEditor.isNoteInMode note root (m : Int) = false) ∧
    (DefaultAudioProcessorEditor.isNoteInMode
        (DefaultAudioProcessorEditor.noteNames.getD c "" ++ String.singleton o2)
        ("C" ++ String.singleton o1) 0 = true ↔
      DefaultAudioProcessorEditor.noteNames.getD c "" ∈ ["C", "D", "E", "F", "G", "A", "B"]) ∧
    DefaultAudioProcessorEditor.isNoteInMode
      ("C#" ++ String.singleton o2) ("C" ++ String.singleton o1) 0 = false := by
  refine ⟨?_, ?_, ?_, ?_⟩
  · have h := isNoteInMode_names ⟨r, hr⟩ ⟨c, hc⟩ ⟨m, hm⟩ o1 o2
    simp only at h
    rw [h, decide_eq_true_iff]
  · intro note root hnot
    unfold DefaultAudioProcessorEditor.isNoteInMode
    simp only
    have hf := findIndices_not_found (substring root 0 ((root.length : Int) - 1))
      (substring note 0 ((note.length : Int) - 1))
    rw [if_pos]
    rcases hnot with h | h
    · exact Or.inl (hf.1 h)
    · exact Or.inr (hf.2 h)
  · have h := isNoteInMode_names ⟨0, by decide⟩ ⟨c, hc⟩ ⟨0, by decide⟩ o1 o2
    have e : DefaultAudioProcessorEditor.noteNames.getD
        (⟨0, by decide⟩ : Fin 12).val "" = "C" := rfl
    rw [e] at h
    simp only at h
    have h' : DefaultAudioProcessorEditor.isNoteInMode
        (DefaultAudioProcessorEditor.noteNames.getD c "" ++ String.singleton o2)
        ("C" ++ String.singleton o1) 0 = _ := h
    rw [h', decide_eq_true_iff]
    interval_cases c <;> decide
  · have h := isNoteInMode_names ⟨0, by decide⟩ ⟨1, by decide⟩ ⟨0, by decide⟩ o1 o2
    have h' : DefaultAudioProcessorEditor.isNoteInMode
        ("C#" ++ String.singleton o2) ("C" ++ String.singleton o1) 0 = _ := h
    rw [h']
    decide

/-- Witness of `isNoteInMode_iff_interval`: F2 is in D Dorian (interval 3). -/
theorem isNoteInMode_iff_interval_witness :
    DefaultAudioProcessorEditor.isNoteInMode
      (DefaultAudioProcessorEditor.noteNames.getD 5 "" ++ String.singleton '2')
      (DefaultAudioProcessorEditor.noteNames.getD 2 "" ++ String.singleton '3')
      ((1 : Nat) : Int) = true :=
  (isNoteInMode_iff_interval 1 2 5 (by decide) (by decide) (by decide) '3' '2').1.mpr
    (by decide)

/-- Claim C9: for every mode index k in [0,6], row k of the mode-interval table is the
major scale {0,2,4,5,7,9,11} rotated to start on its k-th degree,
(major[(k+i) mod 7] - major[k]) mod 12 for i = 0..6, and that list is strictly
increasing, has exactly 7 entries, all in [0,11], and begins with 0. -/
theorem modeIntervals_rotated_major (k : Fin 7) :
    DefaultAudioProcessorEditor.modeIntervals.getD k.val [] = rotatedMajor k.val ∧
    (DefaultAudioProcessorEditor.modeIntervals.getD k.val []).Pairwise (fun a b => a < b) ∧
    (DefaultAudioProcessorEditor.modeIntervals.getD k.val []).length = 7 ∧
    (∀ x ∈ DefaultAudioProcessorEditor.modeIntervals.getD k.val [], 0 ≤ x ∧ x ≤ 11) ∧
    (DefaultAudioProcessorEditor.modeIntervals.getD k.val []).head? = some 0 ∧
    DefaultAudioProcessorEditor.modeIntervals.length = 7 := by
  revert k
  decide

/-- What one block does to `smoothedPitch` and `stableFrameCount`: either the block is
valid and passes the test of line 159 (the counter goes up by one and the smoothed
pitch is at least 12), or the counter is reset to 0. -/
theorem processBlock_counter (log2 : ℚ → ℚ) (self : DefaultAudioProcessor) (d : ℚ)
    (hs : 0 ≤ self.smoothedPitch) :
    0 ≤ (processBlock log2 self d).smoothedPitch ∧
    (((40 ≤ d ∧ d ≤ 400) ∧ (|d - self.smoothedPitch| < 3 ∨ self.smoothedPitch = 0) ∧
        (processBlock log2 self d).stableFrameCount = self.stableFrameCount + 1 ∧
        12 ≤ (processBlock log2 self d).smoothedPitch) ∨
      (processBlock log2 self d).stableFrameCount = 0) := by
  by_cases hd : 40 ≤ d ∧ d ≤ 400
  · by_cases hc : |d - self.smoothedPitch| < 3 ∨ self.smoothedPitch = 0
    · have hsm : (12 : ℚ) ≤ 0.7 * self.smoothedPitch + 0.3 * d := by
        norm_num; linarith [hd.1]
      by_cases hn : self.stableFrameCount + 1 < 3
      · rw [processBlock_smooth_nocommit log2 self d hd hc hn]
        exact ⟨by simp only; linarith, Or.inl ⟨hd, hc, rfl, hsm⟩⟩
      · rw [processBlock_smooth_commit log2 self d hd hc (by omega),
          updateCurrentNote_smoothedPitch, updateCurrentNote_stableFrameCount]
        exact ⟨by simp only; linarith, Or.inl ⟨hd, hc, rfl, hsm⟩⟩
    · rw [not_or, not_lt] at hc
      rw [processBlock_jump log2 self d hd hc.1 hc.2]
      exact ⟨by simp only; linarith [hd.1], Or.inr rfl⟩
  · rw [processBlock_invalid log2 self d hd]
    split_ifs with h1 h2
    · exact ⟨le_refl _, Or.inr rfl⟩
    · exact ⟨by simp only; norm_num; linarith, Or.inr rfl⟩
    · exact ⟨hs, Or.inr rfl⟩

/-- In every run from the initial state the smoothed pitch and the counter are
non-negative. -/
theorem run_nonneg (log2 : ℚ → ℚ) (ds : List ℚ) :
    0 ≤ (ds.foldl (processBlock log2) initialState).smoothedPitch ∧
    0 ≤ (ds.foldl (processBlock log2) initialState).stableFrameCount := by
  induction ds using List.reverseRecOn with
  | nil => exact ⟨le_refl _, le_refl _⟩
  | append_singleton ds d ih =>
    rw [List.foldl_append, List.foldl_cons, List.foldl_nil]
    have h := processBlock_counter log2 (ds.foldl (processBlock log2) initialState) d ih.1
    refine ⟨h.1, ?_⟩
    rcases h.2 with ⟨_, _, hc, _⟩ | hc
    · rw [hc]; linarith [ih.2]
    · rw [hc]

/-- A positive counter after a run means the run is not empty and its last block
was valid and passed the test of line 159. -/
theorem run_counter_pos (log2 : ℚ → ℚ) (ds : List ℚ)
    (h : 1 ≤ (ds.foldl (processBlock log2) initialState).stableFrameCount) :
    ∃ pre a, ds = pre ++ [a] ∧ (40 ≤ a ∧ a ≤ 400) ∧
      (|a - (pre.foldl (processBlock log2) initialState).smoothedPitch| < 3 ∨
        (pre.foldl (processBlock log2) initialState).smoothedPitch = 0) ∧
      (ds.foldl (processBlock log2) initialState).stableFrameCount =
        (pre.foldl (processBlock log2) initialState).stableFrameCount + 1 ∧
      12 ≤ (ds.foldl (processBlock log2) initialState).smoothedPitch := by
  induction ds using List.reverseRecOn with
  | nil =>
    have h0 : ([] : List ℚ).foldl (processBlock log2) initialState = initialState := rfl
    rw [h0] at h
    exact absurd h (by decide)
  | append_singleton ds d _ =>
    refine ⟨ds, d, rfl, ?_⟩
    rw [List.foldl_append, List.foldl_cons, List.foldl_nil] at h ⊢
    have hc := processBlock_counter log2 (ds.foldl (processBlock log2) initialState) d
      (run_nonneg log2 ds).1
    rcases hc.2 with ⟨hv, hw, hcnt, hsm⟩ | h0
    · exact ⟨hv, hw, hcnt, hsm⟩
    · rw [h0] at h; exact absurd h (by decide)

/-- Claim C13 as amended: in every run of `processBlock` updates from the initial
state, whenever a block commits LockedPitch, that block and the two blocks before it
all carried valid raw pitches; the last two of the three were within 3 Hz of the
smoothed pitch held when they arrived, and the first was within 3 Hz of it or arrived
while smoothedPitch was 0 (the seed frame, which line 159 counts as stable). -/
theorem commit_preceded_by_stable_blocks (log2 : ℚ → ℚ) (ds : List ℚ) (d : ℚ)
    (hc : commitsLockedPitch (ds.foldl (processBlock log2) initialState) d) :
    ∃ pre a b, ds = pre ++ [a, b] ∧
      ((40 ≤ a ∧ a ≤ 400) ∧
        (|a - (pre.foldl (processBlock log2) initialState).smoothedPitch| < 3 ∨
          (pre.foldl (processBlock log2) initialState).smoothedPitch = 0)) ∧
      ((40 ≤ b ∧ b ≤ 400) ∧
        |b - ((pre ++ [a]).foldl (processBlock log2) initialState).smoothedPitch| < 3) ∧
      ((40 ≤ d ∧ d ≤ 400) ∧
        |d - (ds.foldl (processBlock log2) initialState).smoothedPitch| < 3) := by
  obtain ⟨hv, hw, hn⟩ := hc
  norm_num [requiredStableFrames] at hv hw hn
  obtain ⟨ds1, b, hds, hbv, hbw, hbc, hbs⟩ := run_counter_pos log2 ds (by omega)
  obtain ⟨pre, a, hds1, hav, haw, _, has⟩ := run_counter_pos log2 ds1 (by omega)
  refine ⟨pre, a, b, ?_, ⟨hav, haw⟩, ⟨hbv, ?_⟩, ⟨hv, ?_⟩⟩
  · rw [hds, hds1, List.append_assoc]; rfl
  · rw [← hds1]
    rcases hbw with h | h
    · exact h
    · rw [h] at has; norm_num at has
  · rcases hw with h | h
    · exact h
    · rw [h] at hbs; norm_num at hbs

/-- Witness of `commit_preceded_by_stable_blocks`: tracking 110 Hz from the initial
state, the fifth block at 110 Hz commits. -/
theorem commit_preceded_by_stable_blocks_witness :
    ∃ pre a b, [110, 110, 110, (110 : ℚ)] = pre ++ [a, b] ∧
      ((40 ≤ a ∧ a ≤ 400) ∧
        (|a - (pre.foldl (processBlock log2Fixed) initialState).smoothedPitch| < 3 ∨
          (pre.foldl (processBlock log2Fixed) initialState).smoothedPitch = 0)) ∧
      ((40 ≤ b ∧ b ≤ 400) ∧
        |b - ((pre ++ [a]).foldl (processBlock log2Fixed) initialState).smoothedPitch| < 3) ∧
      ((40 ≤ (110 : ℚ) ∧ (110 : ℚ) ≤ 400) ∧
        |110 - (([110, 110, 110, (110 : ℚ)]).foldl (processBlock log2Fixed)
          initialState).smoothedPitch| < 3) := by
  apply commit_preceded_by_stable_blocks
  have h1 := processBlock_smooth_nocommit log2Fixed initialState 110 (by norm_num)
    (Or.inr rfl) (by decide)
  have h2 := processBlock_jump log2Fixed (processBlock log2Fixed initialState 110) 110
    (by norm_num) (by rw [h1]; norm_num [initialState, abs_of_pos])
    (by rw [h1]; norm_num [initialState])
  have h3 := processBlock_smooth_nocommit log2Fixed
    (processBlock log2Fixed (processBlock log2Fixed initialState 110) 110) 110 (by norm_num)
    (Or.inl (by rw [h2]; norm_num)) (by rw [h2]; decide)
  have h4 := processBlock_smooth_nocommit log2Fixed
    (processBlock log2Fixed (processBlock log2Fixed
      (processBlock log2Fixed initialState 110) 110) 110) 110 (by norm_num)
    (Or.inl (by rw [h3, h2]; norm_num)) (by rw [h3, h2]; decide)
  simp only [List.foldl_cons, List.foldl_nil, commitsLockedPitch, requiredStableFrames]
  rw [h4, h3, h2]
  norm_num

/-- Claim C13 as stated fails: from the initial state the raw pitches 400, 120, 120
commit LockedPitch (currentPitch = 120) on the third block, although the first of the
three, 400 Hz, was 400 Hz away from the smoothed pitch 0 held when it arrived. -/
theorem commit_preceded_by_stable_blocks_counterexample :
    commitsLockedPitch (([400, 120] : List ℚ).foldl (processBlock log2Fixed) initialState)
      120 ∧
    (processBlock log2Fixed
      (([400, 120] : List ℚ).foldl (processBlock log2Fixed) initialState) 120).currentPitch
        = 120 ∧
    initialState.smoothedPitch = 0 ∧
    ¬ |(400 : ℚ) - initialState.smoothedPitch| < 3 := by
  have h1 := processBlock_smooth_nocommit log2Fixed initialState 400 (by norm_num)
    (Or.inr rfl) (by decide)
  have h2 := processBlock_smooth_nocommit log2Fixed (processBlock log2Fixed initialState 400)
    120 (by norm_num) (Or.inl (by rw [h1]; norm_num [initialState]))
    (by rw [h1]; decide)
  have h3 := processBlock_smooth_commit log2Fixed
    (processBlock log2Fixed (processBlock log2Fixed initialState 400) 120)
    120 (by norm_num) (Or.inl (by rw [h2, h1]; norm_num [initialState]))
    (by rw [h2, h1]; decide)
  simp only [List.foldl_cons, List.foldl_nil, commitsLockedPitch, requiredStableFrames]
  refine ⟨?_, ?_, rfl, ?_⟩
  · rw [h2, h1]; norm_num [initialState]
  · rw [h3, updateCurrentNote_currentPitch, h2, h1]; norm_num [initialState]
  · norm_num [initialState]

/-- The note index is always in 0..11. -/
theorem noteIndex_range (n : Int) : 0 ≤ noteIndex n ∧ noteIndex n < 12 := by
  unfold noteIndex
  simp only
  rw [tmod_twelve]
  split_ifs <;> omega

/-- After `updateCurrentNote`, when the four log-distances are below FLT_MAX, the
string is one of 0..3, the fret is non-negative and the note is a chromatic name
followed by an octave number. -/
theorem updateCurrentNote_known (log2 : ℚ → ℚ) (self : DefaultAudioProcessor) (pitch : ℚ)
    (hfin : ∀ i : Nat, i < 4 → |log2 (pitch / openStringFrequencies.getD i 0)| < FLT_MAX) :
    (0 ≤ (updateCurrentNote log2 self pitch).currentString ∧
      (updateCurrentNote log2 self pitch).currentString ≤ 3) ∧
    0 ≤ (updateCurrentNote log2 self pitch).currentFret ∧
    (∃ i : Nat, i < 12 ∧ ∃ o : Int, (updateCurrentNote log2 self pitch).currentNote =
      DefaultAudioProcessor.noteNames.getD i "" ++ toString o) := by
  obtain ⟨i, hi, heq, _, _⟩ := closestStringLoop_argmin log2 pitch hfin
  have hstr := updateCurrentNote_currentString log2 self pitch
  rw [heq] at hstr
  simp only at hstr
  refine ⟨by rw [hstr]; omega, ?_⟩
  unfold updateCurrentNote
  simp only [heq]
  have hne : (i : Int) ≠ -1 := by omega
  rw [if_pos hne]
  have hidx : (noteIndex (semitonesFromA4 log2 pitch)).toNat < 12 := by
    have := noteIndex_range (semitonesFromA4 log2 pitch); omega
  split_ifs with h
  · exact ⟨le_refl _, _, hidx, _, rfl⟩
  · exact ⟨not_lt.mp h, _, hidx, _, rfl⟩

/-- The published fields are all unknown or all known, and stay so after one block,
provided `log2` is finite on [1/10, 10]. -/
theorem processBlock_published (log2 : ℚ → ℚ)
    (hfin : ∀ x : ℚ, 1 / 10 ≤ x → x ≤ 10 → |log2 x| < FLT_MAX)
    (self : DefaultAudioProcessor) (d : ℚ) (hs : 0 ≤ self.smoothedPitch)
    (hinv : (self.currentPitch = 0 ∧ self.currentNote = "---" ∧ self.currentString = -1 ∧
        self.currentFret = -1) ∨
      (0 < self.currentPitch ∧
        (∃ i : Nat, i < 12 ∧ ∃ o : Int, self.currentNote =
          DefaultAudioProcessor.noteNames.getD i "" ++ toString o) ∧
        (0 ≤ self.currentString ∧ self.currentString ≤ 3) ∧ 0 ≤ self.currentFret)) :
    ((processBlock log2 self d).currentPitch = 0 ∧
        (processBlock log2 self d).currentNote = "---" ∧
        (processBlock log2 self d).currentString = -1 ∧
        (processBlock log2 self d).currentFret = -1) ∨
      (0 < (processBlock log2 self d).currentPitch ∧
        (∃ i : Nat, i < 12 ∧ ∃ o : Int, (processBlock log2 self d).currentNote =
          DefaultAudioProcessor.noteNames.getD i "" ++ toString o) ∧
        (0 ≤ (processBlock log2 self d).currentString ∧
          (processBlock log2 self d).currentString ≤ 3) ∧
        0 ≤ (processBlock log2 self d).currentFret) := by
  by_cases hd : 40 ≤ d ∧ d ≤ 400
  · by_cases hc : |d - self.smoothedPitch| < 3 ∨ self.smoothedPitch = 0
    · by_cases hn : self.stableFrameCount + 1 < 3
      · rw [processBlock_smooth_nocommit log2 self d hd hc hn]
        exact hinv
      · rw [processBlock_smooth_commit log2 self d hd hc (by omega)]
        have hlo : (12 : ℚ) ≤ 0.7 * self.smoothedPitch + 0.3 * d := by
          norm_num; linarith [hd.1]
        have hhi : 0.7 * self.smoothedPitch + 0.3 * d ≤ 403 := by
          rcases hc with h | h
          · rw [abs_lt] at h; norm_num; linarith [hd.2, h.1]
          · rw [h]; norm_num; linarith [hd.2]
        have hfin' : ∀ i : Nat, i < 4 →
            |log2 ((0.7 * self.smoothedPitch + 0.3 * d) / openStringFrequencies.getD i 0)|
              < FLT_MAX := by
          intro i hi
          apply hfin
          · interval_cases i <;> norm_num [openStringFrequencies] <;>
              rw [le_div_iff₀ (by norm_num)] <;> linarith
          · interval_cases i <;> norm_num [openStringFrequencies] <;>
              rw [div_le_iff₀ (by norm_num)] <;> linarith
        have hk := updateCurrentNote_known log2
          { self with smoothedPitch := 0.7 * self.smoothedPitch + 0.3 * d,
                      stableFrameCount := self.stableFrameCount + 1,
                      currentPitch := 0.7 * self.smoothedPitch + 0.3 * d }
          (0.7 * self.smoothedPitch + 0.3 * d) hfin'
        refine Or.inr ⟨?_, hk.2.2, hk.1, hk.2.1⟩
        rw [updateCurrentNote_currentPitch]
        simp only
        linarith
    · rw [not_or, not_lt] at hc
      rw [processBlock_jump log2 self d hd hc.1 hc.2]
      exact hinv
  · rw [processBlock_invalid log2 self d hd]
    split_ifs with h1 h2
    · exact Or.inl ⟨rfl, rfl, rfl, rfl⟩
    · exact hinv
    · exact hinv

/-- Claim C12: in every state reachable from the initial state by `processBlock`
updates (any raw pitches, in particular 0 or values in [40,400]), the published fields
are either all unknown (currentPitch = 0, currentNote = "---", currentString = -1,
currentFret = -1) or all known (currentPitch > 0, currentNote a chromatic name followed
by an octave number, currentString in 0..3, currentFret at least 0); `log2` is assumed
finite (below FLT_MAX in absolute value) on [1/10, 10], as `std::log2` is. -/
theorem published_fields_invariant (log2 : ℚ → ℚ)
    (hfin : ∀ x : ℚ, 1 / 10 ≤ x → x ≤ 10 → |log2 x| < FLT_MAX) (ds : List ℚ) :
    ((ds.foldl (processBlock log2) initialState).currentPitch = 0 ∧
        (ds.foldl (processBlock log2) initialState).currentNote = "---" ∧
        (ds.foldl (processBlock log2) initialState).currentString = -1 ∧
        (ds.foldl (processBlock log2) initialState).currentFret = -1) ∨
      (0 < (ds.foldl (processBlock log2) initialState).currentPitch ∧
        (∃ i : Nat, i < 12 ∧ ∃ o : Int,
          (ds.foldl (processBlock log2) initialState).currentNote =
            DefaultAudioProcessor.noteNames.getD i "" ++ toString o) ∧
        (0 ≤ (ds.foldl (processBlock log2) initialState).currentString ∧
          (ds.foldl (processBlock log2) initialState).currentString ≤ 3) ∧
        0 ≤ (ds.foldl (processBlock log2) initialState).currentFret) := by
  induction ds using List.reverseRecOn with
  | nil => exact Or.inl ⟨rfl, rfl, rfl, rfl⟩
  | append_singleton ds d ih =>
    rw [List.foldl_append, List.foldl_cons, List.foldl_nil]
    exact processBlock_published log2 hfin _ d (run_nonneg log2 ds).1 ih

/-- The stand-in `log2Fixed` is bounded by 4 on [1/10, 10]. -/
theorem log2Fixed_finite (x : ℚ) (h1 : 1 / 10 ≤ x) (h2 : x ≤ 10) :
    |log2Fixed x| < FLT_MAX := by
  have hx : (0 : ℚ) < x := by linarith
  have hpos : (0 : ℚ) < x ^ 256 := pow_pos hx 256
  have hlo : (-1024 : Int) ≤ Int.log 2 (x ^ 256) := by
    rw [← Int.zpow_le_iff_le_log (by norm_num) hpos]
    have : ((1 : ℚ) / 16) ^ 256 ≤ x ^ 256 :=
      pow_le_pow_left₀ (by norm_num) (by linarith) 256
    calc ((2 : ℕ) : ℚ) ^ (-1024 : Int) = ((1 : ℚ) / 16) ^ 256 := by norm_num
      _ ≤ x ^ 256 := this
  have hhi : Int.log 2 (x ^ 256) < 1025 := by
    rw [← Int.lt_zpow_iff_log_lt (by norm_num) hpos]
    have : x ^ 256 ≤ (16 : ℚ) ^ 256 := pow_le_pow_left₀ (le_of_lt hx) (by linarith) 256
    calc x ^ 256 ≤ (16 : ℚ) ^ 256 := this
      _ < ((2 : ℕ) : ℚ) ^ (1025 : Int) := by norm_num
  unfold log2Fixed
  have hl : (-1024 : ℚ) ≤ (Int.log 2 (x ^ 256) : ℚ) := by exact_mod_cast hlo
  have hh : (Int.log 2 (x ^ 256) : ℚ) < 1025 := by exact_mod_cast hhi
  rw [abs_lt]
  constructor
  · have : (-5 : ℚ) < (Int.log 2 (x ^ 256) : ℚ) / 256 := by
      rw [lt_div_iff₀ (by norm_num)]; linarith
    have hF : -FLT_MAX < -5 := by norm_num [FLT_MAX]
    linarith
  · have : (Int.log 2 (x ^ 256) : ℚ) / 256 < 5 := by
      rw [div_lt_iff₀ (by norm_num)]; linarith
    have hF : (5 : ℚ) < FLT_MAX := by norm_num [FLT_MAX]
    linarith

/-- Witness of `published_fields_invariant`: the raw pitches 400, 120, 120, 0 with
`log2Fixed`. -/
theorem published_fields_invariant_witness :
    ((([400, 120, 120, 0] : List ℚ).foldl (processBlock log2Fixed) initialState).currentPitch
        = 0 ∧
      (([400, 120, 120, 0] : List ℚ).foldl (processBlock log2Fixed) initialState).currentNote
        = "---" ∧
      (([400, 120, 120, 0] : List ℚ).foldl (processBlock log2Fixed) initialState).currentString
        = -1 ∧
      (([400, 120, 120, 0] : List ℚ).foldl (processBlock log2Fixed) initialState).currentFret
        = -1) ∨
    (0 < (([400, 120, 120, 0] : List ℚ).foldl (processBlock log2Fixed)
        initialState).currentPitch ∧
      (∃ i : Nat, i < 12 ∧ ∃ o : Int,
        (([400, 120, 120, 0] : List ℚ).foldl (processBlock log2Fixed) initialState).currentNote
          = DefaultAudioProcessor.noteNames.getD i "" ++ toString o) ∧
      (0 ≤ (([400, 120, 120, 0] : List ℚ).foldl (processBlock log2Fixed)
          initialState).currentString ∧
        (([400, 120, 120, 0] : List ℚ).foldl (processBlock log2Fixed)
          initialState).currentString ≤ 3) ∧
      0 ≤ (([400, 120, 120, 0] : List ℚ).foldl (processBlock log2Fixed)
        initialState).currentFret) :=
  published_fields_invariant log2Fixed log2Fixed_finite [400, 120, 120, 0]

/-- Stripping the octave of the note at a fretboard position leaves the chromatic name
at index (open-string index + fret) mod 12, the open strings G, D, A, E being at
chromatic indices 7, 2, 9, 4. -/
theorem getNoteAtPosition_strip (s : Fin 4) (f : Fin 8) :
    substring (DefaultAudioProcessorEditor.getNoteAtPosition (s.val : Int) (f.val : Int)) 0
      (((DefaultAudioProcessorEditor.getNoteAtPosition (s.val : Int) (f.val : Int)).length : Int)
        - 1) =
    DefaultAudioProcessorEditor.noteNames.getD
      ((([7, 2, 9, 4] : List Nat).getD s.val 0 + f.val) % 12) "" := by
  revert s f
  decide

/-- The chromatic names are pairwise distinct. -/
theorem noteNames_injective (c k : Fin 12) :
    (DefaultAudioProcessorEditor.noteNames.getD c.val "" ==
      DefaultAudioProcessorEditor.noteNames.getD k.val "") = true ↔ c = k := by
  revert c k
  decide

/-- The sentinel matches no fretboard position. -/
theorem isNoteMatch_sentinel (s : Fin 4) (f : Fin 8) :
    DefaultAudioProcessorEditor.isNoteMatch "---"
      (DefaultAudioProcessorEditor.getNoteAtPosition (s.val : Int) (f.val : Int)) = false := by
  revert s f
  decide

/-- Claim C15: for every string s in 0..3 (open strings G, D, A, E, at chromatic
indices 7, 2, 9, 4), every fret f in 0..7 and every note written as the chromatic name
of index c followed by one more character (the octave digit),
`isNoteMatch n (getNoteAtPosition s f)` is true iff c = (openIndex(s) + f) mod 12,
whatever the octaves are; and the sentinel "---" matches no fretboard position. -/
theorem isNoteMatch_position (s f c : Nat) (hs : s < 4) (hf : f < 8) (hc : c < 12)
    (o : Char) :
    (DefaultAudioProcessorEditor.isNoteMatch
        (DefaultAudioProcessorEditor.noteNames.getD c "" ++ String.singleton o)
        (DefaultAudioProcessorEditor.getNoteAtPosition (s : Int) (f : Int)) = true ↔
      c = (([7, 2, 9, 4] : List Nat).getD s 0 + f) % 12) ∧
    DefaultAudioProcessorEditor.noteNames.getD (([7, 2, 9, 4] : List Nat).getD s 0) "" =
      (["G", "D", "A", "E"] : List String).getD s "" ∧
    DefaultAudioProcessorEditor.isNoteMatch "---"
      (DefaultAudioProcessorEditor.getNoteAtPosition (s : Int) (f : Int)) = false := by
  refine ⟨?_, ?_, isNoteMatch_sentinel ⟨s, hs⟩ ⟨f, hf⟩⟩
  · unfold DefaultAudioProcessorEditor.isNoteMatch
    simp only [substring_strip_last]
    have h := getNoteAtPosition_strip ⟨s, hs⟩ ⟨f, hf⟩
    simp only at h
    rw [h]
    have hk : (([7, 2, 9, 4] : List Nat).getD s 0 + f) % 12 < 12 := Nat.mod_lt _ (by decide)
    have hinj := noteNames_injective ⟨c, hc⟩ ⟨_, hk⟩
    simp only [Fin.mk.injEq] at hinj
    exact hinj
  · interval_cases s <;> decide

/-- Witness of `isNoteMatch_position`: "A1" matches string 0 (G), fret 2. -/
theorem isNoteMatch_position_witness :
    DefaultAudioProcessorEditor.isNoteMatch
      (DefaultAudioProcessorEditor.noteNames.getD 9 "" ++ String.singleton '1')
      (DefaultAudioProcessorEditor.getNoteAtPosition ((0 : Nat) : Int) ((2 : Nat) : Int))
        = true :=
  (isNoteMatch_position 0 2 9 (by decide) (by decide) (by decide) '1').1.mpr (by decide)

open YinPitchDetector

/-- The low-pass loop over in-bounds consecutive indices computes the recurrence on
the samples it reads and ends in the state reached after them. -/
theorem lowPassFrom_consecutive (buffer : List ℚ) (n : Nat) :
    ∀ (k : Nat) (s : ℚ), k + n ≤ buffer.length →
      lowPassFrom buffer s (List.range' k n) =
        some (lowPassRecurrence s ((buffer.drop k).take n),
          lowPassState s ((buffer.drop k).take n)) := by
  induction n with
  | zero => intro k s _; simp [lowPassFrom, lowPassRecurrence, lowPassState]
  | succ n ih =>
    intro k s hk
    have hlt : k < buffer.length := by omega
    have hdrop : buffer.drop k = buffer[k] :: buffer.drop (k + 1) :=
      List.drop_eq_getElem_cons hlt
    rw [List.range'_succ, lowPassFrom, List.getElem?_eq_getElem hlt]
    simp only
    rw [ih (k + 1) _ (by omega), hdrop, List.take_succ_cons]
    simp [lowPassRecurrence, lowPassState]

/-- With at least `bufferSize` samples supplied, the low-pass loop succeeds. -/
theorem lowPass_in_bounds (self : YinPitchDetector) (buffer : List ℚ)
    (h : self.bufferSize ≤ buffer.length) :
    lowPass self buffer =
      some (lowPassRecurrence self.prevSample (buffer.take self.bufferSize),
        lowPassState self.prevSample (buffer.take self.bufferSize)) := by
  unfold lowPass
  rw [List.range_eq_range', lowPassFrom_consecutive buffer self.bufferSize 0 _ (by omega)]
  simp

/-- An index beyond the block makes the low-pass loop fail. -/
theorem lowPassFrom_out_of_bounds (buffer : List ℚ) (is : List Nat) :
    ∀ s : ℚ, (∃ i ∈ is, buffer.length ≤ i) → lowPassFrom buffer s is = none := by
  induction is with
  | nil => intro s h; obtain ⟨i, hi, _⟩ := h; exact absurd hi (List.not_mem_nil i)
  | cons j js ih =>
    intro s h
    rw [lowPassFrom]
    by_cases hj : buffer.length ≤ j
    · rw [List.getElem?_eq_none hj]
    · have hlt : j < buffer.length := by omega
      rw [List.getElem?_eq_getElem hlt]
      simp only
      obtain ⟨i, hi, hle⟩ := h
      rcases List.mem_cons.mp hi with e | hmem
      · exact absurd (e ▸ hle) hj
      · rw [ih _ ⟨i, hmem, hle⟩]

/-- With fewer than `bufferSize` samples supplied, `detectPitch` reads beyond the
block. -/
theorem detectPitch_out_of_bounds (self : YinPitchDetector) (buffer : List ℚ)
    (h : buffer.length < self.bufferSize) : detectPitch self buffer = none := by
  unfold detectPitch lowPass
  rw [lowPassFrom_out_of_bounds buffer _ _
    ⟨buffer.length, List.mem_range.mpr h, le_refl _⟩]

theorem estimatePitch_prevSample (self : YinPitchDetector) (filteredBuffer : List ℚ) :
    (estimatePitch self filteredBuffer).2.prevSample = self.prevSample ∧
    (estimatePitch self filteredBuffer).2.bufferSize = self.bufferSize ∧
    (estimatePitch self filteredBuffer).2.sampleRate = self.sampleRate := by
  exact ⟨rfl, rfl, rfl⟩

/-- With at least `bufferSize` samples supplied, `detectPitch` returns. -/
theorem detectPitch_in_bounds (self : YinPitchDetector) (buffer : List ℚ)
    (h : self.bufferSize ≤ buffer.length) :
    detectPitch self buffer = some (estimatePitch
      { self with prevSample := lowPassState self.prevSample (buffer.take self.bufferSize) }
      (lowPassRecurrence self.prevSample (buffer.take self.bufferSize))) := by
  unfold detectPitch
  rw [lowPass_in_bounds self buffer h]

theorem lowPassRecurrence_append (A B : List ℚ) :
    ∀ s : ℚ, lowPassRecurrence s (A ++ B) =
      lowPassRecurrence s A ++
        lowPassRecurrence (lowPassState s A) B := by
  induction A with
  | nil => intro s; rfl
  | cons a A ih => intro s; simp [lowPassRecurrence, lowPassState, ih]

/-- With `bufferSize` samples supplied, `detectPitch` returns and leaves the filter in
the state reached after the block. -/
theorem detectPitch_returns (self : YinPitchDetector) (buffer : List ℚ)
    (h : buffer.length = self.bufferSize) :
    ∃ r self1, detectPitch self buffer = some (r, self1) ∧
      self1.bufferSize = self.bufferSize ∧
      self1.prevSample = lowPassState self.prevSample buffer ∧
      lowPass self buffer = some (lowPassRecurrence self.prevSample buffer, self1.prevSample) := by
  have hb : buffer.take self.bufferSize = buffer := by rw [← h]; exact List.take_length _
  have h1 := detectPitch_in_bounds self buffer (by omega)
  have h2 := lowPass_in_bounds self buffer (by omega)
  rw [hb] at h1 h2
  exact ⟨_, _, h1, rfl, rfl, h2⟩

/-- Claim C14: for every initial filter state and every two consecutive blocks A then
B of `bufferSize` samples, both calls of `detectPitch` return, and the filtered samples
computed for A followed by those computed for B are the output of the single recurrence
y[i] = 0.95 * y[i-1] + 0.05 * x[i] run over A ++ B from the initial state: the filter
state is carried from one block to the next and never reset. -/
theorem lowPass_state_carried (self : YinPitchDetector) (A B : List ℚ)
    (hA : A.length = self.bufferSize) (hB : B.length = self.bufferSize) :
    ∃ r1 self1 r2 self2 fa fb,
      detectPitch self A = some (r1, self1) ∧ detectPitch self1 B = some (r2, self2) ∧
      lowPass self A = some (fa, self1.prevSample) ∧
      lowPass self1 B = some (fb, self2.prevSample) ∧
      fa ++ fb = lowPassRecurrence self.prevSample (A ++ B) := by
  obtain ⟨r1, self1, h1, hb1, hp1, hl1⟩ := detectPitch_returns self A hA
  obtain ⟨r2, self2, h2, _, _, hl2⟩ := detectPitch_returns self1 B (by rw [hb1]; exact hB)
  refine ⟨r1, self1, r2, self2, _, _, h1, h2, hl1, hl2, ?_⟩
  rw [lowPassRecurrence_append, hp1]

/-- Witness of `lowPass_state_carried`: a detector of 2 samples per block, blocks
[1, 0] and [0, 1]. -/
theorem lowPass_state_carried_witness :
    ∃ r1 self1 r2 self2 fa fb,
      detectPitch (YinPitchDetector.create 44100 2) [1, 0] = some (r1, self1) ∧
      detectPitch self1 [0, 1] = some (r2, self2) ∧
      lowPass (YinPitchDetector.create 44100 2) [1, 0] = some (fa, self1.prevSample) ∧
      lowPass self1 [0, 1] = some (fb, self2.prevSample) ∧
      fa ++ fb =
        lowPassRecurrence (YinPitchDetector.create 44100 2).prevSample ([1, 0] ++ [0, 1]) :=
  lowPass_state_carried (YinPitchDetector.create 44100 2) [1, 0] [0, 1] rfl rfl

/-- Claim C18, the code at the failing input: after `prepareToPlay (44100, 512)` the
detector reads N = max(1024, 512) = 1024 samples, so for every host block of 512
samples `detectPitch` reads indices 512 .. 1023 beyond the block (the model returns
`none`); a block size of at least 1024 is read within bounds. -/
theorem detectPitch_reads_beyond_host_block :
    (DefaultAudioProcessor.prepareToPlay 44100 512).bufferSize = 1024 ∧
    (∀ block : List ℚ, block.length = 512 →
      detectPitch (DefaultAudioProcessor.prepareToPlay 44100 512) block = none) ∧
    (∀ (samplesPerBlock : Nat) (block : List ℚ), 1024 ≤ samplesPerBlock →
      block.length = samplesPerBlock →
      (detectPitch (DefaultAudioProcessor.prepareToPlay 44100 (samplesPerBlock : Int))
        block).isSome = true) := by
  have hN : (DefaultAudioProcessor.prepareToPlay 44100 512).bufferSize = 1024 := by decide
  refine ⟨hN, fun block hb => ?_, fun n block hn hb => ?_⟩
  · exact detectPitch_out_of_bounds _ block (by rw [hN, hb]; decide)
  · have hsize : (DefaultAudioProcessor.prepareToPlay 44100 (n : Int)).bufferSize = n := by
      simp only [DefaultAudioProcessor.prepareToPlay, YinPitchDetector.create]
      omega
    obtain ⟨r, s1, h, _⟩ := detectPitch_returns
      (DefaultAudioProcessor.prepareToPlay 44100 (n : Int)) block (by rw [hsize]; exact hb)
    rw [h]; rfl


theorem dSpec_nonneg (N : Nat) (x : List ℚ) (tau : Nat) : 0 ≤ dSpec N x tau := by
  unfold dSpec
  exact Finset.sum_nonneg (fun i _ => sq_nonneg _)

theorem runningSumSpec_succ (N : Nat) (x : List ℚ) (tau : Nat) :
    runningSumSpec N x (tau + 1) = runningSumSpec N x tau + dSpec N x (tau + 1) := by
  unfold runningSumSpec
  rw [Finset.sum_Icc_succ_top (by omega)]

theorem runningSumSpec_zero (N : Nat) (x : List ℚ) : runningSumSpec N x 0 = 0 := by
  unfold runningSumSpec
  simp

theorem runningSumSpec_nonneg (N : Nat) (x : List ℚ) (tau : Nat) :
    0 ≤ runningSumSpec N x tau := by
  unfold runningSumSpec
  exact Finset.sum_nonneg (fun i _ => dSpec_nonneg N x i)

theorem cmndFrom_length (ys : List CFloat) :
    ∀ (tau : ℕ) (r : CFloat), (cmndFrom tau r ys).length = ys.length := by
  induction ys with
  | nil => intro tau r; rfl
  | cons y ys ih => intro tau r; simp [cmndFrom, ih]


theorem CFloat.lt_num (a b : ℚ) : (CFloat.num a).lt (CFloat.num b) = true ↔ a < b := by
  simp [CFloat.lt]

/-- Both sides of a true comparison `<` are numbers or infinities; in particular a
value below a number is a number or -infinity. -/
theorem CFloat.lt_num_right (x : CFloat) (b : ℚ) (h : x.lt (CFloat.num b) = true) :
    x = CFloat.negInf ∨ ∃ a, x = CFloat.num a ∧ a < b := by
  cases x with
  | num a => exact Or.inr ⟨a, rfl, (CFloat.lt_num a b).mp h⟩
  | posInf => simp [CFloat.lt] at h
  | negInf => exact Or.inl rfl
  | nan => simp [CFloat.lt] at h

/-- The `while` loop of `absoluteThreshold`: it stops at a lag `r` at or after `tau`,
below `bufferSize` when `tau` is, having descended strictly from `tau` to `r`, and at
`r` the loop condition fails. -/
theorem descend_spec (self : YinPitchDetector) (n : Nat) :
    ∀ tau : Nat, self.bufferSize - tau = n →
      tau ≤ descend self tau ∧
      (tau < self.bufferSize → descend self tau < self.bufferSize) ∧
      (∀ k : Nat, tau ≤ k → k < descend self tau →
        (self.yinBuffer.getD (k + 1) CFloat.nan).lt (self.yinBuffer.getD k CFloat.nan)
          = true) ∧
      ¬ (descend self tau + 1 < self.bufferSize ∧
        (self.yinBuffer.getD (descend self tau + 1) CFloat.nan).lt
          (self.yinBuffer.getD (descend self tau) CFloat.nan) = true) := by
  induction n using Nat.strong_induction_on with
  | _ n ih =>
    intro tau hn
    rw [descend]
    split_ifs with hc
    · obtain ⟨h1, h2, h3, h4⟩ := ih (self.bufferSize - (tau + 1)) (by omega) (tau + 1) rfl
      refine ⟨by omega, fun _ => h2 hc.1, fun k hk hk' => ?_, h4⟩
      by_cases hkt : k = tau
      · rw [hkt]; exact hc.2
      · exact h3 k (by omega) hk'
    · exact ⟨le_refl _, fun h => h, fun k hk hk' => absurd hk' (by omega), hc⟩

/-- The `for` loop of `absoluteThreshold` from lag `tau0`: it returns -1 exactly when
no lag from `tau0` on is below the threshold, and otherwise the result of the descent
from the first such lag. -/
theorem absoluteThresholdFrom_spec (self : YinPitchDetector) (n : Nat) :
    ∀ tau0 : Nat, self.bufferSize - tau0 = n →
      ((∀ tau : Nat, tau0 ≤ tau → tau < self.bufferSize →
          (self.yinBuffer.getD tau CFloat.nan).lt (CFloat.num 0.03) = false) →
        absoluteThresholdFrom self tau0 = -1) ∧
      (∀ t : Nat, tau0 ≤ t → t < self.bufferSize →
        (self.yinBuffer.getD t CFloat.nan).lt (CFloat.num 0.03) = true →
        (∀ tau : Nat, tau0 ≤ tau → tau < t →
          (self.yinBuffer.getD tau CFloat.nan).lt (CFloat.num 0.03) = false) →
        absoluteThresholdFrom self tau0 = (descend self t : Int)) := by
  induction n using Nat.strong_induction_on with
  | _ n ih =>
    intro tau0 hn
    rw [absoluteThresholdFrom]
    split_ifs with h1 h2
    · refine ⟨fun hall => ?_, fun t ht htN hlt hfirst => ?_⟩
      · have := hall tau0 (le_refl _) h1
        rw [h2] at this; exact absurd this (by decide)
      · by_cases e : t = tau0
        · rw [e]
        · have := hfirst tau0 (le_refl _) (by omega)
          rw [h2] at this; exact absurd this (by decide)
    · obtain ⟨ihA, ihB⟩ := ih (self.bufferSize - (tau0 + 1)) (by omega) (tau0 + 1) rfl
      refine ⟨fun hall => ihA (fun tau ht htN => hall tau (by omega) htN),
        fun t ht htN hlt hfirst => ?_⟩
      have hne : t ≠ tau0 := by
        intro e; rw [e] at hlt; exact h2 hlt
      exact ihB t (by omega) htN hlt (fun tau ht' htt => hfirst tau (by omega) htt)
    · refine ⟨fun _ => rfl, fun t ht htN _ _ => absurd htN (by omega)⟩

/-- Claim C16: for every CMND buffer d' and buffer size N, `absoluteThreshold` returns
-1 iff no lag tau in [2,N) has d'(tau) < 0.03; otherwise, with t the smallest such lag,
it returns the one lag r with t <= r <= N-1 such that d' is strictly decreasing from t
to r and either r = N-1 or d'(r+1) < d'(r) fails (for numbers: d'(r+1) >= d'(r)). -/
theorem absoluteThreshold_spec (self : YinPitchDetector) :
    (absoluteThreshold self = -1 ↔
      ∀ tau : Nat, 2 ≤ tau → tau < self.bufferSize →
        (self.yinBuffer.getD tau CFloat.nan).lt (CFloat.num 0.03) = false) ∧
    (∀ t : Nat, 2 ≤ t → t < self.bufferSize →
      (self.yinBuffer.getD t CFloat.nan).lt (CFloat.num 0.03) = true →
      (∀ tau : Nat, 2 ≤ tau → tau < t →
        (self.yinBuffer.getD tau CFloat.nan).lt (CFloat.num 0.03) = false) →
      ∃ r : Nat, absoluteThreshold self = (r : Int) ∧ t ≤ r ∧ r ≤ self.bufferSize - 1 ∧
        (∀ k : Nat, t ≤ k → k < r →
          (self.yinBuffer.getD (k + 1) CFloat.nan).lt (self.yinBuffer.getD k CFloat.nan)
            = true) ∧
        (r = self.bufferSize - 1 ∨
          ((self.yinBuffer.getD (r + 1) CFloat.nan).lt (self.yinBuffer.getD r CFloat.nan)
              = false ∧
            ∀ a b : ℚ, self.yinBuffer.getD r CFloat.nan = CFloat.num a →
              self.yinBuffer.getD (r + 1) CFloat.nan = CFloat.num b → a ≤ b)) ∧
        (∀ r' : Nat, t ≤ r' → r' ≤ self.bufferSize - 1 →
          (∀ k : Nat, t ≤ k → k < r' →
            (self.yinBuffer.getD (k + 1) CFloat.nan).lt (self.yinBuffer.getD k CFloat.nan)
              = true) →
          (r' = self.bufferSize - 1 ∨
            (self.yinBuffer.getD (r' + 1) CFloat.nan).lt (self.yinBuffer.getD r' CFloat.nan)
              = false) →
          r' = r)) := by
  obtain ⟨hA, hB⟩ := absoluteThresholdFrom_spec self (self.bufferSize - 2) 2 rfl
  have hfound : ∀ t : Nat, 2 ≤ t → t < self.bufferSize →
      (self.yinBuffer.getD t CFloat.nan).lt (CFloat.num 0.03) = true →
      (∀ tau : Nat, 2 ≤ tau → tau < t →
        (self.yinBuffer.getD tau CFloat.nan).lt (CFloat.num 0.03) = false) →
      absoluteThreshold self = (descend self t : Int) := hB
  refine ⟨⟨fun hm => ?_, hA⟩, fun t ht htN hlt hfirst => ?_⟩
  · by_contra hex
    push_neg at hex
    have hex' : ∃ tau : Nat, 2 ≤ tau ∧ tau < self.bufferSize ∧
        (self.yinBuffer.getD tau CFloat.nan).lt (CFloat.num 0.03) = true := by
      obtain ⟨tau, h1, h2, h3⟩ := hex
      exact ⟨tau, h1, h2, by simpa using h3⟩
    classical
    have hmin := Nat.find_spec hex'
    have hlow : ∀ tau : Nat, 2 ≤ tau → tau < Nat.find hex' →
        (self.yinBuffer.getD tau CFloat.nan).lt (CFloat.num 0.03) = false := by
      intro tau h2 hlt
      have := Nat.find_min hex' hlt
      simp only [not_and] at this
      have h3 := this h2 (by omega)
      simpa using h3
    have := hfound (Nat.find hex') hmin.1 hmin.2.1 hmin.2.2 hlow
    rw [hm] at this
    omega
  · obtain ⟨h1, h2, h3, h4⟩ := descend_spec self (self.bufferSize - t) t rfl
    have hstop : descend self t = self.bufferSize - 1 ∨
        (self.yinBuffer.getD (descend self t + 1) CFloat.nan).lt
          (self.yinBuffer.getD (descend self t) CFloat.nan) = false := by
      by_cases hr : descend self t = self.bufferSize - 1
      · exact Or.inl hr
      · have hlt' : descend self t + 1 < self.bufferSize := by
          have := h2 htN; omega
        cases hb : (self.yinBuffer.getD (descend self t + 1) CFloat.nan).lt
            (self.yinBuffer.getD (descend self t) CFloat.nan) with
        | false => exact Or.inr rfl
        | true => exact absurd ⟨hlt', hb⟩ h4
    refine ⟨descend self t, hfound t ht htN hlt hfirst, h1, ?_, h3, ?_, ?_⟩
    · have := h2 htN; omega
    rotate_left
    · intro r' hr1 hr2 hchain hstop'
      have hrN := h2 htN
      rcases Nat.lt_trichotomy r' (descend self t) with hlt' | heq | hgt
      · have hk := h3 r' hr1 hlt'
        rcases hstop' with e | e
        · omega
        · rw [hk] at e; exact absurd e (by decide)
      · exact heq
      · have hk := hchain (descend self t) h1 hgt
        rcases hstop with e | e
        · omega
        · rw [hk] at e; exact absurd e (by decide)
    · by_cases hr : descend self t = self.bufferSize - 1
      · exact Or.inl hr
      · have hlt' : descend self t + 1 < self.bufferSize := by
          have := h2 htN; omega
        have hfalse : (self.yinBuffer.getD (descend self t + 1) CFloat.nan).lt
            (self.yinBuffer.getD (descend self t) CFloat.nan) = false := by
          cases hb : (self.yinBuffer.getD (descend self t + 1) CFloat.nan).lt
              (self.yinBuffer.getD (descend self t) CFloat.nan) with
          | false => rfl
          | true => exact absurd ⟨hlt', hb⟩ h4
        refine Or.inr ⟨hfalse, fun a b ha hb => ?_⟩
        rw [ha, hb] at hfalse
        by_contra hcon
        have : (CFloat.num b).lt (CFloat.num a) = true :=
          (CFloat.lt_num b a).mpr (not_le.mp hcon)
        rw [this] at hfalse
        exact absurd hfalse (by decide)

theorem CFloat.lt_nan_right (x : CFloat) : x.lt CFloat.nan = false := by
  cases x <;> rfl

theorem CFloat.nan_lt (x : CFloat) : CFloat.nan.lt x = false := by
  cases x <;> rfl

/-- When `absoluteThreshold` does not return -1 there is a first lag t in [2,N) below
the threshold and the result is the descent from t. -/
theorem absoluteThreshold_found (self : YinPitchDetector)
    (hne : absoluteThreshold self ≠ -1) :
    ∃ t : Nat, 2 ≤ t ∧ t < self.bufferSize ∧
      (self.yinBuffer.getD t CFloat.nan).lt (CFloat.num 0.03) = true ∧
      (∀ tau : Nat, 2 ≤ tau → tau < t →
        (self.yinBuffer.getD tau CFloat.nan).lt (CFloat.num 0.03) = false) ∧
      absoluteThreshold self = (descend self t : Int) := by
  obtain ⟨hA, hB⟩ := absoluteThresholdFrom_spec self (self.bufferSize - 2) 2 rfl
  have hex : ∃ tau : Nat, 2 ≤ tau ∧ tau < self.bufferSize ∧
      (self.yinBuffer.getD tau CFloat.nan).lt (CFloat.num 0.03) = true := by
    by_contra hcon
    push_neg at hcon
    apply hne
    apply hA
    intro tau h1 h2
    have := hcon tau h1 h2
    simpa using this
  classical
  have hmin := Nat.find_spec hex
  refine ⟨Nat.find hex, hmin.1, hmin.2.1, hmin.2.2, ?_, ?_⟩
  · intro tau h2 hlt
    have := Nat.find_min hex hlt
    simp only [not_and] at this
    have h3 := this h2 (by omega)
    simpa using h3
  · apply hB _ hmin.1 hmin.2.1 hmin.2.2
    intro tau h2 hlt
    have := Nat.find_min hex hlt
    simp only [not_and] at this
    have h3 := this h2 (by omega)
    simpa using h3

/-! ### Float range: overflow and underflow -/

theorem CFloat.ofRat_of_lt {q : ℚ} (h1 : underflowBound < |q|) (h2 : |q| < overflowBound) :
    CFloat.ofRat q = CFloat.num q := by
  have hq := abs_lt.mp h2
  unfold CFloat.ofRat
  rw [if_neg (not_le.mpr hq.2), if_neg (not_le.mpr hq.1), if_neg (not_le.mpr h1)]

theorem CFloat.ofRat_zero : CFloat.ofRat 0 = CFloat.num 0 := by
  norm_num [CFloat.ofRat, overflowBound, underflowBound]

/-- A value in the float range is delivered unchanged. -/
theorem CFloat.ofRat_inFloatRange {q : ℚ} (h : inFloatRange q) :
    CFloat.ofRat q = CFloat.num q := by
  rcases h with h | ⟨h1, h2⟩
  · rw [h, CFloat.ofRat_zero]
  · apply CFloat.ofRat_of_lt
    · have : underflowBound < FLT_MIN := by norm_num [underflowBound, FLT_MIN]
      linarith
    · have : FLT_MAX < overflowBound := by norm_num [overflowBound, FLT_MAX]
      linarith

/-- A number delivered by a float operation is the exact result or, on underflow, 0; it
is 0 or above the underflow bound in magnitude, and below the overflow bound. -/
theorem CFloat.ofRat_eq_num {q c : ℚ} (h : CFloat.ofRat q = CFloat.num c) :
    (c = q ∨ c = 0) ∧ (c = 0 ∨ underflowBound < |c|) ∧ |c| < overflowBound := by
  have hpos : (0 : ℚ) < overflowBound := by norm_num [overflowBound]
  unfold CFloat.ofRat at h
  split_ifs at h with h1 h2 h3
  · injection h with h; subst h
    exact ⟨Or.inr rfl, Or.inl rfl, by simpa using hpos⟩
  · injection h with h; subst h
    exact ⟨Or.inl rfl, Or.inr (not_le.mp h3), abs_lt.mpr ⟨by linarith [not_le.mp h2], not_le.mp h1⟩⟩

theorem CFloat.ofRat_nonneg {q : ℚ} (h : 0 ≤ q) : (CFloat.ofRat q).nonneg := by
  have hpos : (0 : ℚ) < overflowBound := by norm_num [overflowBound]
  unfold CFloat.ofRat
  split_ifs with h1 h2 h3
  · trivial
  · linarith
  · exact ⟨Or.inl rfl, hpos⟩
  · refine ⟨Or.inr ?_, not_le.mp h1⟩
    rw [abs_of_nonneg h] at h3
    exact not_le.mp h3

theorem CFloat.add_eq_num {a b : CFloat} {c : ℚ} (h : a.add b = CFloat.num c) :
    ∃ p q, a = CFloat.num p ∧ b = CFloat.num q ∧ CFloat.ofRat (p + q) = CFloat.num c := by
  cases a <;> cases b <;> simp [CFloat.add] at h
  exact ⟨_, _, rfl, rfl, h⟩

theorem CFloat.sub_eq_num {a b : CFloat} {c : ℚ} (h : a.sub b = CFloat.num c) :
    ∃ p q, a = CFloat.num p ∧ b = CFloat.num q ∧ CFloat.ofRat (p - q) = CFloat.num c := by
  cases a <;> cases b <;> simp [CFloat.sub, CFloat.neg, CFloat.add] at h
  exact ⟨_, _, rfl, rfl, by rw [sub_eq_add_neg]; exact h⟩

theorem CFloat.mul_eq_num {a b : CFloat} {c : ℚ} (h : a.mul b = CFloat.num c) :
    ∃ p q, a = CFloat.num p ∧ b = CFloat.num q ∧ CFloat.ofRat (p * q) = CFloat.num c := by
  cases a <;> cases b <;> simp [CFloat.mul, CFloat.infTimes] at h
  · exact ⟨_, _, rfl, rfl, h⟩
  all_goals (split_ifs at h)

theorem CFloat.div_eq_num {a b : CFloat} {c : ℚ} (h : a.div b = CFloat.num c) :
    ∃ p, a = CFloat.num p ∧
      ((∃ q, b = CFloat.num q ∧ q ≠ 0 ∧ CFloat.ofRat (p / q) = CFloat.num c) ∨
        ((b = CFloat.posInf ∨ b = CFloat.negInf) ∧ c = 0)) := by
  cases a <;> cases b <;> simp [CFloat.div] at h
  · rename_i p q
    split_ifs at h with h1 h2 h3
    exact ⟨p, rfl, Or.inl ⟨q, rfl, h1, h⟩⟩
  · exact ⟨_, rfl, Or.inr ⟨Or.inl rfl, h.symm⟩⟩
  · exact ⟨_, rfl, Or.inr ⟨Or.inr rfl, h.symm⟩⟩
  all_goals (split_ifs at h)

/-! ### Entries of the buffer are never negative -/

theorem CFloat.nonneg_add {a b : CFloat} (ha : a.nonneg) (hb : b.nonneg) :
    (a.add b).nonneg := by
  cases a <;> cases b <;> simp only [CFloat.nonneg, CFloat.add] at ha hb ⊢
  rename_i p q
  apply CFloat.ofRat_nonneg
  have hu : (0 : ℚ) < underflowBound := by norm_num [underflowBound]
  rcases ha.1 with h | h <;> rcases hb.1 with h' | h' <;> linarith

theorem CFloat.nonneg_mul {a b : CFloat} (ha : a.nonneg) (hb : b.nonneg) :
    (a.mul b).nonneg := by
  have hu : (0 : ℚ) < underflowBound := by norm_num [underflowBound]
  have key : ∀ q : ℚ, (q = 0 ∨ underflowBound < q) → 0 ≤ q := by
    intro q h; rcases h with h | h <;> linarith
  cases a <;> cases b <;> simp only [CFloat.nonneg, CFloat.mul, CFloat.infTimes] at ha hb ⊢
  · rename_i p q
    exact CFloat.ofRat_nonneg (mul_nonneg (key p ha.1) (key q hb.1))
  · rename_i p
    rcases ha.1 with h | h
    · rw [if_pos h]; trivial
    · rw [if_neg (by linarith), if_pos (by simp; linarith)]; trivial
  · rename_i p
    rcases hb.1 with h | h
    · rw [if_pos h]; trivial
    · rw [if_neg (by linarith), if_pos (by simp; linarith)]; trivial

theorem CFloat.nonneg_mul_self (a : CFloat) : (a.mul a).nonneg := by
  cases a <;> simp only [CFloat.nonneg, CFloat.mul]
  exact CFloat.ofRat_nonneg (mul_self_nonneg _)

/-- The quotient tau / runningSum of a lag and a running sum that is not negative. -/
theorem CFloat.nonneg_div {n : Int} {b : CFloat} (hn : 0 ≤ n) (hb : b.nonneg) :
    ((CFloat.ofInt n).div b).nonneg := by
  have hu : (0 : ℚ) < underflowBound := by norm_num [underflowBound]
  have ho : (0 : ℚ) < overflowBound := by norm_num [overflowBound]
  have hn' : (0 : ℚ) ≤ (n : ℚ) := by exact_mod_cast hn
  cases b <;> simp only [CFloat.nonneg, CFloat.div, CFloat.ofInt] at hb ⊢
  · rename_i q
    split_ifs with h1 h2 h3
    · trivial
    · trivial
    · exact absurd (lt_of_le_of_ne hn' (Ne.symm h2)) h3
    · apply CFloat.ofRat_nonneg
      rcases hb.1 with h | h
      · exact absurd h h1
      · exact div_nonneg hn' (by linarith)
  · exact ⟨Or.inl trivial, ho⟩

theorem differenceAt_nonneg (N : Nat) (x : List ℚ) (tau : Nat) :
    (differenceAt N x tau).nonneg := by
  have ho : (0 : ℚ) < overflowBound := by norm_num [overflowBound]
  unfold differenceAt
  generalize N - tau = n
  induction n with
  | zero => exact ⟨Or.inl rfl, ho⟩
  | succ n ih =>
    rw [List.range_succ, List.foldl_append]
    simp only [List.foldl_cons, List.foldl_nil]
    exact CFloat.nonneg_add ih (CFloat.nonneg_mul_self _)

theorem cmndFrom_nonneg (ys : List CFloat) :
    ∀ (tau : ℕ) (r : CFloat), r.nonneg → (∀ y ∈ ys, y.nonneg) →
      ∀ y ∈ cmndFrom tau r ys, y.nonneg := by
  induction ys with
  | nil => intro tau r _ _ y hy; simp [cmndFrom] at hy
  | cons z zs ih =>
    intro tau r hr hys y hy
    have hz : z.nonneg := hys z (List.mem_cons_self _ _)
    have hsum : (r.add z).nonneg := CFloat.nonneg_add hr hz
    rw [cmndFrom] at hy
    rcases List.mem_cons.mp hy with e | hmem
    · rw [e]
      exact CFloat.nonneg_mul hz (CFloat.nonneg_div (Int.natCast_nonneg tau) hsum)
    · exact ih (tau + 1) _ hsum (fun y hy => hys y (List.mem_cons_of_mem _ hy)) y hmem

/-- The buffer after `difference`, for a buffer size of at least 1: entry 0 is 0 and
the entries from lag 1 on are the accumulated sums. -/
theorem difference_yinBuffer (self : YinPitchDetector) (x : List ℚ) (n : Nat)
    (hn : self.bufferSize = n + 1) :
    (difference self x).yinBuffer =
      CFloat.num 0 :: (List.range' 1 n).map fun tau => differenceAt (n + 1) x tau := by
  unfold difference
  simp only [hn, List.range_eq_range', List.range'_succ, List.map_cons, if_true, zero_add]
  congr 1
  apply List.map_congr_left
  intro a ha
  have : 1 ≤ a := (List.mem_range'_1.mp ha).1
  rw [if_neg (by omega)]

/-- The buffer after `difference` and `cumulativeMeanNormalizedDifference`, for a
buffer size of at least 1. -/
theorem cmnd_yinBuffer (self : YinPitchDetector) (x : List ℚ) (n : Nat)
    (hn : self.bufferSize = n + 1) :
    (cumulativeMeanNormalizedDifference (difference self x)).yinBuffer =
      CFloat.num 1 :: cmndFrom 1 (CFloat.num 0)
        ((List.range' 1 n).map fun tau => differenceAt (n + 1) x tau) := by
  unfold cumulativeMeanNormalizedDifference
  simp only [difference_yinBuffer self x n hn]

theorem cmnd_length (self : YinPitchDetector) (x : List ℚ) :
    (cumulativeMeanNormalizedDifference (difference self x)).yinBuffer.length =
      self.bufferSize := by
  cases h : self.bufferSize with
  | zero =>
    unfold cumulativeMeanNormalizedDifference difference
    simp [h]
  | succ n => rw [cmnd_yinBuffer self x n h]; simp [cmndFrom_length]

theorem cmnd_entry_zero (self : YinPitchDetector) (x : List ℚ) (hN : 1 ≤ self.bufferSize) :
    (cumulativeMeanNormalizedDifference (difference self x)).yinBuffer.getD 0 CFloat.nan =
      CFloat.num 1 := by
  obtain ⟨n, hn⟩ : ∃ n, self.bufferSize = n + 1 := ⟨self.bufferSize - 1, by omega⟩
  rw [cmnd_yinBuffer self x n hn]
  rfl

/-- Every entry of the buffer after `difference` and
`cumulativeMeanNormalizedDifference` is NaN, +infinity or a number that is not
negative. -/
theorem cmnd_entry_nonneg (self : YinPitchDetector) (x : List ℚ) (tau : Nat) :
    ((cumulativeMeanNormalizedDifference (difference self x)).yinBuffer.getD tau
      CFloat.nan).nonneg := by
  have ho : (0 : ℚ) < overflowBound := by norm_num [overflowBound]
  have hu : (0 : ℚ) < underflowBound := by norm_num [underflowBound]
  by_cases hlt : tau < (cumulativeMeanNormalizedDifference (difference self x)).yinBuffer.length
  · rw [List.getD_eq_getElem _ _ hlt]
    have hmem := List.getElem_mem hlt
    rw [cmnd_length] at hlt
    obtain ⟨n, hn⟩ : ∃ n, self.bufferSize = n + 1 := ⟨self.bufferSize - 1, by omega⟩
    generalize (cumulativeMeanNormalizedDifference (difference self x)).yinBuffer[tau] = y
      at hmem ⊢
    rw [cmnd_yinBuffer self x n hn] at hmem
    rcases List.mem_cons.mp hmem with e | hmem
    · rw [e]
      refine ⟨Or.inr ?_, ?_⟩
      · norm_num [underflowBound]
      · norm_num [overflowBound]
    · refine cmndFrom_nonneg _ 1 _ (show (CFloat.num 0).nonneg from ⟨Or.inl rfl, ho⟩) ?_ y hmem
      intro z hz
      obtain ⟨a, _, rfl⟩ := List.mem_map.mp hz
      exact differenceAt_nonneg _ _ _
  · rw [List.getD_eq_default _ _ (by omega)]
    trivial

/-! ### The lag returned by `absoluteThreshold` and its neighbours -/

/-- The value stored at lag 1: d(1) * (1 / d(1)) is 1 whenever it is a number. -/
theorem CFloat.first_entry {y : CFloat} (hy : y.nonneg) {a : ℚ}
    (h : y.mul ((CFloat.ofInt 1).div ((CFloat.num 0).add y)) = CFloat.num a) : a = 1 := by
  have hu : (0 : ℚ) < underflowBound := by norm_num [underflowBound]
  have huo : underflowBound * overflowBound < 1 := by norm_num [underflowBound, overflowBound]
  obtain ⟨p, r, hp, hr, hpr⟩ := CFloat.mul_eq_num h
  subst hp
  obtain ⟨one, hone, hcase⟩ := CFloat.div_eq_num hr
  have h1 : one = 1 := by
    simp only [CFloat.ofInt] at hone
    injection hone with e
    rw [← e]; norm_num
  subst h1
  simp only [CFloat.nonneg] at hy
  rcases hcase with ⟨s, hs, hs0, hdiv⟩ | ⟨hinf, _⟩
  · simp only [CFloat.add, zero_add] at hs
    obtain ⟨hsp, _, _⟩ := CFloat.ofRat_eq_num hs
    rcases hsp with e | e
    · subst e
      have hspos : 0 < s := by
        rcases hy.1 with h0 | h0
        · exact absurd h0 hs0
        · linarith
      obtain ⟨hrq, _, _⟩ := CFloat.ofRat_eq_num hdiv
      rcases hrq with e | e
      · subst e
        have : s * (1 / s) = 1 := by field_simp
        rw [this] at hpr
        have h1 : CFloat.ofRat 1 = CFloat.num 1 :=
          CFloat.ofRat_of_lt (by norm_num [underflowBound]) (by norm_num [overflowBound])
        rw [h1] at hpr
        injection hpr with e
        exact e.symm
      · -- 1 / s does not underflow: s is below the overflow bound
        exfalso
        subst e
        unfold CFloat.ofRat at hdiv
        have hinv : underflowBound < 1 / s := by
          rw [lt_div_iff₀ hspos]
          nlinarith [hy.2]
        have hinvpos : 0 < 1 / s := by positivity
        split_ifs at hdiv with c1 c2 c3
        · rw [abs_of_pos hinvpos] at c3; linarith
        · injection hdiv with e
          linarith
    · exact absurd e hs0
  · simp only [CFloat.add, zero_add] at hinf
    have hn := @CFloat.ofRat_nonneg p (by
      rcases hy.1 with h0 | h0 <;> linarith)
    unfold CFloat.ofRat at hinf hn
    split_ifs at hinf hn with c1 c2 c3 <;> simp_all [CFloat.nonneg]
    all_goals (rcases hy.1 with h0 | h0 <;> linarith)

/-- The entry at lag 1 of the normalised buffer is 1 whenever it is a number. -/
theorem cmnd_entry_one (self : YinPitchDetector) (x : List ℚ) (a : ℚ)
    (h : (cumulativeMeanNormalizedDifference (difference self x)).yinBuffer.getD 1 CFloat.nan
      = CFloat.num a) : a = 1 := by
  by_cases hN : 2 ≤ self.bufferSize
  · obtain ⟨n, hn⟩ : ∃ n, self.bufferSize = n + 2 := ⟨self.bufferSize - 2, by omega⟩
    rw [cmnd_yinBuffer self x (n + 1) hn, List.range'_succ, List.map_cons, cmndFrom] at h
    simp only [List.getD_cons_succ, List.getD_cons_zero] at h
    exact CFloat.first_entry (differenceAt_nonneg _ _ _) h
  · have hlen := cmnd_length self x
    rw [List.getD_eq_default _ _ (by omega)] at h
    exact absurd h (by simp)

/-- A non-negative float on the left of a true comparison `<` is a number. -/
theorem CFloat.nonneg_lt_left {a b : CFloat} (ha : a.nonneg) (h : a.lt b = true) :
    ∃ p : ℚ, a = CFloat.num p ∧ 0 ≤ p := by
  have hu : (0 : ℚ) < underflowBound := by norm_num [underflowBound]
  cases a with
  | num p =>
    refine ⟨p, rfl, ?_⟩
    rcases ha.1 with h0 | h0 <;> linarith
  | posInf => cases b <;> simp [CFloat.lt] at h
  | negInf => exact absurd ha (by simp [CFloat.nonneg])
  | nan => simp [CFloat.lt] at h

/-- At the lag r returned by `absoluteThreshold` on a normalised buffer, r is in [2,N),
the entry at r is a number that is not negative, it is below the entry at r - 1 when
that is a number, and at most the entry at x2 (r + 1, or r at the end of the buffer)
when that is a number. -/
theorem estimate_neighbours (self : YinPitchDetector) (x : List ℚ)
    (hne : absoluteThreshold (cumulativeMeanNormalizedDifference (difference self x)) ≠ -1) :
    ∃ r : Nat,
      absoluteThreshold (cumulativeMeanNormalizedDifference (difference self x)) = (r : Int) ∧
      2 ≤ r ∧ r < self.bufferSize ∧
      ∃ a1 : ℚ,
        (cumulativeMeanNormalizedDifference (difference self x)).yinBuffer.getD r
          CFloat.nan = CFloat.num a1 ∧
        0 ≤ a1 ∧
        (∀ a0 : ℚ,
          (cumulativeMeanNormalizedDifference (difference self x)).yinBuffer.getD (r - 1)
            CFloat.nan = CFloat.num a0 → a1 < a0) ∧
        (∀ a2 : ℚ,
          (cumulativeMeanNormalizedDifference (difference self x)).yinBuffer.getD
            (if r + 1 < self.bufferSize then r + 1 else r) CFloat.nan = CFloat.num a2 →
          a1 ≤ a2) := by
  set Y := cumulativeMeanNormalizedDifference (difference self x) with hY
  have hYN : Y.bufferSize = self.bufferSize := rfl
  obtain ⟨t, ht2, htN, hthr, hfirst, hres⟩ := absoluteThreshold_found Y hne
  obtain ⟨hd1, hd2, hd3, hd4⟩ := descend_spec Y (Y.bufferSize - t) t rfl
  have hrN : descend Y t < self.bufferSize := hd2 htN
  rw [hYN] at htN
  -- the entry at t is a number below the threshold
  obtain ⟨at_, hat, hat0⟩ := CFloat.nonneg_lt_left (cmnd_entry_nonneg self x t) hthr
  have hat3 : at_ < 0.03 := by
    rw [hat] at hthr
    exact (CFloat.lt_num _ _).mp hthr
  -- the entry at r is a number
  have hr : ∃ a1 : ℚ, Y.yinBuffer.getD (descend Y t) CFloat.nan = CFloat.num a1 ∧ 0 ≤ a1 := by
    by_cases e : descend Y t = t
    · rw [e]; exact ⟨at_, hat, hat0⟩
    · have hk := hd3 (descend Y t - 1) (by omega) (by omega)
      have e1 : descend Y t - 1 + 1 = descend Y t := by omega
      rw [e1] at hk
      exact CFloat.nonneg_lt_left (cmnd_entry_nonneg self x _) hk
  obtain ⟨a1, ha1, ha10⟩ := hr
  refine ⟨descend Y t, hres, by omega, hrN, a1, ha1, ha10, fun a0 ha0 => ?_, fun a2 ha2 => ?_⟩
  · by_cases e : descend Y t = t
    · rw [e] at ha0 ha1
      rw [hat] at ha1
      injection ha1 with ha1
      subst ha1
      by_cases hk2 : 2 ≤ t - 1
      · have hf := hfirst (t - 1) hk2 (by omega)
        rw [ha0] at hf
        have hge : ¬ (a0 < 0.03) := by
          intro hlt
          rw [(CFloat.lt_num _ _).mpr hlt] at hf
          exact absurd hf (by decide)
        linarith [not_lt.mp hge]
      · have e1 : t - 1 = 1 := by omega
        rw [e1] at ha0
        have := cmnd_entry_one self x a0 ha0
        rw [this]
        norm_num at hat3
        linarith
    · have hk := hd3 (descend Y t - 1) (by omega) (by omega)
      have e1 : descend Y t - 1 + 1 = descend Y t := by omega
      rw [e1, ha1, ha0] at hk
      exact (CFloat.lt_num _ _).mp hk
  · split_ifs at ha2 with hnext
    · by_contra hcon
      apply hd4
      refine ⟨by rw [hYN]; exact hnext, ?_⟩
      rw [ha2, ha1, CFloat.lt_num]
      exact not_le.mp hcon
    · rw [ha1] at ha2
      injection ha2 with ha2
      exact le_of_eq ha2

/-- The interpolation formula on an entry s1 that is not negative, below s0 and at most
s2 wherever these are numbers: a result that is a number is at most the lag plus 1/2,
whatever overflows or underflows on the way. -/
theorem CFloat.interpolation_le (r : ℚ) (hr : 0 ≤ r) (s0 s2 : CFloat) (a1 : ℚ)
    (h1 : 0 ≤ a1) (h0 : ∀ a0 : ℚ, s0 = CFloat.num a0 → a1 < a0)
    (h2 : ∀ a2 : ℚ, s2 = CFloat.num a2 → a1 ≤ a2) (b : ℚ)
    (h : (CFloat.num r).add ((s2.sub s0).div ((CFloat.ofInt 2).mul
      ((((CFloat.ofInt 2).mul (CFloat.num a1)).sub s2).sub s0))) = CFloat.num b) :
    b ≤ r + 1 / 2 := by
  obtain ⟨r', o, hr', ho, hb⟩ := CFloat.add_eq_num h
  injection hr' with hr'
  subst hr'
  have hbo : b = r + o ∨ b = 0 := (CFloat.ofRat_eq_num hb).1
  suffices hle : o ≤ 1 / 2 by
    rcases hbo with e | e <;> rw [e] <;> linarith
  obtain ⟨Av, hA, hcase⟩ := CFloat.div_eq_num ho
  obtain ⟨a2, a0, hs2, hs0, hAv⟩ := CFloat.sub_eq_num hA
  have hlt0 := h0 a0 hs0
  have hle2 := h2 a2 hs2
  rcases hcase with ⟨Bv, hB, hBne, hq⟩ | ⟨_, e⟩
  · obtain ⟨two, Cv, htwo, hC, hBv⟩ := CFloat.mul_eq_num hB
    have h2' : two = 2 := by
      simp only [CFloat.ofInt] at htwo
      injection htwo with e
      rw [← e]; norm_num
    subst h2'
    obtain ⟨Dv, a0', hD, hs0', hCv⟩ := CFloat.sub_eq_num hC
    rw [hs0] at hs0'
    injection hs0' with hs0'
    subst hs0'
    obtain ⟨Mv, a2', hM, hs2', hDv⟩ := CFloat.sub_eq_num hD
    rw [hs2] at hs2'
    injection hs2' with hs2'
    subst hs2'
    have hMv : Mv = 2 * a1 ∨ Mv = 0 := by
      simp only [CFloat.ofInt, CFloat.mul] at hM
      have := (CFloat.ofRat_eq_num hM).1
      norm_num at this
      exact this
    have hDv' : Dv = Mv - a2 ∨ Dv = 0 := (CFloat.ofRat_eq_num hDv).1
    have hCv' : Cv = Dv - a0 ∨ Cv = 0 := (CFloat.ofRat_eq_num hCv).1
    have hBv' : Bv = 2 * Cv ∨ Bv = 0 := (CFloat.ofRat_eq_num hBv).1
    have hAv' : Av = a2 - a0 ∨ Av = 0 := (CFloat.ofRat_eq_num hAv).1
    have ho' : o = Av / Bv ∨ o = 0 := (CFloat.ofRat_eq_num hq).1
    have hMle : Mv ≤ 2 * a1 := by rcases hMv with e | e <;> linarith
    have hD1 : Dv ≤ a2 := by rcases hDv' with e | e <;> linarith
    have hD2 : Dv < a0 := by rcases hDv' with e | e <;> linarith
    have hBC : Bv = 2 * Cv := by
      rcases hBv' with e | e
      · exact e
      · exact absurd e hBne
    have hC0 : Cv ≠ 0 := by
      intro e; apply hBne; rw [hBC, e]; ring
    have hCD : Cv = Dv - a0 := by
      rcases hCv' with e | e
      · exact e
      · exact absurd e hC0
    have hBneg : Bv < 0 := by rw [hBC, hCD]; linarith
    have hAC : Cv ≤ Av := by
      rcases hAv' with e | e <;> (rw [e, hCD]; linarith)
    rcases ho' with e | e
    · rw [e, div_le_iff_of_neg hBneg, hBC]
      linarith
    · rw [e]; norm_num
  · rw [e]; norm_num

/-- The refined lag at the lag r returned by `absoluteThreshold` on a normalised
buffer: whenever it is a number it is at most r + 1/2, hence at most N - 1/2. -/
theorem refinedTau_le (self : YinPitchDetector) (x : List ℚ)
    (hne : absoluteThreshold (cumulativeMeanNormalizedDifference (difference self x)) ≠ -1)
    (b : ℚ)
    (h : parabolicInterpolation (cumulativeMeanNormalizedDifference (difference self x))
      (absoluteThreshold (cumulativeMeanNormalizedDifference (difference self x)))
        = CFloat.num b) :
    b ≤ (self.bufferSize : ℚ) - 1 / 2 := by
  obtain ⟨r, hres, hr2, hrN, a1, ha1, ha10, h0, h2⟩ := estimate_neighbours self x hne
  rw [hres] at h
  unfold parabolicInterpolation at h
  have hx0 : (if (r : Int) < 1 then (r : Int) else (r : Int) - 1) = ((r - 1 : ℕ) : Int) := by
    rw [if_neg (by omega)]; omega
  have hYN : (cumulativeMeanNormalizedDifference (difference self x)).bufferSize
      = self.bufferSize := rfl
  have hx2 : (if (r : Int) + 1 <
        ((cumulativeMeanNormalizedDifference (difference self x)).bufferSize : Int)
      then (r : Int) + 1 else (r : Int)) =
      ((if r + 1 < self.bufferSize then r + 1 else r : ℕ) : Int) := by
    rw [hYN]
    split_ifs with ha hb hb
    · push_cast; rfl
    · omega
    · omega
    · rfl
  simp only [hx0, hx2] at h
  rw [if_neg (by omega)] at h
  simp only [Int.toNat_ofNat, ha1] at h
  have hr0 : (0 : ℚ) ≤ ((r : Int) : ℚ) := by
    simp
  have hb := CFloat.interpolation_le ((r : Int) : ℚ) hr0 _ _ a1 ha10 h0 h2 b h
  have hrN' : ((r : Int) : ℚ) + 1 ≤ (self.bufferSize : ℚ) := by
    have : (r : ℚ) + 1 ≤ (self.bufferSize : ℚ) := by exact_mod_cast hrN
    simpa using this
  linarith

/-- The result of the part of `detectPitch` after the low-pass loop, whenever it is a
number: 0, or a value in [40,400] that for a positive sample rate is at least
sampleRate / (N - 1/2). -/
theorem estimatePitch_num (self : YinPitchDetector) (filteredBuffer : List ℚ) (p : ℚ)
    (h : (estimatePitch self filteredBuffer).1 = CFloat.num p) :
    p = 0 ∨ (40 ≤ p ∧ p ≤ 400 ∧
      (0 < self.sampleRate → self.sampleRate ≤ p * ((self.bufferSize : ℚ) - 1 / 2))) := by
  unfold estimatePitch at h
  simp only at h
  split_ifs at h with hne hclamp
  · left; injection h with h; rw [← h]; norm_num
  · right
    simp only [Bool.or_eq_true, not_or, Bool.not_eq_true] at hclamp
    obtain ⟨sr, hsr, hcase⟩ := CFloat.div_eq_num h
    injection hsr with hsr
    have hsr' : sr = self.sampleRate := hsr.symm
    rw [h] at hclamp
    have hp40 : 40 ≤ p := by
      have := hclamp.1
      simp only [CFloat.lt, decide_eq_false_iff_not, not_lt] at this
      norm_num at this
      exact this
    have hp400 : p ≤ 400 := by
      have := hclamp.2
      simp only [CFloat.lt, decide_eq_false_iff_not, not_lt] at this
      norm_num at this
      exact this
    refine ⟨hp40, hp400, fun hpos => ?_⟩
    rcases hcase with ⟨b, hb, hb0, hq⟩ | ⟨_, e⟩
    · have hle := refinedTau_le self filteredBuffer hne b hb
      have hpq : p = sr / b := by
        rcases (CFloat.ofRat_eq_num hq).1 with e | e
        · exact e
        · linarith
      rw [hsr'] at hpq
      have hbpos : 0 < b := by
        by_contra hcon
        have hbneg : b < 0 := lt_of_le_of_ne (not_lt.mp hcon) hb0
        have : self.sampleRate / b < 0 := div_neg_of_pos_of_neg hpos hbneg
        linarith
      have hsrb : self.sampleRate = p * b := by
        rw [hpq]; field_simp
      rw [hsrb]
      apply mul_le_mul_of_nonneg_left hle (by linarith)
    · linarith
  · left; injection h with h; rw [← h]; norm_num
  · left; injection h with h; rw [← h]; norm_num

/-- With at least `bufferSize` samples supplied `detectPitch` returns, and a result that
is a number is 0 or a value in [40,400] that for a positive sample rate is at least
sampleRate / (N - 1/2). -/
theorem detectPitch_num (self : YinPitchDetector) (buffer : List ℚ)
    (hlen : self.bufferSize ≤ buffer.length) :
    ∃ r self1, detectPitch self buffer = some (r, self1) ∧
      ∀ p : ℚ, r = CFloat.num p →
        p = 0 ∨ (40 ≤ p ∧ p ≤ 400 ∧
          (0 < self.sampleRate → self.sampleRate ≤ p * ((self.bufferSize : ℚ) - 1 / 2))) := by
  rw [detectPitch_in_bounds self buffer hlen]
  exact ⟨_, _, rfl, fun p hp => estimatePitch_num
    { self with prevSample := lowPassState self.prevSample (buffer.take self.bufferSize) }
    (lowPassRecurrence self.prevSample (buffer.take self.bufferSize)) p hp⟩

/-- Claim C10, the code in the failing configuration: after `prepareToPlay` at 44100 Hz
with a host block size of at most 1024 the detector analyses N = 1024 samples, and for
every filter state and every block of at least 1024 samples `detectPitch` returns and
its result, when it is a number, is 0 or at least 44100 / 1023.5 = 43.08 Hz, because
lags are searched below N only. So for no block, whatever signal it holds, is the
result within 1% of a frequency f in [40, 42.6] Hz, in particular not of 40 Hz and not
of 41.2 Hz, the open E string. -/
theorem detectPitch_misses_low_frequencies (samplesPerBlock : Int) (prevSample : ℚ)
    (block : List ℚ) (hspb : samplesPerBlock ≤ 1024) (hlen : 1024 ≤ block.length) :
    (DefaultAudioProcessor.prepareToPlay 44100 samplesPerBlock).bufferSize = 1024 ∧
    ∃ r self1,
      detectPitch
        { DefaultAudioProcessor.prepareToPlay 44100 samplesPerBlock with
          prevSample := prevSample } block = some (r, self1) ∧
      ∀ p : ℚ, r = CFloat.num p →
        (p = 0 ∨ 43.08 ≤ p) ∧
        ∀ f : ℚ, 40 ≤ f → f ≤ 42.6 → ¬ (|p - f| ≤ f / 100) := by
  have hN : (DefaultAudioProcessor.prepareToPlay 44100 samplesPerBlock).bufferSize = 1024 := by
    simp only [DefaultAudioProcessor.prepareToPlay, YinPitchDetector.create]
    omega
  refine ⟨hN, ?_⟩
  obtain ⟨r, self1, hret, hnum⟩ := detectPitch_num
    { DefaultAudioProcessor.prepareToPlay 44100 samplesPerBlock with prevSample := prevSample }
    block (by
      show (DefaultAudioProcessor.prepareToPlay 44100 samplesPerBlock).bufferSize ≤ block.length
      rw [hN]; exact hlen)
  refine ⟨r, self1, hret, fun p hp => ?_⟩
  have hp' : p = 0 ∨ 43.08 ≤ p := by
    rcases hnum p hp with h | ⟨h40, _, hb⟩
    · exact Or.inl h
    · right
      have hb' : (0 : ℚ) < 44100 → (44100 : ℚ) ≤
          p * (((DefaultAudioProcessor.prepareToPlay 44100 samplesPerBlock).bufferSize : ℚ)
            - 1 / 2) := hb
      rw [hN] at hb'
      have := hb' (by norm_num)
      norm_num at this ⊢
      linarith
  refine ⟨hp', fun f hf1 hf2 habs => ?_⟩
  rw [abs_le] at habs
  norm_num at hf2
  rcases hp' with e | e
  · rw [e] at habs; linarith [habs.1]
  · norm_num at e
    linarith [habs.2]

/-- Witness of `detectPitch_misses_low_frequencies`: host block size 1024, zero filter
state and a block of 1024 zero samples. -/
theorem detectPitch_misses_low_frequencies_witness :
    (DefaultAudioProcessor.prepareToPlay 44100 1024).bufferSize = 1024 ∧
    ∃ r self1,
      detectPitch
        { DefaultAudioProcessor.prepareToPlay 44100 1024 with prevSample := 0 }
        (List.replicate 1024 0) = some (r, self1) ∧
      ∀ p : ℚ, r = CFloat.num p →
        (p = 0 ∨ 43.08 ≤ p) ∧
        ∀ f : ℚ, 40 ≤ f → f ≤ 42.6 → ¬ (|p - f| ≤ f / 100) :=
  detectPitch_misses_low_frequencies 1024 0 (List.replicate 1024 0) (by decide)
    (by rw [List.length_replicate])

/-! ### The stored values when nothing overflows or underflows -/

theorem CFloat.add_inFloatRange {a b : ℚ} (h : inFloatRange (a + b)) :
    (CFloat.num a).add (CFloat.num b) = CFloat.num (a + b) :=
  CFloat.ofRat_inFloatRange h

theorem CFloat.sub_inFloatRange {a b : ℚ} (h : inFloatRange (a - b)) :
    (CFloat.num a).sub (CFloat.num b) = CFloat.num (a - b) := by
  simp only [CFloat.sub, CFloat.neg, CFloat.add, ← sub_eq_add_neg]
  exact CFloat.ofRat_inFloatRange h

theorem CFloat.mul_inFloatRange {a b : ℚ} (h : inFloatRange (a * b)) :
    (CFloat.num a).mul (CFloat.num b) = CFloat.num (a * b) :=
  CFloat.ofRat_inFloatRange h

theorem CFloat.div_inFloatRange {a b : ℚ} (hb : b ≠ 0) (h : inFloatRange (a / b)) :
    (CFloat.num a).div (CFloat.num b) = CFloat.num (a / b) := by
  simp only [CFloat.div, if_neg hb]
  exact CFloat.ofRat_inFloatRange h

theorem inFloatRange_of_pos {q : ℚ} (h1 : 1 / 2 ^ 126 ≤ q) (h2 : q ≤ (2 ^ 24 - 1) * 2 ^ 104) :
    inFloatRange q := by
  have h0 : 0 ≤ q := le_trans (by norm_num) h1
  right
  rw [abs_of_nonneg h0]
  exact ⟨h1, h2⟩

theorem inFloatRange_of_neg {q : ℚ} (h1 : q ≤ -(1 / 2 ^ 126))
    (h2 : -((2 ^ 24 - 1) * 2 ^ 104) ≤ q) : inFloatRange q := by
  have h0 : q ≤ 0 := le_trans h1 (by norm_num)
  right
  rw [abs_of_nonpos h0]
  exact ⟨by unfold FLT_MIN; linarith, by unfold FLT_MAX; linarith⟩

/-- A sum of non-negative terms, each in the float range, that stays at most FLT_MAX is
in the float range. -/
theorem inFloatRange_of_nonneg_sum {p t : ℚ} (hp : inFloatRange p) (hp0 : 0 ≤ p)
    (ht : inFloatRange t) (ht0 : 0 ≤ t) (hle : p + t ≤ FLT_MAX) : inFloatRange (p + t) := by
  by_cases h0 : p + t = 0
  · exact Or.inl h0
  · right
    rw [abs_of_nonneg (by linarith)]
    refine ⟨?_, hle⟩
    rcases hp with e | ⟨h1, _⟩
    · rcases ht with e' | ⟨h1', _⟩
      · exact absurd (by rw [e, e']; ring) h0
      · rw [abs_of_nonneg ht0] at h1'; linarith
    · rw [abs_of_nonneg hp0] at h1; linarith

/-- Without overflow or underflow the accumulation loop of `difference` stores the
specification's sum d(tau). -/
theorem differenceAt_inRange (N : Nat) (x : List ℚ) (tau : Nat)
    (h : differenceInRange N x tau) :
    differenceAt N x tau = CFloat.num (dSpec N x tau) ∧ inFloatRange (dSpec N x tau) := by
  obtain ⟨hterm, hmax⟩ := h
  have key : ∀ n : Nat, n ≤ N - tau →
      (List.range n).foldl
        (fun acc i =>
          acc.add (((CFloat.ofRat (x.getD i 0)).sub (CFloat.ofRat (x.getD (i + tau) 0))).mul
            ((CFloat.ofRat (x.getD i 0)).sub (CFloat.ofRat (x.getD (i + tau) 0)))))
        (CFloat.num 0) =
        CFloat.num (∑ i in Finset.range n, (x.getD i 0 - x.getD (i + tau) 0) ^ 2) ∧
      inFloatRange (∑ i in Finset.range n, (x.getD i 0 - x.getD (i + tau) 0) ^ 2) := by
    intro n
    induction n with
    | zero => intro _; exact ⟨by simp, Or.inl (by simp)⟩
    | succ n ih =>
      intro hn
      obtain ⟨ih1, ih2⟩ := ih (by omega)
      obtain ⟨hx1, hx2, hdelta, hsq⟩ := hterm n (by omega)
      have hle : ∑ i in Finset.range (n + 1), (x.getD i 0 - x.getD (i + tau) 0) ^ 2
          ≤ FLT_MAX := by
        refine le_trans ?_ hmax
        unfold dSpec
        apply Finset.sum_le_sum_of_subset_of_nonneg
        · intro i hi
          rw [Finset.mem_range] at hi ⊢
          omega
        · intro i _ _
          exact sq_nonneg _
      rw [Finset.sum_range_succ] at hle ⊢
      have hsum := inFloatRange_of_nonneg_sum ih2
        (Finset.sum_nonneg (fun i _ => sq_nonneg _)) hsq (sq_nonneg _) hle
      refine ⟨?_, hsum⟩
      rw [List.range_succ, List.foldl_append, ih1]
      simp only [List.foldl_cons, List.foldl_nil]
      rw [CFloat.ofRat_inFloatRange hx1, CFloat.ofRat_inFloatRange hx2,
        CFloat.sub_inFloatRange hdelta, CFloat.mul_inFloatRange (by rw [← sq]; exact hsq),
        ← sq, CFloat.add_inFloatRange hsum]
  exact key (N - tau) (le_refl _)

theorem sum_Ico_one_eq_runningSumSpec (N : Nat) (x : List ℚ) (tau : Nat) :
    ∑ j in Finset.Ico 1 (tau + 1), dSpec N x j = runningSumSpec N x tau := by
  unfold runningSumSpec
  congr 1

/-- Without overflow or underflow in `difference` up to lag tau, a running sum that
stays at most FLT_MAX is in the float range. -/
theorem runningSumSpec_inFloatRange (N : Nat) (x : List ℚ) (tau : Nat)
    (hd : ∀ j : Nat, 1 ≤ j → j ≤ tau → differenceInRange N x j)
    (hmax : runningSumSpec N x tau ≤ FLT_MAX) :
    inFloatRange (runningSumSpec N x tau) := by
  induction tau with
  | zero => rw [runningSumSpec_zero]; exact Or.inl rfl
  | succ k ih =>
    rw [runningSumSpec_succ] at hmax ⊢
    have hdk := dSpec_nonneg N x (k + 1)
    have hSk := runningSumSpec_nonneg N x k
    exact inFloatRange_of_nonneg_sum
      (ih (fun j h1 h2 => hd j h1 (by omega)) (by linarith)) hSk
      (differenceAt_inRange N x (k + 1) (hd (k + 1) (by omega) (le_refl _))).2 hdk hmax

theorem runningSumSpec_mono (N : Nat) (x : List ℚ) (j tau : Nat) (h : j ≤ tau) :
    runningSumSpec N x j ≤ runningSumSpec N x tau := by
  induction tau with
  | zero =>
    have : j = 0 := by omega
    rw [this]
  | succ k ih =>
    by_cases e : j = k + 1
    · rw [e]
    · rw [runningSumSpec_succ]
      linarith [ih (by omega), dSpec_nonneg N x (k + 1)]

/-- The normalisation loop started at lag `tau0` with running sum `r`, on a buffer
whose entries up to index `k` are the numbers `f tau0, f (tau0 + 1), ...` and whose
running sums up to there are in the float range: entry `k` of its output. -/
theorem cmndFrom_getD (f : ℕ → ℚ) (ys : List CFloat) :
    ∀ (tau0 : ℕ) (r : ℚ) (k : ℕ), k < ys.length →
      (∀ j : ℕ, j ≤ k → ys.getD j CFloat.nan = CFloat.num (f (tau0 + j))) →
      (∀ j : ℕ, j ≤ k → inFloatRange (r + ∑ i in Finset.Ico tau0 (tau0 + j + 1), f i)) →
      (cmndFrom tau0 (CFloat.num r) ys).getD k CFloat.nan =
        (CFloat.num (f (tau0 + k))).mul
          ((CFloat.ofInt ((tau0 + k : ℕ) : Int)).div
            (CFloat.num (r + ∑ i in Finset.Ico tau0 (tau0 + k + 1), f i))) := by
  induction ys with
  | nil => intro tau0 r k hk; exact absurd hk (Nat.not_lt_zero k)
  | cons y ys ih =>
    intro tau0 r k hk hys hsum
    have hy : y = CFloat.num (f tau0) := by
      have := hys 0 (Nat.zero_le k)
      simpa using this
    have hr0 : inFloatRange (r + f tau0) := by
      have := hsum 0 (Nat.zero_le k)
      simpa using this
    rw [cmndFrom, hy, CFloat.add_inFloatRange hr0]
    cases k with
    | zero => simp
    | succ k =>
      rw [List.getD_cons_succ, ih (tau0 + 1) (r + f tau0) k (by simpa using hk)]
      · have e1 : tau0 + 1 + k = tau0 + (k + 1) := by omega
        rw [e1, Finset.sum_eq_sum_Ico_succ_bot (by omega : tau0 < tau0 + (k + 1) + 1),
          add_assoc]
      · intro j hj
        have := hys (j + 1) (by omega)
        rw [List.getD_cons_succ] at this
        rw [this]
        congr 2
        omega
      · intro j hj
        have := hsum (j + 1) (by omega)
        have e1 : tau0 + 1 + j = tau0 + (j + 1) := by omega
        rw [e1, add_assoc, ← Finset.sum_eq_sum_Ico_succ_bot
          (by omega : tau0 < tau0 + (j + 1) + 1)]
        exact this

/-- Entry `tau` of the buffer after `difference` and
`cumulativeMeanNormalizedDifference` when no accumulation up to lag `tau` overflows or
underflows, before the division and the multiplication of line 92. -/
theorem cmnd_entry (self : YinPitchDetector) (x : List ℚ) (tau : Nat)
    (h1 : 1 ≤ tau) (h2 : tau < self.bufferSize)
    (hd : ∀ j : Nat, 1 ≤ j → j ≤ tau → differenceInRange self.bufferSize x j)
    (hmax : runningSumSpec self.bufferSize x tau ≤ FLT_MAX) :
    (cumulativeMeanNormalizedDifference (difference self x)).yinBuffer.getD tau CFloat.nan =
      (CFloat.num (dSpec self.bufferSize x tau)).mul
        ((CFloat.ofInt (tau : Int)).div
          (CFloat.num (runningSumSpec self.bufferSize x tau))) := by
  obtain ⟨n, hn⟩ : ∃ n, self.bufferSize = n + 1 := ⟨self.bufferSize - 1, by omega⟩
  obtain ⟨k, hk⟩ : ∃ k, tau = k + 1 := ⟨tau - 1, by omega⟩
  subst hk
  rw [cmnd_yinBuffer self x n hn, List.getD_cons_succ]
  rw [hn] at hd hmax h2
  rw [hn, cmndFrom_getD (fun j => dSpec (n + 1) x j) _ 1 0 k (by simp; omega)]
  · have e : 1 + k = k + 1 := by omega
    rw [e, zero_add, sum_Ico_one_eq_runningSumSpec]
  · intro j hj
    have hlt : j < ((List.range' 1 n).map fun tau => differenceAt (n + 1) x tau).length := by
      simp; omega
    rw [List.getD_eq_getElem _ _ hlt]
    simp only [List.getElem_map, List.getElem_range']
    have e : 1 + 1 * j = 1 + j := by omega
    rw [e]
    exact (differenceAt_inRange (n + 1) x (1 + j) (hd (1 + j) (by omega) (by omega))).1
  · intro j hj
    have e : 1 + j + 1 = (j + 1) + 1 := by omega
    rw [zero_add, e, sum_Ico_one_eq_runningSumSpec]
    apply runningSumSpec_inFloatRange
    · intro i hi1 hi2
      exact hd i hi1 (by omega)
    · exact le_trans (runningSumSpec_mono (n + 1) x (j + 1) (k + 1) (by omega)) hmax

/-! ### A block on which the squared differences overflow -/

/-- The interpolation branch of `parabolicInterpolation`, taken at every lag of at
least 1. -/
theorem parabolicInterpolation_eq (self : YinPitchDetector) (r : Nat) (hr : 1 ≤ r) :
    parabolicInterpolation self (r : Int) =
      (CFloat.ofInt (r : Int)).add
        (((self.yinBuffer.getD (if r + 1 < self.bufferSize then r + 1 else r) CFloat.nan).sub
            (self.yinBuffer.getD (r - 1) CFloat.nan)).div
          ((CFloat.ofInt 2).mul
            ((((CFloat.ofInt 2).mul (self.yinBuffer.getD r CFloat.nan)).sub
              (self.yinBuffer.getD (if r + 1 < self.bufferSize then r + 1 else r) CFloat.nan)).sub
              (self.yinBuffer.getD (r - 1) CFloat.nan)))) := by
  unfold parabolicInterpolation
  have hx0 : (if (r : Int) < 1 then (r : Int) else (r : Int) - 1) = ((r - 1 : ℕ) : Int) := by
    rw [if_neg (by omega)]; omega
  have hx2 : (if (r : Int) + 1 < (self.bufferSize : Int) then (r : Int) + 1 else (r : Int)) =
      ((if r + 1 < self.bufferSize then r + 1 else r : ℕ) : Int) := by
    split_ifs with ha hb hb
    · push_cast; rfl
    · omega
    · omega
    · rfl
  simp only [hx0, hx2]
  rw [if_neg (by omega)]
  simp only [Int.toNat_ofNat]

/-- A normalised buffer [1, NaN, 0, NaN] of size 4: `absoluteThreshold` returns the lag
2, whose two neighbours are NaN, and the refined lag is NaN. -/
theorem nan_neighbours_estimate (Y : YinPitchDetector) (hN : Y.bufferSize = 4)
    (hbuf : Y.yinBuffer = [CFloat.num 1, CFloat.nan, CFloat.num 0, CFloat.nan]) :
    absoluteThreshold Y = 2 ∧ parabolicInterpolation Y 2 = CFloat.nan := by
  constructor
  · unfold absoluteThreshold
    rw [absoluteThresholdFrom]
    simp only [hN, hbuf]
    norm_num [CFloat.lt]
    rw [descend]
    simp only [hN, hbuf]
    norm_num [CFloat.lt]
  · have h := parabolicInterpolation_eq Y 2 (by decide)
    simp only [hN, hbuf] at h
    norm_num [CFloat.sub, CFloat.neg, CFloat.add, CFloat.mul, CFloat.div, CFloat.ofInt] at h
    exact h

/-- The low-pass recurrence from zero state on the block [2^68, -2^69, 2^69, -2^69]. -/
theorem overflow_block_filtered :
    lowPassRecurrence 0 [2 ^ 68, -2 ^ 69, 2 ^ 69, -2 ^ 69] =
      [2 ^ 68 * (1 / 20), 2 ^ 68 * (-21 / 400), 2 ^ 68 * (401 / 8000),
        2 ^ 68 * (-8381 / 160000)] := by
  norm_num [lowPassRecurrence]

/-- On the filtered samples of the block [2^68, -2^69, 2^69, -2^69] with N = 4 every
squared difference at the lags 1 and 3 exceeds the float range, so d(1) and d(3) are
+infinity, the running sum is +infinity from lag 1 on, tau / runningSum is 0, and the
buffer after `difference` and `cumulativeMeanNormalizedDifference` is
[1, inf * 0, d(2) * 0, inf * 0] = [1, NaN, 0, NaN]. -/
theorem overflow_block_yinBuffer (self : YinPitchDetector) (hN : self.bufferSize = 4) :
    (cumulativeMeanNormalizedDifference
      (difference self (lowPassRecurrence 0 [2 ^ 68, -2 ^ 69, 2 ^ 69, -2 ^ 69]))).yinBuffer =
      [CFloat.num 1, CFloat.nan, CFloat.num 0, CFloat.nan] := by
  rw [overflow_block_filtered, cmnd_yinBuffer _ _ 3 hN]
  have h1 : differenceAt 4 [2 ^ 68 * (1 / 20), 2 ^ 68 * (-21 / 400), 2 ^ 68 * (401 / 8000),
        2 ^ 68 * (-8381 / 160000)] 1 = CFloat.posInf := by
    norm_num [differenceAt, List.range_succ, CFloat.ofRat, CFloat.sub, CFloat.neg, CFloat.add,
      CFloat.mul, overflowBound, underflowBound, abs_div]
  have h2 : differenceAt 4 [2 ^ 68 * (1 / 20), 2 ^ 68 * (-21 / 400),
        2 ^ 68 * (401 / 8000), 2 ^ 68 * (-8381 / 160000)] 2 =
      CFloat.num (2 ^ 136 * 761 / 160000 ^ 2) := by
    norm_num [differenceAt, List.range_succ, CFloat.ofRat, CFloat.sub, CFloat.neg, CFloat.add,
      CFloat.mul, overflowBound, underflowBound, abs_div]
  have h3 : differenceAt 4 [2 ^ 68 * (1 / 20), 2 ^ 68 * (-21 / 400), 2 ^ 68 * (401 / 8000),
        2 ^ 68 * (-8381 / 160000)] 3 = CFloat.posInf := by
    norm_num [differenceAt, List.range_succ, CFloat.ofRat, CFloat.sub, CFloat.neg, CFloat.add,
      CFloat.mul, overflowBound, underflowBound, abs_div]
  simp only [List.range'_succ, List.range'_zero, List.map_cons, List.map_nil, h1, h2, h3,
    cmndFrom]
  norm_num [CFloat.add, CFloat.mul, CFloat.div, CFloat.ofInt, CFloat.infTimes, CFloat.ofRat,
    overflowBound, underflowBound]

/-- The specification's d(1) on the filtered samples of the block
[2^68, -2^69, 2^69, -2^69] is positive. -/
theorem overflow_block_dSpec :
    0 < dSpec 4 (lowPassRecurrence 0 [2 ^ 68, -2 ^ 69, 2 ^ 69, -2 ^ 69]) 1 := by
  rw [overflow_block_filtered]
  norm_num [dSpec, Finset.sum_range_succ]

/-- Claim C17 as stated fails on the code: on the filtered samples of the block
[2^68, -2^69, 2^69, -2^69] with N = 4 the running sum at lag 1 is d(1) > 0, not zero, and
the claimed value d(1) * 1 / d(1) is 1, but the squared differences overflow to
+infinity, so the running sum is +infinity, 1 / runningSum is 0, and the entry stored
at lag 1 is inf * 0 = NaN. -/
theorem cmnd_formula_counterexample :
    runningSumSpec 4 (lowPassRecurrence 0 [2 ^ 68, -2 ^ 69, 2 ^ 69, -2 ^ 69]) 1 ≠ 0 ∧
    dSpec 4 (lowPassRecurrence 0 [2 ^ 68, -2 ^ 69, 2 ^ 69, -2 ^ 69]) 1 * ((1 : ℕ) : ℚ) /
      runningSumSpec 4 (lowPassRecurrence 0 [2 ^ 68, -2 ^ 69, 2 ^ 69, -2 ^ 69]) 1 = 1 ∧
    (cumulativeMeanNormalizedDifference
      (difference (YinPitchDetector.create 200 4)
        (lowPassRecurrence 0 [2 ^ 68, -2 ^ 69, 2 ^ 69, -2 ^ 69]))).yinBuffer.getD 1
        CFloat.nan = CFloat.nan := by
  have hd := overflow_block_dSpec
  have hS : runningSumSpec 4 (lowPassRecurrence 0 [2 ^ 68, -2 ^ 69, 2 ^ 69, -2 ^ 69]) 1 =
      dSpec 4 (lowPassRecurrence 0 [2 ^ 68, -2 ^ 69, 2 ^ 69, -2 ^ 69]) 1 := by
    rw [runningSumSpec_succ, runningSumSpec_zero, zero_add]
  refine ⟨by rw [hS]; exact ne_of_gt hd, ?_, ?_⟩
  · rw [hS, Nat.cast_one, mul_one, div_self (ne_of_gt hd)]
  · rw [overflow_block_yinBuffer _ rfl]
    rfl

/-- Claim C17, amended: for every filtered block x and buffer size N of at least 1,
after `difference` and `cumulativeMeanNormalizedDifference` the buffer has N entries and
holds d'(0) = 1; and for every lag tau in [1,N) up to which no float operation
overflows or underflows (the samples, differences, squares and sums d(1) .. d(tau) of
`difference` and the running sum d(1) + ... + d(tau) are in the float range), the entry
is NaN where the running sum is zero, and where it is not zero and tau / runningSum and
d(tau) * (tau / runningSum) are in the float range as well,
d'(tau) = d(tau) * tau / (d(1) + ... + d(tau)), where d(tau) is the sum over
i = 0 .. N-tau-1 of (x[i] - x[i+tau])^2. -/
theorem cmnd_formula (self : YinPitchDetector) (x : List ℚ) (hN : 1 ≤ self.bufferSize) :
    (cumulativeMeanNormalizedDifference (difference self x)).yinBuffer.length =
      self.bufferSize ∧
    (cumulativeMeanNormalizedDifference (difference self x)).yinBuffer.getD 0 CFloat.nan =
      CFloat.num 1 ∧
    (∀ tau : Nat, 1 ≤ tau → tau < self.bufferSize →
      (∀ j : Nat, 1 ≤ j → j ≤ tau → differenceInRange self.bufferSize x j) →
      runningSumSpec self.bufferSize x tau ≤ FLT_MAX →
      runningSumSpec self.bufferSize x tau ≠ 0 →
      inFloatRange ((tau : ℚ) / runningSumSpec self.bufferSize x tau) →
      inFloatRange (dSpec self.bufferSize x tau *
        ((tau : ℚ) / runningSumSpec self.bufferSize x tau)) →
      (cumulativeMeanNormalizedDifference (difference self x)).yinBuffer.getD tau CFloat.nan =
        CFloat.num (dSpec self.bufferSize x tau * (tau : ℚ) /
          runningSumSpec self.bufferSize x tau)) ∧
    (∀ tau : Nat, 1 ≤ tau → tau < self.bufferSize →
      (∀ j : Nat, 1 ≤ j → j ≤ tau → differenceInRange self.bufferSize x j) →
      runningSumSpec self.bufferSize x tau = 0 →
      (cumulativeMeanNormalizedDifference (difference self x)).yinBuffer.getD tau CFloat.nan =
        CFloat.nan) := by
  refine ⟨cmnd_length self x, cmnd_entry_zero self x hN, ?_, ?_⟩
  · intro tau h1 h2 hd hmax hS hq hp
    rw [cmnd_entry self x tau h1 h2 hd hmax]
    have hcast : (((tau : ℕ) : Int) : ℚ) = (tau : ℚ) := by push_cast; rfl
    simp only [CFloat.ofInt, hcast]
    rw [CFloat.div_inFloatRange hS hq, CFloat.mul_inFloatRange hp, mul_div_assoc]
  · intro tau h1 h2 hd hS
    have hmax : runningSumSpec self.bufferSize x tau ≤ FLT_MAX := by
      rw [hS]; norm_num [FLT_MAX]
    rw [cmnd_entry self x tau h1 h2 hd hmax]
    obtain ⟨k, hk⟩ : ∃ k, tau = k + 1 := ⟨tau - 1, by omega⟩
    have hd0 : dSpec self.bufferSize x tau = 0 := by
      have hsucc := runningSumSpec_succ self.bufferSize x k
      rw [← hk, hS] at hsucc
      linarith [runningSumSpec_nonneg self.bufferSize x k, dSpec_nonneg self.bufferSize x tau]
    have hpos : (0 : ℚ) < ((tau : Int) : ℚ) := by
      have : (0 : ℚ) < (tau : ℚ) := by exact_mod_cast h1
      simpa using this
    have hne : ((tau : Int) : ℚ) ≠ 0 := ne_of_gt hpos
    simp only [CFloat.ofInt, CFloat.div, hS, hd0, if_true, if_neg hne, if_pos hpos, CFloat.mul,
      CFloat.infTimes]

/-- Witness of `cmnd_formula`: the block [0, 1, 0, 1] with N = 4 at lag 2, where
d(1) = 3, d(2) = 0, every value is in the float range and d'(2) = 0 * 2 / 3 = 0. -/
theorem cmnd_formula_witness :
    dSpec 4 [0, 1, 0, 1] 1 = 3 ∧ dSpec 4 [0, 1, 0, 1] 2 = 0 ∧
    (cumulativeMeanNormalizedDifference
      (difference (YinPitchDetector.create 44100 4) [0, 1, 0, 1])).yinBuffer.getD 2 CFloat.nan =
      CFloat.num 0 := by
  have hd1 : dSpec 4 [0, 1, 0, 1] 1 = 3 := by
    simp [dSpec, Finset.sum_range_succ]; norm_num
  have hd2 : dSpec 4 [0, 1, 0, 1] 2 = 0 := by
    simp [dSpec, Finset.sum_range_succ]
  have hS : runningSumSpec 4 [0, 1, 0, 1] 2 = 3 := by
    rw [runningSumSpec_succ, runningSumSpec_succ, runningSumSpec_zero, hd1, hd2]; norm_num
  have hrange : ∀ j : Nat, 1 ≤ j → j ≤ 2 → differenceInRange 4 [0, 1, 0, 1] j := by
    intro j h1 h2
    interval_cases j
    · refine ⟨fun i hi => ?_, by rw [hd1]; norm_num [FLT_MAX]⟩
      interval_cases i <;> norm_num [inFloatRange, FLT_MIN, FLT_MAX]
    · refine ⟨fun i hi => ?_, by rw [hd2]; norm_num [FLT_MAX]⟩
      interval_cases i <;> norm_num [inFloatRange, FLT_MIN, FLT_MAX]
  have h := (cmnd_formula (YinPitchDetector.create 44100 4) [0, 1, 0, 1] (by decide)).2.2.1 2
    (by decide) (by decide) hrange
    (by
      show runningSumSpec 4 [0, 1, 0, 1] 2 ≤ FLT_MAX
      rw [hS]; norm_num [FLT_MAX])
    (by
      show runningSumSpec 4 [0, 1, 0, 1] 2 ≠ 0
      rw [hS]; norm_num)
    (by
      show inFloatRange (((2 : ℕ) : ℚ) / runningSumSpec 4 [0, 1, 0, 1] 2)
      rw [hS]; exact inFloatRange_of_pos (by norm_num) (by norm_num))
    (by
      show inFloatRange (dSpec 4 [0, 1, 0, 1] 2 *
        (((2 : ℕ) : ℚ) / runningSumSpec 4 [0, 1, 0, 1] 2))
      rw [hS, hd2]; norm_num [inFloatRange])
  refine ⟨hd1, hd2, ?_⟩
  rw [h]
  show CFloat.num (dSpec 4 [0, 1, 0, 1] 2 * ((2 : ℕ) : ℚ) / runningSumSpec 4 [0, 1, 0, 1] 2) = _
  rw [hd2, hS]
  norm_num

/-- The interpolation formula on three numbers when none of its operations overflows
or underflows. -/
theorem CFloat.interpolation_inRange (t : Int) (s0 s1 s2 : ℚ)
    (hden : 2 * (2 * s1 - s2 - s0) ≠ 0) (h : interpolationInRange (t : ℚ) s0 s1 s2) :
    (CFloat.ofInt t).add (((CFloat.num s2).sub (CFloat.num s0)).div
      ((CFloat.ofInt 2).mul
        ((((CFloat.ofInt 2).mul (CFloat.num s1)).sub (CFloat.num s2)).sub (CFloat.num s0)))) =
      CFloat.num ((t : ℚ) + (s2 - s0) / (2 * (2 * s1 - s2 - s0))) := by
  obtain ⟨r1, r2, r3, r4, r5, r6, r7⟩ := h
  have h2 : CFloat.ofInt 2 = CFloat.num 2 := by simp [CFloat.ofInt]
  rw [h2]
  simp only [CFloat.ofInt]
  rw [CFloat.sub_inFloatRange r1, CFloat.mul_inFloatRange r2, CFloat.sub_inFloatRange r3,
    CFloat.sub_inFloatRange r4, CFloat.mul_inFloatRange r5, CFloat.div_inFloatRange hden r6,
    CFloat.add_inFloatRange r7]

/-- Claim C19 as stated fails on the code: on the filtered samples of the block
[2^68, -2^69, 2^69, -2^69] with N = 4, where d(1) > 0, the squared differences at the
lags 1 and 3 overflow, the normalised buffer is [1, NaN, 0, NaN], `absoluteThreshold`
returns the lag 2, and `parabolicInterpolation` reads the NaN entries at 1 and 3: the
denominator and the refined lag are NaN, so the refined lag lies in no interval. -/
theorem parabolicInterpolation_within_half_counterexample :
    0 < dSpec 4 (lowPassRecurrence 0 [2 ^ 68, -2 ^ 69, 2 ^ 69, -2 ^ 69]) 1 ∧
    (cumulativeMeanNormalizedDifference
      (difference (YinPitchDetector.create 200 4)
        (lowPassRecurrence 0 [2 ^ 68, -2 ^ 69, 2 ^ 69, -2 ^ 69]))).yinBuffer =
      [CFloat.num 1, CFloat.nan, CFloat.num 0, CFloat.nan] ∧
    absoluteThreshold (cumulativeMeanNormalizedDifference
      (difference (YinPitchDetector.create 200 4)
        (lowPassRecurrence 0 [2 ^ 68, -2 ^ 69, 2 ^ 69, -2 ^ 69]))) = 2 ∧
    parabolicInterpolation (cumulativeMeanNormalizedDifference
      (difference (YinPitchDetector.create 200 4)
        (lowPassRecurrence 0 [2 ^ 68, -2 ^ 69, 2 ^ 69, -2 ^ 69]))) 2 = CFloat.nan := by
  have hbuf := overflow_block_yinBuffer (YinPitchDetector.create 200 4) rfl
  obtain ⟨h1, h2⟩ := nan_neighbours_estimate _ rfl hbuf
  exact ⟨overflow_block_dSpec, hbuf, h1, h2⟩

/-- Claim C19, amended: for every filtered block for which `absoluteThreshold` returns a
lag t other than -1 (whether or not d(1) > 0), t is at least 2, so the boundary branch
(x0 == tauEstimate) of `parabolicInterpolation` is not taken, and d'(t) is a number;
whenever the two neighbouring entries d'(t-1) and d'(x2) are numbers as well (no
overflow has made them NaN or infinite), d'(t) < d'(t-1) and d'(t) <= d'(x2), so the
denominator 2 * (2 * d'(t) - d'(x2) - d'(t-1)) is strictly negative, hence not zero;
and when in addition no operation of the interpolation formula overflows or underflows,
the refined lag is the number t + (d'(x2) - d'(t-1)) / denominator and lies in
(t - 1/2, t + 1/2]. -/
theorem parabolicInterpolation_within_half (self : YinPitchDetector) (x : List ℚ)
    (hne : absoluteThreshold (cumulativeMeanNormalizedDifference (difference self x)) ≠ -1) :
    ∃ t : Nat,
      absoluteThreshold (cumulativeMeanNormalizedDifference (difference self x)) = (t : Int) ∧
      2 ≤ t ∧ t < self.bufferSize ∧
      (if (t : Int) < 1 then (t : Int) else (t : Int) - 1) ≠ (t : Int) ∧
      ∃ s1 : ℚ,
        (cumulativeMeanNormalizedDifference (difference self x)).yinBuffer.getD t
          CFloat.nan = CFloat.num s1 ∧
        ∀ s0 s2 : ℚ,
          (cumulativeMeanNormalizedDifference (difference self x)).yinBuffer.getD (t - 1)
            CFloat.nan = CFloat.num s0 →
          (cumulativeMeanNormalizedDifference (difference self x)).yinBuffer.getD
            (if t + 1 < self.bufferSize then t + 1 else t) CFloat.nan = CFloat.num s2 →
          s1 < s0 ∧ s1 ≤ s2 ∧ 2 * (2 * s1 - s2 - s0) < 0 ∧
          (interpolationInRange (t : ℚ) s0 s1 s2 →
            ∃ b : ℚ,
              parabolicInterpolation (cumulativeMeanNormalizedDifference (difference self x))
                (t : Int) = CFloat.num b ∧
              b = (t : ℚ) + (s2 - s0) / (2 * (2 * s1 - s2 - s0)) ∧
              (t : ℚ) - 1 / 2 < b ∧ b ≤ (t : ℚ) + 1 / 2) := by
  obtain ⟨r, hres, hr2, hrN, a1, h1, _, h0, h2⟩ := estimate_neighbours self x hne
  refine ⟨r, hres, hr2, hrN, ?_, a1, h1, fun s0 s2 hs0 hs2 => ?_⟩
  · rw [if_neg (by omega)]; omega
  have hlt := h0 s0 hs0
  have hle := h2 s2 hs2
  have hden : 2 * (2 * a1 - s2 - s0) < 0 := by linarith
  refine ⟨hlt, hle, hden, fun hrange => ⟨_, ?_, rfl, ?_, ?_⟩⟩
  · have hYN : (cumulativeMeanNormalizedDifference (difference self x)).bufferSize
        = self.bufferSize := rfl
    rw [parabolicInterpolation_eq _ r (by omega), hYN, hs0, hs2, h1]
    have hcast : (((r : ℕ) : Int) : ℚ) = (r : ℚ) := by push_cast; rfl
    have := CFloat.interpolation_inRange (r : Int) s0 a1 s2 (ne_of_lt hden)
      (by rw [hcast]; exact hrange)
    rw [this, hcast]
  · have : -(1 / 2 : ℚ) < (s2 - s0) / (2 * (2 * a1 - s2 - s0)) := by
      rw [lt_div_iff_of_neg hden]; linarith
    linarith
  · have : (s2 - s0) / (2 * (2 * a1 - s2 - s0)) ≤ 1 / 2 := by
      rw [div_le_iff_of_neg hden]; linarith
    linarith

/-- On the block [0, 1, 0, 1] with N = 4 the buffer after `difference` and
`cumulativeMeanNormalizedDifference` is [1, 1, 0, 3/4]. -/
theorem example_yinBuffer :
    (cumulativeMeanNormalizedDifference
      (difference (YinPitchDetector.create 44100 4) [0, 1, 0, 1])).yinBuffer =
      [CFloat.num 1, CFloat.num 1, CFloat.num 0, CFloat.num (3 / 4)] := by
  rw [cmnd_yinBuffer _ _ 3 rfl]
  have h1 : differenceAt 4 [0, 1, 0, 1] 1 = CFloat.num 3 := by
    norm_num [differenceAt, List.range_succ, CFloat.ofRat, CFloat.sub, CFloat.neg, CFloat.add,
      CFloat.mul, overflowBound, underflowBound]
  have h2 : differenceAt 4 [0, 1, 0, 1] 2 = CFloat.num 0 := by
    norm_num [differenceAt, List.range_succ, CFloat.ofRat, CFloat.sub, CFloat.neg, CFloat.add,
      CFloat.mul, overflowBound, underflowBound]
  have h3 : differenceAt 4 [0, 1, 0, 1] 3 = CFloat.num 1 := by
    norm_num [differenceAt, List.range_succ, CFloat.ofRat, CFloat.sub, CFloat.neg, CFloat.add,
      CFloat.mul, overflowBound, underflowBound]
  simp only [List.range'_succ, List.range'_zero, List.map_cons, List.map_nil, h1, h2, h3,
    cmndFrom]
  norm_num [CFloat.add, CFloat.mul, CFloat.div, CFloat.ofInt, CFloat.infTimes, CFloat.ofRat,
    overflowBound, underflowBound, abs_div]

/-- On the block [0, 1, 0, 1] with N = 4 `absoluteThreshold` returns the lag 2. -/
theorem example_absoluteThreshold :
    absoluteThreshold (cumulativeMeanNormalizedDifference
      (difference (YinPitchDetector.create 44100 4) [0, 1, 0, 1])) = 2 := by
  have hbuf := example_yinBuffer
  have hN : (cumulativeMeanNormalizedDifference
      (difference (YinPitchDetector.create 44100 4) [0, 1, 0, 1])).bufferSize = 4 := rfl
  generalize cumulativeMeanNormalizedDifference
    (difference (YinPitchDetector.create 44100 4) [0, 1, 0, 1]) = Y at hbuf hN
  unfold absoluteThreshold
  rw [absoluteThresholdFrom]
  simp only [hN, hbuf]
  norm_num [CFloat.lt]
  rw [descend]
  simp only [hN, hbuf]
  norm_num [CFloat.lt]

/-- Witness of `parabolicInterpolation_within_half`: the block [0, 1, 0, 1] with N = 4,
where the lag found is 2, the entries read are 1, 0 and 3/4, every operation of the
interpolation formula is in the float range and the refined lag is 2 + 1/14. -/
theorem parabolicInterpolation_within_half_witness :
    absoluteThreshold (cumulativeMeanNormalizedDifference
      (difference (YinPitchDetector.create 44100 4) [0, 1, 0, 1])) = 2 ∧
    interpolationInRange 2 1 0 (3 / 4) ∧
    parabolicInterpolation (cumulativeMeanNormalizedDifference
      (difference (YinPitchDetector.create 44100 4) [0, 1, 0, 1])) 2 = CFloat.num (29 / 14) ∧
    (2 : ℚ) - 1 / 2 < 29 / 14 ∧ (29 / 14 : ℚ) ≤ 2 + 1 / 2 := by
  have hrange : interpolationInRange 2 1 0 (3 / 4) := by
    refine ⟨?_, ?_, ?_, ?_, ?_, ?_, ?_⟩
    · exact inFloatRange_of_neg (by norm_num) (by norm_num)
    · exact Or.inl (by norm_num)
    · exact inFloatRange_of_neg (by norm_num) (by norm_num)
    · exact inFloatRange_of_neg (by norm_num) (by norm_num)
    · exact inFloatRange_of_neg (by norm_num) (by norm_num)
    · exact inFloatRange_of_pos (by norm_num) (by norm_num)
    · exact inFloatRange_of_pos (by norm_num) (by norm_num)
  have hthr := example_absoluteThreshold
  have hbuf := example_yinBuffer
  obtain ⟨t, ht, _, _, _, s1, hs1, hall⟩ :=
    parabolicInterpolation_within_half (YinPitchDetector.create 44100 4) [0, 1, 0, 1]
      (by rw [hthr]; decide)
  have ht2 : t = 2 := by
    rw [hthr] at ht
    exact_mod_cast ht.symm
  subst ht2
  have hN : (YinPitchDetector.create 44100 4).bufferSize = 4 := rfl
  rw [hbuf] at hs1 hall
  have hs1' : s1 = 0 := by
    simp only [List.getD_cons_succ, List.getD_cons_zero] at hs1
    injection hs1 with e
    exact e.symm
  subst hs1'
  obtain ⟨_, _, _, hval⟩ := hall 1 (3 / 4) rfl (by rw [hN]; rfl)
  obtain ⟨b, hb, hbv, hb1, hb2⟩ := hval hrange
  have hb' : b = 29 / 14 := by rw [hbv]; norm_num
  rw [hb'] at hb
  exact ⟨hthr, hrange, hb, by norm_num, by norm_num⟩

/-- The result of the part of `detectPitch` after the low-pass loop is NaN or a number
that is 0 or lies in [40,400]: the range check of line 47 replaces every number outside
[40,400] and both infinities by 0, and lets NaN through. -/
theorem estimatePitch_result (self : YinPitchDetector) (filteredBuffer : List ℚ) :
    (estimatePitch self filteredBuffer).1 = CFloat.nan ∨
    ∃ p : ℚ, (estimatePitch self filteredBuffer).1 = CFloat.num p ∧
      (p = 0 ∨ (40 ≤ p ∧ p ≤ 400)) := by
  unfold estimatePitch
  simp only
  generalize (if absoluteThreshold (cumulativeMeanNormalizedDifference
      (difference self filteredBuffer)) ≠ -1 then
        (CFloat.num (cumulativeMeanNormalizedDifference
          (difference self filteredBuffer)).sampleRate).div
          (parabolicInterpolation (cumulativeMeanNormalizedDifference
            (difference self filteredBuffer))
            (absoluteThreshold (cumulativeMeanNormalizedDifference
              (difference self filteredBuffer))))
      else CFloat.num 0.0) = pitch
  cases pitch with
  | num q =>
    right
    by_cases h1 : q < 40
    · exact ⟨0, by norm_num [CFloat.lt, h1], Or.inl rfl⟩
    · by_cases h2 : 400 < q
      · exact ⟨0, by norm_num [CFloat.lt, h1, h2], Or.inl rfl⟩
      · exact ⟨q, by norm_num [CFloat.lt, h1, h2], Or.inr ⟨not_lt.mp h1, not_lt.mp h2⟩⟩
  | posInf => right; exact ⟨0, by norm_num [CFloat.lt], Or.inl rfl⟩
  | negInf => right; exact ⟨0, by norm_num [CFloat.lt], Or.inl rfl⟩
  | nan => left; norm_num [CFloat.lt]

/-- The part of `detectPitch` after the low-pass loop when the lag found is 2 and the
refined lag is NaN: the pitch sampleRate / NaN is NaN, both comparisons of the range
check (YinPitchDetector.h:47) are false, and NaN is returned. -/
theorem estimatePitch_nan (self : YinPitchDetector) (filteredBuffer : List ℚ)
    (h1 : absoluteThreshold (cumulativeMeanNormalizedDifference
      (difference self filteredBuffer)) = 2)
    (h2 : parabolicInterpolation (cumulativeMeanNormalizedDifference
      (difference self filteredBuffer)) 2 = CFloat.nan) :
    estimatePitch self filteredBuffer =
      (CFloat.nan, cumulativeMeanNormalizedDifference (difference self filteredBuffer)) := by
  unfold estimatePitch
  simp only [h1, h2]
  norm_num [CFloat.div, CFloat.lt]

/-- Claim C11, the code at the failing input: a detector of 4 samples per block in its
initial state, on the block of finite samples [2^68, -2^69, 2^69, -2^69]. The squared
differences of the filtered samples at the lags 1 and 3 exceed the float range, so
d(1) and d(3) are +infinity and the normalised buffer is [1, NaN, 0, NaN];
`absoluteThreshold` returns the lag 2, the refined lag and the pitch are NaN, both
comparisons of the range check on line 47 are false for NaN, and `detectPitch` returns
NaN, which is neither 0 nor a value in [40,400]. -/
theorem detectPitch_returns_nan :
    ∃ self1 : YinPitchDetector,
      detectPitch (YinPitchDetector.create 200 4) [2 ^ 68, -2 ^ 69, 2 ^ 69, -2 ^ 69] =
        some (CFloat.nan, self1) ∧
      self1.yinBuffer = [CFloat.num 1, CFloat.nan, CFloat.num 0, CFloat.nan] ∧
      absoluteThreshold self1 = 2 ∧
      parabolicInterpolation self1 2 = CFloat.nan := by
  have hN : ({ YinPitchDetector.create 200 4 with
      prevSample := lowPassState (YinPitchDetector.create 200 4).prevSample
        (List.take (YinPitchDetector.create 200 4).bufferSize
          [2 ^ 68, -2 ^ 69, 2 ^ 69, -2 ^ 69]) } : YinPitchDetector).bufferSize = 4 := rfl
  have hf : lowPassRecurrence (YinPitchDetector.create 200 4).prevSample
      (List.take (YinPitchDetector.create 200 4).bufferSize [2 ^ 68, -2 ^ 69, 2 ^ 69, -2 ^ 69]) =
      lowPassRecurrence 0 [2 ^ 68, -2 ^ 69, 2 ^ 69, -2 ^ 69] := by
    have e1 : (YinPitchDetector.create 200 4).prevSample = 0 := by
      norm_num [YinPitchDetector.create]
    have e2 : (YinPitchDetector.create 200 4).bufferSize = 4 := rfl
    rw [e1, e2]
    rfl
  rw [detectPitch_in_bounds _ _ (by decide), hf]
  have hbuf := overflow_block_yinBuffer _ hN
  obtain ⟨h1, h2⟩ := nan_neighbours_estimate _ rfl hbuf
  rw [estimatePitch_nan _ _ h1 h2]
  exact ⟨_, rfl, hbuf, h1, h2⟩

/-- A block that does not satisfy `commitsLockedPitch` does not reach the commit: the
published fields are left as they were or are cleared to the sentinel values. -/
theorem processBlock_without_commit (log2 : ℚ → ℚ) (self : DefaultAudioProcessor) (d : ℚ)
    (h : ¬ commitsLockedPitch self d) :
    ((processBlock log2 self d).currentPitch = self.currentPitch ∧
      (processBlock log2 self d).currentNote = self.currentNote ∧
      (processBlock log2 self d).currentString = self.currentString ∧
      (processBlock log2 self d).currentFret = self.currentFret) ∨
    ((processBlock log2 self d).currentPitch = 0 ∧
      (processBlock log2 self d).currentNote = "---" ∧
      (processBlock log2 self d).currentString = -1 ∧
      (processBlock log2 self d).currentFret = -1) := by
  by_cases hd : 40 ≤ d ∧ d ≤ 400
  · by_cases hc : |d - self.smoothedPitch| < 3 ∨ self.smoothedPitch = 0
    · by_cases hn : self.stableFrameCount + 1 < 3
      · rw [processBlock_smooth_nocommit log2 self d hd hc hn]
        exact Or.inl ⟨rfl, rfl, rfl, rfl⟩
      · exfalso
        apply h
        unfold commitsLockedPitch
        norm_num [requiredStableFrames]
        exact ⟨hd, hc, by omega⟩
    · rw [not_or, not_lt] at hc
      rw [processBlock_jump log2 self d hd hc.1 hc.2]
      exact Or.inl ⟨rfl, rfl, rfl, rfl⟩
  · rw [processBlock_invalid log2 self d hd]
    split_ifs
    · exact Or.inr ⟨rfl, rfl, rfl, rfl⟩
    · exact Or.inl ⟨rfl, rfl, rfl, rfl⟩
    · exact Or.inl ⟨rfl, rfl, rfl, rfl⟩

/-- A block that satisfies `commitsLockedPitch` commits the new smoothed pitch. -/
theorem processBlock_with_commit (log2 : ℚ → ℚ) (self : DefaultAudioProcessor) (d : ℚ)
    (h : commitsLockedPitch self d) :
    (processBlock log2 self d).currentPitch = 0.7 * self.smoothedPitch + 0.3 * d ∧
    (processBlock log2 self d).smoothedPitch = 0.7 * self.smoothedPitch + 0.3 * d := by
  obtain ⟨hv, hw, hn⟩ := h
  norm_num [requiredStableFrames] at hv hw hn
  rw [processBlock_smooth_commit log2 self d hv hw (by omega),
    updateCurrentNote_currentPitch, updateCurrentNote_smoothedPitch]
  exact ⟨rfl, rfl⟩

end BassBud
